import Mathlib

/-!
Verification of the Equihash collision-search engine (`src/crypto/equihash.cpp`):
row algebra, collision reducer, basic and optimised solvers, and the verifier.

The C++ code is shallowly embedded: rows (`FullStepRow`/`TruncatedStepRow`) become
byte lists holding exactly the live bytes (hash part followed by the index
history); the fixed `WIDTH` slack bytes of the C++ arrays are never read by any
of the embedded operations and are omitted.  Machine integers become `Nat` with
explicit `% 2 ^ w` / masking where the code truncates.  The opaque blake2b base
state is modelled as an arbitrary function from seed to digest bytes, normalised
to the requested output length with bytes reduced mod 256 (the hash primitive is
an external collaborator producing exactly that shape).  The cancellation probe
is threaded explicitly together with the list of labels it has been asked, and
solver cancellation is an `Except.error`.

Helpers that live in the repository's `equihash.h` (absent from the sources:
`CompareSR`, `IndicesBefore`, `DistinctIndices`, `IsValidBranch`) are modelled
from the design document; their doc comments say so.
-/

namespace Equihash

/-- The template parameters `N, K` of `Equihash<N,K>`. -/
structure Params where
  n : Nat
  k : Nat
deriving DecidableEq

/-- `CollisionBitLength = N/(K+1)`. -/
def Params.CollisionBitLength (p : Params) : Nat := p.n / (p.k + 1)

/-- `CollisionByteLength = (CollisionBitLength+7)/8`. -/
def Params.CollisionByteLength (p : Params) : Nat := (p.CollisionBitLength + 7) / 8

/-- `ExpandedHashLength = (K+1)*CollisionByteLength`. -/
def Params.ExpandedHashLength (p : Params) : Nat := (p.k + 1) * p.CollisionByteLength

/-- `init_size = 1 << (CollisionBitLength + 1)`. -/
def Params.initSize (p : Params) : Nat := 2 ^ (p.CollisionBitLength + 1)

/-- `soln_size = 1 << K`. -/
def Params.solnSize (p : Params) : Nat := 2 ^ p.k

/-- A step row: the live bytes of the C++ `hash` array (expanded hash bytes
followed by the index history). -/
abbrev Row := List Nat

/-- The opaque cloneable blake2b base state: for each 32-bit seed it determines
the finalised digest bytes.  Arbitrary functions are admitted; `hashOutput`
below normalises the shape. -/
abbrev HashState := Nat → List Nat

/-- `EhIndexToArray`: store an `eh_index` big-endian in four bytes. -/
def EhIndexToArray (i : Nat) : List Nat :=
  [i / 2 ^ 24 % 256, i / 2 ^ 16 % 256, i / 2 ^ 8 % 256, i % 256]

/-- `ArrayToEhIndex`: read a big-endian `eh_index` from four bytes. -/
def ArrayToEhIndex (a : List Nat) : Nat :=
  a.getD 0 0 * 2 ^ 24 + a.getD 1 0 * 2 ^ 16 + a.getD 2 0 * 2 ^ 8 + a.getD 3 0

/-- `TruncateIndex`: `(i >> (ilen - 8)) & 0xff`. -/
def TruncateIndex (i : Nat) (ilen : Nat) : Nat := (i >>> (ilen - 8)) &&& 0xff

/-- `UntruncateIndex`: `(t << (ilen - 8)) | r`. -/
def UntruncateIndex (t r : Nat) (ilen : Nat) : Nat := (t <<< (ilen - 8)) ||| r

/-- The blake2b finalisation for seed `i` with output length
`ExpandedHashLength`: the opaque digest function normalised to exactly that
many bytes. -/
def hashOutput (p : Params) (base : HashState) (i : Nat) : List Nat :=
  (List.range p.ExpandedHashLength).map (fun t => (base i).getD t 0 % 256)

/-- The `StepRow` constructor's hash part: the digest with the high byte of
every `CollisionByteLength` block masked down to `CollisionBitLength` bits. -/
def StepRowHash (p : Params) (base : HashState) (i : Nat) : List Nat :=
  (hashOutput p base i).mapIdx (fun t b =>
    if t % p.CollisionByteLength = 0 then
      b &&& (0xff >>> (8 * p.CollisionByteLength - p.CollisionBitLength))
    else b)

/-- The `FullStepRow` seed constructor: masked hash bytes followed by the
big-endian seed. -/
def fullStepRow (p : Params) (base : HashState) (i : Nat) : Row :=
  StepRowHash p base i ++ EhIndexToArray i

/-- The `TruncatedStepRow` seed constructor: masked hash bytes followed by the
single truncated-index byte. -/
def truncStepRow (p : Params) (base : HashState) (i : Nat) (ilen : Nat) : Row :=
  StepRowHash p base i ++ [TruncateIndex i ilen]

/-- `StepRow::IsZero`: the first `len` bytes are all zero. -/
def IsZero (r : Row) (len : Nat) : Bool := (r.take len).all (· == 0)

/-- `HasCollision`: the first `l` bytes of the two rows agree. -/
def HasCollision (a b : Row) (l : Nat) : Bool := a.take l == b.take l

/-- `FullStepRow::GetIndices`: read the stored big-endian indices from offset
`len`, 4 bytes at a time, while the loop counter is below `lenIndices`. -/
def GetIndices (r : Row) (len lenIndices : Nat) : List Nat :=
  (List.range ((lenIndices + 3) / 4)).map
    (fun t => ArrayToEhIndex ((r.drop (len + 4 * t)).take 4))

/-- `TruncatedStepRow::GetTruncatedIndices`: the `lenIndices` truncated-index
bytes starting at offset `len`. -/
def GetTruncatedIndices (r : Row) (len lenIndices : Nat) : List Nat :=
  (r.drop len).take lenIndices

/-- Strict lexicographic comparison of byte lists (unsigned `memcmp < 0`). -/
def lexLt : List Nat → List Nat → Bool
  | _, [] => false
  | [], _ :: _ => true
  | x :: xs, y :: ys => if x < y then true else if y < x then false else lexLt xs ys

/-- Modelled from the spec: `CompareSR`, the sort comparator from `equihash.h`
(absent from the sources) — lexicographic unsigned comparison over the first
`len` bytes. -/
def CompareSR (len : Nat) (a b : Row) : Bool := lexLt (a.take len) (b.take len)

/-- The big-endian value of a byte list. -/
def beValue (l : List Nat) : Nat := l.foldl (fun acc b => acc * 256 + b) 0

/-- The leftmost index of a row's history: the big-endian value of the first
`stride` bytes after the hash part (`stride = 4` for full rows, `1` for
truncated rows). -/
def leftmostIndex (stride : Nat) (r : Row) (len : Nat) : Nat :=
  beValue ((r.drop len).take stride)

/-- Modelled from the spec: `IndicesBefore` from `equihash.h` (absent from the
sources) — `a ⊲ b` iff the leftmost index of `a`'s history is strictly smaller
than the leftmost index of `b`'s history. -/
def IndicesBefore (stride : Nat) (a b : Row) (len : Nat) : Bool :=
  leftmostIndex stride a len < leftmostIndex stride b len

/-- Modelled from the spec: `DistinctIndices` from `equihash.h` (absent from
the sources) — the combined `2 * lenIndices / 4` indices of the two rows,
sorted, are strictly increasing; equivalently the combined list has no
duplicate. -/
def DistinctIndices (a b : Row) (len lenIndices : Nat) : Bool :=
  (GetIndices a len lenIndices ++ GetIndices b len lenIndices).Nodup

/-- Modelled from the spec: `IsValidBranch` from `equihash.h` (absent from the
sources) — the truncation of the row's leftmost full index matches the
expected truncated byte. -/
def IsValidBranch (a : Row) (len : Nat) (ilen : Nat) (t : Nat) : Bool :=
  TruncateIndex (ArrayToEhIndex ((a.drop len).take 4)) ilen == t

/-- The XOR part of the merge constructors: bytes `t ..< len` of `a` XOR'd with
those of `b`, written to positions `0 ..< len - t`. -/
def XorSlice (a b : Row) (t len : Nat) : List Nat :=
  List.zipWith (fun x y => x ^^^ y) ((a.drop t).take (len - t)) ((b.drop t).take (len - t))

/-- The merge constructor shared by `FullStepRow` and `TruncatedStepRow`
(which differ only in the index stride): XOR of the trimmed hash parts,
followed by the two index histories in canonical order. -/
def mergeRow (stride : Nat) (a b : Row) (len lenIndices : Nat) (t : Nat) : Row :=
  XorSlice a b t len ++
    (if IndicesBefore stride a b len then
      (a.drop len).take lenIndices ++ (b.drop len).take lenIndices
    else
      (b.drop len).take lenIndices ++ (a.drop len).take lenIndices)

/-- `FullStepRow` merge constructor (index stride 4). -/
def mergeFull (a b : Row) (len lenIndices : Nat) (t : Nat) : Row :=
  mergeRow 4 a b len lenIndices t

/-- `TruncatedStepRow` merge constructor (index stride 1). -/
def mergeTrunc (a b : Row) (len lenIndices : Nat) (t : Nat) : Row :=
  mergeRow 1 a b len lenIndices t

/-- The inner loop of `IsProbablyDuplicate`: scan the later entries for the
first unchecked one holding value `v` and mark it.  Entries are
(value, checked) pairs, mirroring `indices[]` together with
`checked_index[]`. -/
def markFirst (v : Nat) : List (Nat × Bool) → Option (List (Nat × Bool))
  | [] => none
  | (w, c) :: rest =>
      if !c && w == v then some ((w, true) :: rest)
      else (markFirst v rest).map (fun r => (w, c) :: r)

/-- The outer loop of `IsProbablyDuplicate`: for each position `z` in order,
if it is unchecked, pair it with the first later unchecked equal entry
(marking both).  The fuel argument (instantiated with the list length) only
serves termination: `markFirst` preserves the length.  -/
def ipdRun : Nat → List (Nat × Bool) → List (Nat × Bool)
  | _, [] => []
  | 0, s => s
  | fuel + 1, (v, c) :: rest =>
      if c then (v, c) :: ipdRun fuel rest
      else
        match markFirst v rest with
        | some rest' => (v, true) :: ipdRun fuel rest'
        | none => (v, false) :: ipdRun fuel rest

/-- `IsProbablyDuplicate(indices, lenIndices)`: run the greedy pairing over the
`lenIndices` bytes and report whether every position ended up checked. -/
def IsProbablyDuplicate (indices : List Nat) (lenIndices : Nat) : Bool :=
  (ipdRun lenIndices ((indices.take lenIndices).map (fun v => (v, false)))).all (fun q => q.2)

/-- The values at the unchecked positions of an `ipdRun` state, in order. -/
def uncheckedVals (s : List (Nat × Bool)) : List Nat :=
  (s.filter (fun q => !q.2)).map (fun q => q.1)

/-- Greedy perfect-pairing check on a plain value list: pair the head with the
first later equal value and recurse on the rest. -/
def pairable : List Nat → Bool
  | [] => true
  | x :: xs => xs.contains x && pairable (xs.erase x)
termination_by l => l.length
decreasing_by
  simp only [List.length_cons]
  exact Nat.lt_succ_of_le (List.Sublist.length_le (List.erase_sublist x xs))

/-! ### The collision reducer -/

/-- Step 2b: the inner `while` extending the current run — the least `j' ≥ j`
such that `i + j'` is out of range or `X[i + j']` no longer collides with
`X[i]` on the first `clen` bytes. -/
def runLengthGo (X : List Row) (clen i : Nat) : Nat → Nat → Nat
  | 0, j => j
  | fuel + 1, j =>
      if i + j < X.length ∧ HasCollision (X.getD i []) (X.getD (i + j) []) clen then
        runLengthGo X clen i fuel (j + 1)
      else j

def runLength (X : List Row) (clen i j : Nat) : Nat :=
  runLengthGo X clen i (X.length - (i + j)) j

/-- Step 2c: the tuples produced for the run `[i, i+j)` — for every `l < m < j`
whatever `emitPair` produces for `(X[i+l], X[i+m])`. -/
def runPairs {α : Type} (emitPair : Row → Row → List α) (X : List Row) (i j : Nat) : List α :=
  (List.range (j - 1)).flatMap (fun l =>
    (List.range' (l + 1) (j - 1 - l)).flatMap (fun m =>
      emitPair (X.getD (i + l) []) (X.getD (i + m) [])))

/-- Steps 2d/2e: `while (posFree < limit && Xc.size() > 0) X[posFree++] = Xc.back(), Xc.pop_back()`. -/
def backfillGo (limit : Nat) : Nat → List Row → Nat → List Row → List Row × Nat × List Row
  | 0, X, pos, Xc => (X, pos, Xc)
  | fuel + 1, X, pos, Xc =>
      if h : pos < limit ∧ Xc ≠ [] then
        backfillGo limit fuel (X.set pos (Xc.getLast h.2)) (pos + 1) Xc.dropLast
      else (X, pos, Xc)

def backfill (X : List Row) (pos limit : Nat) (Xc : List Row) : List Row × Nat × List Row :=
  backfillGo limit Xc.length X pos Xc

/-- The collision scan (`while (i < X.size() - 1)`): detect the run, emit its
pairwise merges into `Xc`, backfill into the already-read slots, advance.
The fuel argument (instantiated with `X.length + 1` by callers) only serves
termination; each iteration advances `i` by `j ≥ 1` and preserves the list
length. -/
def scanColl (emitPair : Row → Row → List Row) (clen : Nat) :
    Nat → List Row → Nat → Nat → List Row → List Row × Nat × List Row
  | 0, X, _, pos, Xc => (X, pos, Xc)
  | fuel + 1, X, i, pos, Xc =>
      if i < X.length - 1 then
        scanColl emitPair clen fuel
          (backfill X pos (i + runLength X clen i 1)
            (Xc ++ runPairs emitPair X i (runLength X clen i 1))).1
          (i + runLength X clen i 1)
          (backfill X pos (i + runLength X clen i 1)
            (Xc ++ runPairs emitPair X i (runLength X clen i 1))).2.1
          (backfill X pos (i + runLength X clen i 1)
            (Xc ++ runPairs emitPair X i (runLength X clen i 1))).2.2
      else (X, pos, Xc)

/-- Steps 2e–2g after the scan: drain `Xc` into the free slots, then either
append the overflow to the tail or truncate the unused slots. -/
def roundTail (s : List Row × Nat × List Row) : List Row :=
  if (backfill s.1 s.2.1 s.1.length s.2.2).2.2 ≠ [] then
    (backfill s.1 s.2.1 s.1.length s.2.2).1 ++ (backfill s.1 s.2.1 s.1.length s.2.2).2.2
  else
    (backfill s.1 s.2.1 s.1.length s.2.2).1.take (backfill s.1 s.2.1 s.1.length s.2.2).2.1

/-- One in-place collision reduction applied to an (already sorted) list:
scan plus tail handling. -/
def collideCompact (emitPair : Row → Row → List Row) (clen : Nat) (X : List Row) : List Row :=
  roundTail (scanColl emitPair clen (X.length + 1) X 0 0 [])

/-- The fresh-output-list rendering of the same scan: the admissible merges of
all runs, concatenated in emission order (the spec's correctness-equivalent,
memory-doubling alternative).  Fuel as in `scanColl`. -/
def scanEmits {α : Type} (emitPair : Row → Row → List α) (clen : Nat) :
    Nat → List Row → Nat → List α
  | 0, _, _ => []
  | fuel + 1, X, i =>
      if i < X.length - 1 then
        runPairs emitPair X i (runLength X clen i 1) ++
          scanEmits emitPair clen fuel X (i + runLength X clen i 1)
      else []

/-- Insertion of one row into a list sorted by `CompareSR len`: it goes in
front of the first element not strictly below it. -/
def insertRow (len : Nat) (r : Row) : List Row → List Row
  | [] => [r]
  | x :: xs => if CompareSR len x r then x :: insertRow len r xs else r :: x :: xs

/-- `std::sort(X.begin(), X.end(), CompareSR(len))`, modelled as an insertion
sort (the algorithm is unspecified; only the comparator is the code's). -/
def sortRows (len : Nat) (X : List Row) : List Row :=
  X.foldr (insertRow len) []

/-- The pair emission of a `BasicSolve` middle round (step 2c): merge when the
combined indices are distinct. -/
def emitBasic (p : Params) (hashLen lenIndices : Nat) (a b : Row) : List Row :=
  if DistinctIndices a b hashLen lenIndices then
    [mergeFull a b hashLen lenIndices p.CollisionByteLength]
  else []

/-- The pair emission of an `OptimisedSolve` truncated round (step 2c): merge
unconditionally, then drop the row when its remaining prefix is zero and its
truncated index history is probably a duplicate. -/
def emitTrunc (p : Params) (hashLen lenIndices : Nat) (a b : Row) : List Row :=
  let Xi := mergeTrunc a b hashLen lenIndices p.CollisionByteLength
  if !(IsZero Xi (hashLen - p.CollisionByteLength) &&
      IsProbablyDuplicate
        (GetTruncatedIndices Xi (hashLen - p.CollisionByteLength) (2 * lenIndices))
        (2 * lenIndices)) then
    [Xi]
  else []

/-- The pair emission of `CollideBranches`: distinct indices, and the two
rows' truncated leftmost indices must match the expected `(lt, rt)` pair in
one of the two orderings; merge with the matching assignment. -/
def emitCB (p : Params) (hashLen lenIndices ilen lt rt : Nat) (a b : Row) : List Row :=
  if DistinctIndices a b hashLen lenIndices then
    if IsValidBranch a hashLen ilen lt && IsValidBranch b hashLen ilen rt then
      [mergeFull a b hashLen lenIndices p.CollisionByteLength]
    else if IsValidBranch b hashLen ilen lt && IsValidBranch a hashLen ilen rt then
      [mergeFull b a hashLen lenIndices p.CollisionByteLength]
    else []
  else []

/-- `CollideBranches` (the caller sorts beforehand). -/
def CollideBranches (p : Params) (hashLen lenIndices clen ilen lt rt : Nat) (X : List Row) :
    List Row :=
  collideCompact (emitCB p hashLen lenIndices ilen lt rt) clen X

/-- The spec's correctness-equivalent, memory-doubling alternative to one
`BasicSolve` round: allocate a fresh output list holding exactly the merges
emitted during the scan over the sorted list. -/
def freshBasicRound (p : Params) (hashLen lenIndices : Nat) (X : List Row) : List Row :=
  scanEmits (emitBasic p hashLen lenIndices) p.CollisionByteLength
    ((sortRows p.CollisionByteLength X).length + 1) (sortRows p.CollisionByteLength X) 0

/-! ### The verifier -/

/-- One level of `IsValidSolution`'s pairwise walk.  `none` models an
out-of-bounds access `X[i+1]` (odd list); `some none` means a validity check
failed (the verifier returns `false`); `some (some Xc)` is the next level's
list. -/
def validateLevel (p : Params) (hashLen lenIndices : Nat) : List Row → Option (Option (List Row))
  | [] => some (some [])
  | [_] => none
  | a :: b :: rest =>
      if ¬ HasCollision a b p.CollisionByteLength then some none
      else if IndicesBefore 4 b a hashLen then some none
      else if ¬ DistinctIndices a b hashLen lenIndices then some none
      else
        match validateLevel p hashLen lenIndices rest with
        | none => none
        | some none => some none
        | some (some Xc) => some (some (mergeFull a b hashLen lenIndices p.CollisionByteLength :: Xc))

/-- `runLevels p ℓ hashLen lenIndices X`: iterate `validateLevel` `ℓ` times,
threading `hashLen -= CollisionByteLength` and `lenIndices *= 2`. -/
def runLevels (p : Params) : Nat → Nat → Nat → List Row → Option (Option (List Row))
  | 0, _, _, X => some (some X)
  | ℓ + 1, hashLen, lenIndices, X =>
      match validateLevel p hashLen lenIndices X with
      | none => none
      | some none => some none
      | some (some Xc) => runLevels p ℓ (hashLen - p.CollisionByteLength) (2 * lenIndices) Xc

/-- The verifier's `while (X.size() > 1)` loop.  Fuel only serves termination
(each successful level halves the length); `none` models an out-of-bounds
access or the failure of the final `assert(X.size() == 1)`. -/
def validLoop (p : Params) : Nat → Nat → Nat → List Row → Option Bool
  | 0, _, _, _ => none
  | fuel + 1, hashLen, lenIndices, X =>
      if X.length > 1 then
        match validateLevel p hashLen lenIndices X with
        | none => none
        | some none => some false
        | some (some Xc) =>
            validLoop p fuel (hashLen - p.CollisionByteLength) (2 * lenIndices) Xc
      else if X.length = 1 then some (IsZero (X.getD 0 []) hashLen)
      else none

/-- `Equihash<N,K>::IsValidSolution`, with `none` marking the undefined
behaviours (out-of-bounds read / assertion failure) that the embedding makes
explicit. -/
def IsValidSolution (p : Params) (base : HashState) (soln : List Nat) : Option Bool :=
  if soln.length ≠ p.solnSize then some false
  else
    validLoop p (soln.length + 1) p.ExpandedHashLength 4
      (soln.map (fun i => fullStepRow p base i))

/-! ### The solvers -/

/-- The remaining hash length at level `ℓ`. -/
def Params.hashLenAt (p : Params) (ℓ : Nat) : Nat :=
  p.ExpandedHashLength - ℓ * p.CollisionByteLength

/-- `recreate_size = UntruncateIndex(1, 0, CollisionBitLength + 1)`. -/
def Params.recreateSize (p : Params) : Nat :=
  UntruncateIndex 1 0 (p.CollisionBitLength + 1)

/-- The labels at which the cancellation probe is invoked. -/
inductive EhSolverCancelCheck where
  | ListGeneration | ListSorting | ListColliding | RoundEnd
  | FinalSorting | FinalColliding
  | PartialGeneration | PartialSorting | PartialSubtreeEnd | PartialIndexEnd | PartialEnd
deriving DecidableEq

/-- The list of labels the probe has been asked, in order. -/
abbrev Log := List EhSolverCancelCheck

/-- The pair emission of `BasicSolve`'s final round: merge with trim 0 and, when
the combined indices are distinct, record the `2^K`-index solution. -/
def emitSolnBasic (p : Params) (hashLen lenIndices : Nat) (a b : Row) : List (List Nat) :=
  let res := mergeRow 4 a b hashLen lenIndices 0
  if DistinctIndices a b hashLen lenIndices then [GetIndices res hashLen (2 * lenIndices)]
  else []

/-- The pair emission of `OptimisedSolve`'s final truncated round: merge with
trim 0 and record the truncated index history unconditionally. -/
def emitPSoln (p : Params) (hashLen lenIndices : Nat) (a b : Row) : List (List Nat) :=
  let res := mergeRow 1 a b hashLen lenIndices 0
  [GetTruncatedIndices res hashLen (2 * lenIndices)]

/-- The initial full-row list, one row per seed. -/
def initialListFull (p : Params) (base : HashState) : List Row :=
  (List.range p.initSize).map (fullStepRow p base)

/-- The initial truncated-row list, one row per seed. -/
def initialListTrunc (p : Params) (base : HashState) : List Row :=
  (List.range p.initSize).map (fun i => truncStepRow p base i (p.CollisionBitLength + 1))

/-- One full middle round of `BasicSolve`: sort by the collision bytes, then
collide and compact in place. -/
def basicRound (p : Params) (hashLen lenIndices : Nat) (X : List Row) : List Row :=
  collideCompact (emitBasic p hashLen lenIndices) p.CollisionByteLength
    (sortRows p.CollisionByteLength X)

/-- One truncated middle round of `OptimisedSolve`. -/
def truncRound (p : Params) (hashLen lenIndices : Nat) (X : List Row) : List Row :=
  collideCompact (emitTrunc p hashLen lenIndices) p.CollisionByteLength
    (sortRows p.CollisionByteLength X)

/-- The middle-round loop `for (r = 1; r < K && X.size() > 0; r++)` of
`BasicSolve`, without probes; returns the final list together with the final
`hashLen` and `lenIndices`. -/
def basicRoundsRecGo (p : Params) (base : HashState) :
    Nat → Nat → Nat → Nat → List Row → List Row × Nat × Nat
  | 0, _, hashLen, lenIndices, X => (X, hashLen, lenIndices)
  | fuel + 1, r, hashLen, lenIndices, X =>
      if r < p.k ∧ X ≠ [] then
        basicRoundsRecGo p base fuel (r + 1) (hashLen - p.CollisionByteLength) (2 * lenIndices)
          (basicRound p hashLen lenIndices X)
      else (X, hashLen, lenIndices)

def basicRoundsRec (p : Params) (base : HashState) (r hashLen lenIndices : Nat) (X : List Row) :
    List Row × Nat × Nat :=
  basicRoundsRecGo p base (p.k - r) r hashLen lenIndices X

/-- The middle-round loop of `OptimisedSolve`'s truncated phase, without
probes. -/
def truncRoundsRecGo (p : Params) (base : HashState) :
    Nat → Nat → Nat → Nat → List Row → List Row × Nat × Nat
  | 0, _, hashLen, lenIndices, X => (X, hashLen, lenIndices)
  | fuel + 1, r, hashLen, lenIndices, X =>
      if r < p.k ∧ X ≠ [] then
        truncRoundsRecGo p base fuel (r + 1) (hashLen - p.CollisionByteLength) (2 * lenIndices)
          (truncRound p hashLen lenIndices X)
      else (X, hashLen, lenIndices)

def truncRoundsRec (p : Params) (base : HashState) (r hashLen lenIndices : Nat) (X : List Row) :
    List Row × Nat × Nat :=
  truncRoundsRecGo p base (p.k - r) r hashLen lenIndices X

/-- `BasicSolve` with a never-cancelling probe: generation, `K - 1` reduction
rounds, final sort and collision scan collecting the solution list. -/
def basicSolveFinal (p : Params) (base : HashState) (s : List Row × Nat × Nat) :
    List (List Nat) :=
  if s.1.length > 1 then
    scanEmits (emitSolnBasic p s.2.1 s.2.2) s.2.1
      ((sortRows s.2.1 s.1).length + 1) (sortRows s.2.1 s.1) 0
  else []

def basicSolvePure (p : Params) (base : HashState) : List (List Nat) :=
  basicSolveFinal p base (basicRoundsRec p base 1 p.ExpandedHashLength 4 (initialListFull p base))

/-- The truncated phase of `OptimisedSolve` with a never-cancelling probe,
returning the list of partial solutions. -/
def truncSolveFinal (p : Params) (base : HashState) (s : List Row × Nat × Nat) :
    List (List Nat) :=
  if s.1.length > 1 then
    scanEmits (emitPSoln p s.2.1 s.2.2) s.2.1
      ((sortRows s.2.1 s.1).length + 1) (sortRows s.2.1 s.1) 0
  else []

def truncSolvePure (p : Params) (base : HashState) : List (List Nat) :=
  truncSolveFinal p base (truncRoundsRec p base 1 p.ExpandedHashLength 1 (initialListTrunc p base))

/-- Step B.1: the candidate leaf list for position `i` of a partial solution:
all untruncations of its `i`-th byte. -/
def icList (p : Params) (base : HashState) (pSoln : List Nat) (i : Nat) : List Row :=
  (List.range p.recreateSize).map (fun j =>
    fullStepRow p base (UntruncateIndex (pSoln.getD i 0) j (p.CollisionBitLength + 1)))

/-- The reconstruction cascade (`for (r = 0; r <= K; r++)` with `break`s):
merge the candidate list into the occupied slots, or store it in the first
free slot.  `none` models `goto invalidsolution`. -/
def cascadeRecGo (p : Params) (pSoln : List Nat) :
    Nat → Nat → Nat → Nat → Nat → List Row → List (Option (List Row)) →
      Option (List (Option (List Row)) × Nat × Nat)
  | 0, _, _, hashLen, lenIndices, _, X => some (X, hashLen, lenIndices)
  | fuel + 1, r, rti, hashLen, lenIndices, ic, X =>
      if r ≤ p.k then
        if r < X.length then
          match X.getD r none with
          | some xr =>
              if (CollideBranches p hashLen lenIndices p.CollisionByteLength
                  (p.CollisionBitLength + 1) (pSoln.getD (rti - 2 ^ r) 0) (pSoln.getD rti 0)
                  (sortRows hashLen (ic ++ xr))).length = 0 then none
              else
                cascadeRecGo p pSoln fuel (r + 1) (rti - 2 ^ r)
                  (hashLen - p.CollisionByteLength) (2 * lenIndices)
                  (CollideBranches p hashLen lenIndices p.CollisionByteLength
                    (p.CollisionBitLength + 1) (pSoln.getD (rti - 2 ^ r) 0) (pSoln.getD rti 0)
                    (sortRows hashLen (ic ++ xr)))
                  (X.set r none)
          | none => some (X.set r (some ic), hashLen, lenIndices)
        else some (X ++ [some ic], hashLen, lenIndices)
      else some (X, hashLen, lenIndices)

def cascadeRec (p : Params) (pSoln : List Nat) (r rti hashLen lenIndices : Nat)
    (ic : List Row) (X : List (Option (List Row))) :
    Option (List (Option (List Row)) × Nat × Nat) :=
  cascadeRecGo p pSoln (p.k + 1 - r) r rti hashLen lenIndices ic X

/-- Step B's `for (i = 0; i < soln_size; i++)` loop, without probes. -/
def recreateLoopGo (p : Params) (base : HashState) (pSoln : List Nat) :
    Nat → Nat → (List (Option (List Row)) × Nat × Nat) →
      Option (List (Option (List Row)) × Nat × Nat)
  | 0, _, st => some st
  | fuel + 1, i, st =>
      if i < p.solnSize then
        match cascadeRec p pSoln 0 i p.ExpandedHashLength 4 (icList p base pSoln i) st.1 with
        | none => none
        | some st2 => recreateLoopGo p base pSoln fuel (i + 1) st2
      else some st

def recreateLoop (p : Params) (base : HashState) (pSoln : List Nat) (i : Nat)
    (st : List (Option (List Row)) × Nat × Nat) :
    Option (List (Option (List Row)) × Nat × Nat) :=
  recreateLoopGo p base pSoln (p.solnSize - i) i st

/-- Reconstruction of one partial solution: run the loop, then read the rows
of slot `K` and record their index histories (`none` = abandoned as
invalid). -/
def recreateOne (p : Params) (base : HashState) (pSoln : List Nat) :
    Option (List (List Nat)) :=
  match recreateLoop p base pSoln 0 ([], p.ExpandedHashLength, 4) with
  | none => none
  | some st =>
      some ((match st.1.getD p.k none with
        | some rows => rows
        | none => []).map (fun row => GetIndices row st.2.1 st.2.2))

/-- `OptimisedSolve` with a never-cancelling probe. -/
def optimisedSolvePure (p : Params) (base : HashState) : List (List Nat) :=
  (truncSolvePure p base).foldl (fun acc ps =>
    match recreateOne p base ps with
    | none => acc
    | some s => acc ++ s) []

/-! ### The probed solvers (cancellation threaded explicitly) -/

/-- The first-list generation loop of `BasicSolve`, probing `ListGeneration`
after each row. -/
def genLoopFullGo (p : Params) (base : HashState) (c : EhSolverCancelCheck → Bool) :
    Nat → Nat → List Row → Log → Except Unit (List Row) × Log
  | 0, _, acc, log => (.ok acc, log)
  | fuel + 1, i, acc, log =>
      if i < p.initSize then
        if c .ListGeneration then (.error (), log ++ [.ListGeneration])
        else genLoopFullGo p base c fuel (i + 1) (acc ++ [fullStepRow p base i])
          (log ++ [.ListGeneration])
      else (.ok acc, log)

def genLoopFull (p : Params) (base : HashState) (c : EhSolverCancelCheck → Bool)
    (i : Nat) (acc : List Row) (log : Log) : Except Unit (List Row) × Log :=
  genLoopFullGo p base c (p.initSize - i) i acc log

/-- The first-list generation loop of `OptimisedSolve`. -/
def genLoopTruncGo (p : Params) (base : HashState) (c : EhSolverCancelCheck → Bool) :
    Nat → Nat → List Row → Log → Except Unit (List Row) × Log
  | 0, _, acc, log => (.ok acc, log)
  | fuel + 1, i, acc, log =>
      if i < p.initSize then
        if c .ListGeneration then (.error (), log ++ [.ListGeneration])
        else genLoopTruncGo p base c fuel (i + 1)
          (acc ++ [truncStepRow p base i (p.CollisionBitLength + 1)])
          (log ++ [.ListGeneration])
      else (.ok acc, log)

def genLoopTrunc (p : Params) (base : HashState) (c : EhSolverCancelCheck → Bool)
    (i : Nat) (acc : List Row) (log : Log) : Except Unit (List Row) × Log :=
  genLoopTruncGo p base c (p.initSize - i) i acc log

/-- The collision scan with a `ListColliding` probe per outer iteration. -/
def scanCollP (c : EhSolverCancelCheck → Bool) (emitPair : Row → Row → List Row) (clen : Nat) :
    Nat → List Row → Nat → Nat → List Row → Log →
      Except Unit (List Row × Nat × List Row) × Log
  | 0, X, _, pos, Xc, log => (.ok (X, pos, Xc), log)
  | fuel + 1, X, i, pos, Xc, log =>
      if i < X.length - 1 then
        if c .ListColliding then (.error (), log ++ [.ListColliding])
        else scanCollP c emitPair clen fuel
          (backfill X pos (i + runLength X clen i 1)
            (Xc ++ runPairs emitPair X i (runLength X clen i 1))).1
          (i + runLength X clen i 1)
          (backfill X pos (i + runLength X clen i 1)
            (Xc ++ runPairs emitPair X i (runLength X clen i 1))).2.1
          (backfill X pos (i + runLength X clen i 1)
            (Xc ++ runPairs emitPair X i (runLength X clen i 1))).2.2
          (log ++ [.ListColliding])
      else (.ok (X, pos, Xc), log)

/-- The probed middle-round loop shared by both solvers (the pair emission
differs). -/
def roundsLoopPGo (p : Params) (c : EhSolverCancelCheck → Bool)
    (emit : Nat → Nat → Row → Row → List Row) :
    Nat → Nat → Nat → Nat → List Row → Log → Except Unit (List Row × Nat × Nat) × Log
  | 0, _, hashLen, lenIndices, X, log => (.ok (X, hashLen, lenIndices), log)
  | fuel + 1, r, hashLen, lenIndices, X, log =>
      if r < p.k ∧ X ≠ [] then
        if c .ListSorting then (.error (), log ++ [.ListSorting])
        else
          match scanCollP c (emit hashLen lenIndices) p.CollisionByteLength
            ((sortRows p.CollisionByteLength X).length + 1)
            (sortRows p.CollisionByteLength X) 0 0 [] (log ++ [.ListSorting]) with
          | (.error e, lg) => (.error e, lg)
          | (.ok s, lg) =>
              if c .RoundEnd then (.error (), lg ++ [.RoundEnd])
              else
                roundsLoopPGo p c emit fuel (r + 1) (hashLen - p.CollisionByteLength)
                  (2 * lenIndices) (roundTail s) (lg ++ [.RoundEnd])
      else (.ok (X, hashLen, lenIndices), log)

def roundsLoopP (p : Params) (c : EhSolverCancelCheck → Bool)
    (emit : Nat → Nat → Row → Row → List Row)
    (r hashLen lenIndices : Nat) (X : List Row) (log : Log) :
    Except Unit (List Row × Nat × Nat) × Log :=
  roundsLoopPGo p c emit (p.k - r) r hashLen lenIndices X log

/-- The final-round collision scan (no compaction), probing the given label
per outer iteration. -/
def finalScanP {α : Type} (c : EhSolverCancelCheck → Bool) (lab : EhSolverCancelCheck)
    (emitPair : Row → Row → List α) (clen : Nat) :
    Nat → List Row → Nat → List α → Log → Except Unit (List α) × Log
  | 0, _, _, acc, log => (.ok acc, log)
  | fuel + 1, X, i, acc, log =>
      if i < X.length - 1 then
        if c lab then (.error (), log ++ [lab])
        else finalScanP c lab emitPair clen fuel X (i + runLength X clen i 1)
          (acc ++ runPairs emitPair X i (runLength X clen i 1)) (log ++ [lab])
      else (.ok acc, log)

/-- `Equihash<N,K>::BasicSolve` with the cancellation probe and its label
trace. -/
def BasicSolve (p : Params) (base : HashState) (c : EhSolverCancelCheck → Bool)
    (log : Log) : Except Unit (List (List Nat)) × Log :=
  match genLoopFull p base c 0 [] log with
  | (.error e, lg) => (.error e, lg)
  | (.ok X0, lg) =>
      match roundsLoopP p c (fun hl li => emitBasic p hl li) 1 p.ExpandedHashLength 4 X0 lg with
      | (.error e, lg2) => (.error e, lg2)
      | (.ok s, lg2) =>
          if s.1.length > 1 then
            if c .FinalSorting then (.error (), lg2 ++ [.FinalSorting])
            else
              finalScanP c .FinalColliding (emitSolnBasic p s.2.1 s.2.2) s.2.1
                ((sortRows s.2.1 s.1).length + 1) (sortRows s.2.1 s.1) 0 []
                (lg2 ++ [.FinalSorting])
          else (.ok [], lg2)

/-- The probed `icv` generation of Phase B. -/
def icGenPGo (p : Params) (base : HashState) (c : EhSolverCancelCheck → Bool)
    (pSoln : List Nat) (i : Nat) :
    Nat → Nat → List Row → Log → Except Unit (List Row) × Log
  | 0, _, acc, log => (.ok acc, log)
  | fuel + 1, j, acc, log =>
      if j < p.recreateSize then
        if c .PartialGeneration then (.error (), log ++ [.PartialGeneration])
        else icGenPGo p base c pSoln i fuel (j + 1)
          (acc ++
            [fullStepRow p base (UntruncateIndex (pSoln.getD i 0) j (p.CollisionBitLength + 1))])
          (log ++ [.PartialGeneration])
      else (.ok acc, log)

def icGenP (p : Params) (base : HashState) (c : EhSolverCancelCheck → Bool)
    (pSoln : List Nat) (i j : Nat) (acc : List Row) (log : Log) :
    Except Unit (List Row) × Log :=
  icGenPGo p base c pSoln i (p.recreateSize - j) j acc log

/-- The probed reconstruction cascade. -/
def cascadePGo (p : Params) (c : EhSolverCancelCheck → Bool) (pSoln : List Nat) :
    Nat → Nat → Nat → Nat → Nat → List Row → List (Option (List Row)) → Log →
      Except Unit (Option (List (Option (List Row)) × Nat × Nat)) × Log
  | 0, _, _, hashLen, lenIndices, _, X, log => (.ok (some (X, hashLen, lenIndices)), log)
  | fuel + 1, r, rti, hashLen, lenIndices, ic, X, log =>
      if r ≤ p.k then
        if r < X.length then
          match X.getD r none with
          | some xr =>
              if c .PartialSorting then (.error (), log ++ [.PartialSorting])
              else
                if (CollideBranches p hashLen lenIndices p.CollisionByteLength
                    (p.CollisionBitLength + 1) (pSoln.getD (rti - 2 ^ r) 0) (pSoln.getD rti 0)
                    (sortRows hashLen (ic ++ xr))).length = 0 then
                  (.ok none, log ++ [.PartialSorting])
                else if c .PartialSubtreeEnd then
                  (.error (), log ++ [.PartialSorting, .PartialSubtreeEnd])
                else
                  cascadePGo p c pSoln fuel (r + 1) (rti - 2 ^ r)
                    (hashLen - p.CollisionByteLength) (2 * lenIndices)
                    (CollideBranches p hashLen lenIndices p.CollisionByteLength
                      (p.CollisionBitLength + 1) (pSoln.getD (rti - 2 ^ r) 0) (pSoln.getD rti 0)
                      (sortRows hashLen (ic ++ xr)))
                    (X.set r none)
                    (log ++ [.PartialSorting, .PartialSubtreeEnd])
          | none => (.ok (some (X.set r (some ic), hashLen, lenIndices)), log)
        else (.ok (some (X ++ [some ic], hashLen, lenIndices)), log)
      else (.ok (some (X, hashLen, lenIndices)), log)

def cascadeP (p : Params) (c : EhSolverCancelCheck → Bool) (pSoln : List Nat)
    (r rti hashLen lenIndices : Nat) (ic : List Row) (X : List (Option (List Row)))
    (log : Log) : Except Unit (Option (List (Option (List Row)) × Nat × Nat)) × Log :=
  cascadePGo p c pSoln (p.k + 1 - r) r rti hashLen lenIndices ic X log

/-- The probed Phase B per-index loop. -/
def recreateLoopPGo (p : Params) (base : HashState) (c : EhSolverCancelCheck → Bool)
    (pSoln : List Nat) :
    Nat → Nat → (List (Option (List Row)) × Nat × Nat) → Log →
      Except Unit (Option (List (Option (List Row)) × Nat × Nat)) × Log
  | 0, _, st, log => (.ok (some st), log)
  | fuel + 1, i, st, log =>
      if i < p.solnSize then
        match icGenP p base c pSoln i 0 [] log with
        | (.error e, lg) => (.error e, lg)
        | (.ok ic, lg) =>
            match cascadeP p c pSoln 0 i p.ExpandedHashLength 4 ic st.1 lg with
            | (.error e, lg2) => (.error e, lg2)
            | (.ok none, lg2) => (.ok none, lg2)
            | (.ok (some st2), lg2) =>
                if c .PartialIndexEnd then (.error (), lg2 ++ [.PartialIndexEnd])
                else recreateLoopPGo p base c pSoln fuel (i + 1) st2 (lg2 ++ [.PartialIndexEnd])
      else (.ok (some st), log)

def recreateLoopP (p : Params) (base : HashState) (c : EhSolverCancelCheck → Bool)
    (pSoln : List Nat) (i : Nat) (st : List (Option (List Row)) × Nat × Nat)
    (log : Log) : Except Unit (Option (List (Option (List Row)) × Nat × Nat)) × Log :=
  recreateLoopPGo p base c pSoln (p.solnSize - i) i st log

/-- The probed reconstruction of one partial solution. -/
def recreateOneP (p : Params) (base : HashState) (c : EhSolverCancelCheck → Bool)
    (pSoln : List Nat) (log : Log) : Except Unit (Option (List (List Nat))) × Log :=
  match recreateLoopP p base c pSoln 0 ([], p.ExpandedHashLength, 4) log with
  | (.error e, lg) => (.error e, lg)
  | (.ok none, lg) => (.ok none, lg)
  | (.ok (some st), lg) =>
      if c .PartialEnd then (.error (), lg ++ [.PartialEnd])
      else
        (.ok (some ((match st.1.getD p.k none with
          | some rows => rows
          | none => []).map (fun row => GetIndices row st.2.1 st.2.2))), lg ++ [.PartialEnd])

/-- The probed loop over the collected partial solutions. -/
def pSolnsLoopP (p : Params) (base : HashState) (c : EhSolverCancelCheck → Bool) :
    List (List Nat) → List (List Nat) → Log → Except Unit (List (List Nat)) × Log
  | [], acc, log => (.ok acc, log)
  | ps :: rest, acc, log =>
      match recreateOneP p base c ps log with
      | (.error e, lg) => (.error e, lg)
      | (.ok none, lg) => pSolnsLoopP p base c rest acc lg
      | (.ok (some s), lg) => pSolnsLoopP p base c rest (acc ++ s) lg

/-- `Equihash<N,K>::OptimisedSolve` with the cancellation probe and its label
trace. -/
def OptimisedSolve (p : Params) (base : HashState) (c : EhSolverCancelCheck → Bool)
    (log : Log) : Except Unit (List (List Nat)) × Log :=
  match genLoopTrunc p base c 0 [] log with
  | (.error e, lg) => (.error e, lg)
  | (.ok X0, lg) =>
      match roundsLoopP p c (fun hl li => emitTrunc p hl li) 1 p.ExpandedHashLength 1 X0 lg with
      | (.error e, lg2) => (.error e, lg2)
      | (.ok s, lg2) =>
          match
            (if s.1.length > 1 then
              if c .FinalSorting then ((.error (), lg2 ++ [.FinalSorting]) :
                  Except Unit (List (List Nat)) × Log)
              else
                finalScanP c .FinalColliding (emitPSoln p s.2.1 s.2.2) s.2.1
                  ((sortRows s.2.1 s.1).length + 1) (sortRows s.2.1 s.1) 0 []
                  (lg2 ++ [.FinalSorting])
            else (.ok [], lg2)) with
          | (.error e, lg3) => (.error e, lg3)
          | (.ok ps, lg3) => pSolnsLoopP p base c ps [] lg3

/-- The solution list surfaced by a `BasicSolve` call (empty when
cancelled). -/
def basicSolutions (p : Params) (base : HashState) (c : EhSolverCancelCheck → Bool) :
    List (List Nat) :=
  match (BasicSolve p base c []).1 with
  | .ok s => s
  | .error _ => []

/-- The solution list surfaced by an `OptimisedSolve` call (empty when
cancelled). -/
def optimisedSolutions (p : Params) (base : HashState) (c : EhSolverCancelCheck → Bool) :
    List (List Nat) :=
  match (OptimisedSolve p base c []).1 with
  | .ok s => s
  | .error _ => []

/-- An adversarial base state for `(N, K) = (16, 1)`: seeds 10 and 21 share
the digest `ff 01`, and seeds 11 and 20 carry digests `ff 02` and `ff 03` that
agree with it only on the first byte; every other seed hashes to its own
big-endian encoding. -/
def ceBase : HashState := fun i =>
  if i = 10 then [255, 1]
  else if i = 21 then [255, 1]
  else if i = 11 then [255, 2]
  else if i = 20 then [255, 3]
  else [i / 256, i % 256]

/-! ### The reduction-tree invariant -/

/-- The rows a solver list may contain at level `ℓ`: a leaf row for a seed
below `init_size`, or the canonical merge of two level-`ℓ` rows that collide
on the collision bytes and have disjoint index histories.  This is exactly
what each solver's merge step establishes. -/
inductive ValidRow (p : Params) (base : HashState) : Nat → Row → Prop where
  | leaf (i : Nat) (hi : i < p.initSize) : ValidRow p base 0 (fullStepRow p base i)
  | node (ℓ : Nat) (a b : Row) (ha : ValidRow p base ℓ a) (hb : ValidRow p base ℓ b)
      (hcol : HasCollision a b p.CollisionByteLength = true)
      (hdis : DistinctIndices a b (p.hashLenAt ℓ) (4 * 2 ^ ℓ) = true) :
      ValidRow p base (ℓ + 1) (mergeFull a b (p.hashLenAt ℓ) (4 * 2 ^ ℓ) p.CollisionByteLength)

/-! ### Claim C9: truncation / untruncation -/

theorem truncateIndex_eq (i ilen : Nat) :
    TruncateIndex i ilen = (i >>> (ilen - 8)) &&& 0xff := rfl

/-- C9: for every bit width `8 ≤ ilen ≤ 32` and every index `i < 2^ilen`,
`UntruncateIndex (TruncateIndex i ilen) r ilen = i` where `r` is the low
`ilen - 8` bits of `i`: untruncation is a left inverse of truncation. -/
theorem untruncate_truncate_left_inverse (ilen i : Nat)
    (h8 : 8 ≤ ilen) (h32 : ilen ≤ 32) (hi : i < 2 ^ ilen) :
    UntruncateIndex (TruncateIndex i ilen) (i % 2 ^ (ilen - 8)) ilen = i := by
  have _h32 := h32
  apply Nat.eq_of_testBit_eq
  intro j
  unfold UntruncateIndex TruncateIndex
  rw [Nat.testBit_lor, Nat.testBit_shiftLeft, Nat.testBit_land,
    Nat.testBit_shiftRight]
  have h255 : (0xff : Nat) = 2 ^ 8 - 1 := by norm_num
  rw [h255, Nat.testBit_two_pow_sub_one, Nat.testBit_mod_two_pow]
  rcases lt_or_le j (ilen - 8) with hj | hj
  · simp [Nat.not_le.mpr hj, hj]
  · rcases lt_or_le j ilen with hj2 | hj2
    · have : ilen - 8 + (j - (ilen - 8)) = j := by omega
      simp [hj, this, Nat.not_lt.mpr hj, show j - (ilen - 8) < 8 by omega]
    · have hfalse : i.testBit j = false :=
        Nat.testBit_lt_two_pow (lt_of_lt_of_le hi (Nat.pow_le_pow_right (by norm_num) hj2))
      have : ilen - 8 + (j - (ilen - 8)) = j := by omega
      simp [hj, this, Nat.not_lt.mpr hj2, hfalse, show ¬(j - (ilen - 8) < 8) by omega]

/-- Witness for C9 at `ilen = 9`, `i = 300`. -/
theorem untruncate_truncate_left_inverse_witness :
    UntruncateIndex (TruncateIndex 300 9) (300 % 2 ^ 1) 9 = 300 :=
  untruncate_truncate_left_inverse 9 300 (by decide) (by decide) (by decide)

/-! ### Claim C6: the XOR-merge constructor -/

/-- The merge constructor's byte-level specification (helper shared by the
rest of the development). -/
theorem mergeRow_spec (stride : Nat) (a b : Row) (len lenIndices t : Nat)
    (ht : t ≤ len) (ha : len + lenIndices ≤ List.length a)
    (hb : len + lenIndices ≤ List.length b) :
    (∀ x, x < len - t →
      (mergeRow stride a b len lenIndices t).getD x 0 = (a.getD (t + x) 0) ^^^ (b.getD (t + x) 0)) ∧
    ((mergeRow stride a b len lenIndices t).drop (len - t) =
      if leftmostIndex stride a len < leftmostIndex stride b len then
        (a.drop len).take lenIndices ++ (b.drop len).take lenIndices
      else
        (b.drop len).take lenIndices ++ (a.drop len).take lenIndices) := by
  have hxa : ((a.drop t).take (len - t)).length = len - t := by
    simp [List.length_take, List.length_drop]
    omega
  have hxb : ((b.drop t).take (len - t)).length = len - t := by
    simp [List.length_take, List.length_drop]
    omega
  have hxs : (XorSlice a b t len).length = len - t := by
    simp [XorSlice, List.length_zipWith, hxa, hxb]
  constructor
  · intro x hx
    have hx' : x < (XorSlice a b t len).length := by rw [hxs]; exact hx
    rw [mergeRow, List.getD_eq_getElem?_getD, List.getElem?_append_left hx',
      ← List.getD_eq_getElem?_getD]
    have hax : (a.drop t).getD x 0 = a.getD (t + x) 0 := by
      rw [List.getD_eq_getElem?_getD, List.getElem?_drop, ← List.getD_eq_getElem?_getD]
    have hbx : (b.drop t).getD x 0 = b.getD (t + x) 0 := by
      rw [List.getD_eq_getElem?_getD, List.getElem?_drop, ← List.getD_eq_getElem?_getD]
    have hget : (XorSlice a b t len).getD x 0 =
        ((a.drop t).take (len - t)).getD x 0 ^^^ ((b.drop t).take (len - t)).getD x 0 := by
      have h1 : x < ((a.drop t).take (len - t)).length := by rw [hxa]; exact hx
      have h2 : x < ((b.drop t).take (len - t)).length := by rw [hxb]; exact hx
      rw [List.getD_eq_getElem?_getD]
      rw [XorSlice, List.getElem?_zipWith]
      rw [List.getElem?_eq_getElem h1, List.getElem?_eq_getElem h2]
      simp [List.getD_eq_getElem?_getD, List.getElem?_eq_getElem h1,
        List.getElem?_eq_getElem h2]
    rw [hget]
    congr 1
    · rw [List.getD_eq_getElem?_getD, List.getElem?_take_of_lt hx, ← List.getD_eq_getElem?_getD,
        hax]
    · rw [List.getD_eq_getElem?_getD, List.getElem?_take_of_lt hx, ← List.getD_eq_getElem?_getD,
        hbx]
  · rw [mergeRow, List.drop_append_of_le_length (by rw [hxs])]
    rw [List.drop_eq_nil_of_le hxs.le, List.nil_append]
    simp only [IndicesBefore, decide_eq_true_eq]

/-- C6: under the width preconditions, the merge constructor (both the
`FullStepRow` and the `TruncatedStepRow` instance, which share the code up to
the index stride) produces `c` with `c[x] = a[t+x] XOR b[t+x]` for every
`x < len - t`, and with index history `a`'s followed by `b`'s exactly when the
leftmost index of `a`'s history is strictly smaller than that of `b`'s, and
`b`'s followed by `a`'s otherwise (including when the leftmost indices are
equal). -/
theorem mergeRow_bytes_and_indices (stride : Nat) (a b : Row) (len lenIndices t : Nat)
    (ht : t ≤ len) (ha : len + lenIndices ≤ List.length a)
    (hb : len + lenIndices ≤ List.length b) :
    (∀ x, x < len - t →
      (mergeRow stride a b len lenIndices t).getD x 0 =
        (a.getD (t + x) 0) ^^^ (b.getD (t + x) 0)) ∧
    ((mergeRow stride a b len lenIndices t).drop (len - t) =
      if leftmostIndex stride a len < leftmostIndex stride b len then
        (a.drop len).take lenIndices ++ (b.drop len).take lenIndices
      else
        (b.drop len).take lenIndices ++ (a.drop len).take lenIndices) :=
  mergeRow_spec stride a b len lenIndices t ht ha hb

/-- Witness for C6 at concrete rows. -/
theorem mergeRow_bytes_and_indices_witness :
    (∀ x, x < 2 - 1 →
      (mergeRow 1 [1, 2, 9] [1, 3, 7] 2 1 1).getD x 0 =
        (([1, 2, 9] : List Nat).getD (1 + x) 0) ^^^ (([1, 3, 7] : List Nat).getD (1 + x) 0)) ∧
    ((mergeRow 1 [1, 2, 9] [1, 3, 7] 2 1 1).drop (2 - 1) =
      if leftmostIndex 1 [1, 2, 9] 2 < leftmostIndex 1 [1, 3, 7] 2 then
        (([1, 2, 9] : List Nat).drop 2).take 1 ++ (([1, 3, 7] : List Nat).drop 2).take 1
      else
        (([1, 3, 7] : List Nat).drop 2).take 1 ++ (([1, 2, 9] : List Nat).drop 2).take 1) :=
  mergeRow_bytes_and_indices 1 [1, 2, 9] [1, 3, 7] 2 1 1 (by decide) (by decide) (by decide)

/-! ### Claim C5: the truncated-phase probabilistic filter -/

theorem markFirst_length {v : Nat} :
    ∀ {s s' : List (Nat × Bool)}, markFirst v s = some s' → s'.length = s.length := by
  intro s
  induction s with
  | nil => intro s' h; simp [markFirst] at h
  | cons q rest ih =>
      intro s' h
      obtain ⟨w, c⟩ := q
      rw [markFirst] at h
      by_cases hc : (!c && w == v) = true
      · rw [if_pos hc] at h
        cases h
        simp
      · rw [if_neg hc] at h
        cases hr : markFirst v rest with
        | none => rw [hr] at h; simp at h
        | some r =>
            rw [hr] at h
            simp only [Option.map_some'] at h
            cases h
            simp [ih hr]

theorem uncheckedVals_cons_true (v : Nat) (rest : List (Nat × Bool)) :
    uncheckedVals ((v, true) :: rest) = uncheckedVals rest := by
  simp [uncheckedVals]

theorem uncheckedVals_cons_false (v : Nat) (rest : List (Nat × Bool)) :
    uncheckedVals ((v, false) :: rest) = v :: uncheckedVals rest := by
  simp [uncheckedVals]

theorem markFirst_eq_none_iff {v : Nat} :
    ∀ {s : List (Nat × Bool)}, markFirst v s = none ↔ v ∉ uncheckedVals s := by
  intro s
  induction s with
  | nil => simp [markFirst, uncheckedVals]
  | cons q rest ih =>
      obtain ⟨w, c⟩ := q
      rw [markFirst]
      by_cases hc : (!c && w == v) = true
      · rw [if_pos hc]
        simp only [Bool.and_eq_true, Bool.not_eq_true', beq_iff_eq] at hc
        obtain ⟨hc1, hc2⟩ := hc
        subst hc1 hc2
        simp [uncheckedVals_cons_false]
      · rw [if_neg hc]
        cases c with
        | true =>
            rw [uncheckedVals_cons_true]
            simp only [Option.map_eq_none']
            exact ih
        | false =>
            simp only [Bool.not_false, Bool.true_and, beq_iff_eq] at hc
            rw [uncheckedVals_cons_false]
            simp only [Option.map_eq_none', List.mem_cons]
            rw [ih]
            constructor
            · intro h hmem
              rcases hmem with h1 | h2
              · exact hc h1.symm
              · exact h h2
            · intro h hmem
              exact h (Or.inr hmem)

theorem markFirst_uncheckedVals {v : Nat} :
    ∀ {s s' : List (Nat × Bool)}, markFirst v s = some s' →
      uncheckedVals s' = (uncheckedVals s).erase v := by
  intro s
  induction s with
  | nil => intro s' h; simp [markFirst] at h
  | cons q rest ih =>
      intro s' h
      obtain ⟨w, c⟩ := q
      rw [markFirst] at h
      by_cases hc : (!c && w == v) = true
      · rw [if_pos hc] at h
        cases h
        simp only [Bool.and_eq_true, Bool.not_eq_true', beq_iff_eq] at hc
        obtain ⟨hc1, hc2⟩ := hc
        subst hc1 hc2
        rw [uncheckedVals_cons_true, uncheckedVals_cons_false, List.erase_cons_head]
      · rw [if_neg hc] at h
        cases hr : markFirst v rest with
        | none => rw [hr] at h; simp at h
        | some r =>
            rw [hr] at h
            simp only [Option.map_some'] at h
            cases h
            cases c with
            | true =>
                rw [uncheckedVals_cons_true, uncheckedVals_cons_true]
                exact ih hr
            | false =>
                simp only [Bool.not_false, Bool.true_and, beq_iff_eq] at hc
                rw [uncheckedVals_cons_false, uncheckedVals_cons_false,
                  List.erase_cons_tail, ih hr]
                simpa using hc

theorem ipdRun_all_eq_pairable :
    ∀ (fuel : Nat) (s : List (Nat × Bool)), s.length ≤ fuel →
      ((ipdRun fuel s).all (fun q => q.2)) = pairable (uncheckedVals s) := by
  intro fuel
  induction fuel with
  | zero =>
      intro s hs
      have hnil : s = [] := List.length_eq_zero.mp (Nat.le_zero.mp hs)
      subst hnil
      simp [ipdRun, uncheckedVals, pairable]
  | succ fuel ih =>
      intro s hs
      cases s with
      | nil => simp [ipdRun, uncheckedVals, pairable]
      | cons q rest =>
          obtain ⟨v, c⟩ := q
          simp only [List.length_cons, Nat.succ_le_succ_iff] at hs
          cases c with
          | true =>
              rw [ipdRun, if_pos rfl, uncheckedVals_cons_true]
              simp only [List.all_cons]
              rw [ih rest hs]
              rfl
          | false =>
              rw [ipdRun, if_neg (by simp), uncheckedVals_cons_false]
              cases hr : markFirst v rest with
              | some rest' =>
                  have hv : v ∈ uncheckedVals rest := by
                    by_contra hcon
                    rw [← markFirst_eq_none_iff] at hcon
                    rw [hcon] at hr
                    exact Option.noConfusion hr
                  have hcv : (uncheckedVals rest).contains v = true := by
                    simpa [List.contains] using List.elem_eq_true_of_mem hv
                  rw [pairable, hcv, Bool.true_and]
                  simp only [List.all_cons]
                  rw [ih rest' (by rw [markFirst_length hr]; exact hs)]
                  rw [markFirst_uncheckedVals hr]
                  simp
              | none =>
                  have hv : v ∉ uncheckedVals rest := markFirst_eq_none_iff.mp hr
                  have hcv : (uncheckedVals rest).contains v = false := by
                    rw [Bool.eq_false_iff]
                    intro hcc
                    exact hv (List.mem_of_elem_eq_true (by simpa [List.contains] using hcc))
                  rw [pairable, hcv, Bool.false_and]
                  simp [List.all_cons]

theorem pairable_iff_even_counts :
    ∀ (fuel : Nat) (l : List Nat), l.length ≤ fuel →
      (pairable l = true ↔ ∀ v, Even (List.count v l)) := by
  intro fuel
  induction fuel with
  | zero =>
      intro l hl
      have hnil : l = [] := List.length_eq_zero.mp (Nat.le_zero.mp hl)
      subst hnil
      simp [pairable]
  | succ fuel ih =>
      intro l hl
      cases l with
      | nil => simp [pairable]
      | cons x xs =>
          simp only [List.length_cons, Nat.succ_le_succ_iff] at hl
          rw [pairable]
          by_cases hx : x ∈ xs
          · have hcon : xs.contains x = true := by
              simpa [List.contains] using List.elem_eq_true_of_mem hx
            rw [hcon, Bool.true_and]
            rw [ih (xs.erase x) (le_trans (List.Sublist.length_le (List.erase_sublist x xs)) hl)]
            have h1 : 1 ≤ List.count x xs := List.one_le_count_iff.mpr hx
            constructor
            · intro h v
              have hv := h v
              by_cases hvx : v = x
              · subst hvx
                rw [List.count_erase_self, Nat.even_iff] at hv
                rw [List.count_cons_self, Nat.even_iff]
                omega
              · rw [List.count_erase_of_ne hvx] at hv
                rw [List.count_cons_of_ne hvx]
                exact hv
            · intro h v
              have hv := h v
              by_cases hvx : v = x
              · subst hvx
                rw [List.count_cons_self, Nat.even_iff] at hv
                rw [List.count_erase_self, Nat.even_iff]
                omega
              · rw [List.count_cons_of_ne hvx] at hv
                rw [List.count_erase_of_ne hvx]
                exact hv
          · have hcon : xs.contains x = false := by
              rw [Bool.eq_false_iff]
              intro hcc
              exact hx (List.mem_of_elem_eq_true (by simpa [List.contains] using hcc))
            rw [hcon, Bool.false_and]
            constructor
            · intro h; exact absurd h (by simp)
            · intro h
              exfalso
              have hvx := h x
              rw [List.count_cons_self, List.count_eq_zero.mpr hx, Nat.even_iff] at hvx
              omega

theorem uncheckedVals_map_false (l : List Nat) :
    uncheckedVals (l.map (fun v => (v, false))) = l := by
  induction l with
  | nil => simp [uncheckedVals]
  | cons x xs ih =>
      simp only [List.map_cons]
      rw [uncheckedVals_cons_false, ih]

/-- `IsProbablyDuplicate(indices, n)` holds exactly when every byte value
occurs an even number of times among the first `n` entries. -/
theorem isProbablyDuplicate_iff_even (indices : List Nat) (n : Nat) :
    IsProbablyDuplicate indices n = true ↔ ∀ v, Even (List.count v (indices.take n)) := by
  unfold IsProbablyDuplicate
  rw [ipdRun_all_eq_pairable n _ (by simp [List.length_take])]
  rw [uncheckedVals_map_false]
  exact pairable_iff_even_counts (indices.take n).length _ le_rfl

/-- C5: in a truncated reduction round of `OptimisedSolve`, the merged row for
a colliding pair is excluded from the emitted merges (and hence, by the
compaction equivalence, from the next round's list) if and only if both its
remaining `hashLen - CollisionByteLength` byte prefix is all zero and its
`2*lenIndices` truncated indices admit a perfect pairing of equal values,
i.e. every byte value occurs an even number of times; a merged row with a
nonzero remaining prefix is never filtered. -/
theorem truncated_round_filter_iff (p : Params) (hashLen lenIndices : Nat) (a b : Row) :
    (emitTrunc p hashLen lenIndices a b = [] ↔
      (IsZero (mergeTrunc a b hashLen lenIndices p.CollisionByteLength)
          (hashLen - p.CollisionByteLength) = true ∧
        ∀ v, Even (List.count v
          (GetTruncatedIndices (mergeTrunc a b hashLen lenIndices p.CollisionByteLength)
            (hashLen - p.CollisionByteLength) (2 * lenIndices))))) ∧
    (IsZero (mergeTrunc a b hashLen lenIndices p.CollisionByteLength)
        (hashLen - p.CollisionByteLength) = false →
      emitTrunc p hashLen lenIndices a b =
        [mergeTrunc a b hashLen lenIndices p.CollisionByteLength]) := by
  have htake : (GetTruncatedIndices (mergeTrunc a b hashLen lenIndices p.CollisionByteLength)
      (hashLen - p.CollisionByteLength) (2 * lenIndices)).take (2 * lenIndices) =
      GetTruncatedIndices (mergeTrunc a b hashLen lenIndices p.CollisionByteLength)
        (hashLen - p.CollisionByteLength) (2 * lenIndices) := by
    apply List.take_of_length_le
    simp [GetTruncatedIndices, List.length_take]
  constructor
  · rw [emitTrunc]
    by_cases hcond : (IsZero (mergeTrunc a b hashLen lenIndices p.CollisionByteLength)
        (hashLen - p.CollisionByteLength) &&
        IsProbablyDuplicate
          (GetTruncatedIndices (mergeTrunc a b hashLen lenIndices p.CollisionByteLength)
            (hashLen - p.CollisionByteLength) (2 * lenIndices)) (2 * lenIndices)) = true
    · rw [hcond]
      simp only [Bool.not_true, if_false, Bool.and_eq_true] at hcond ⊢
      obtain ⟨h1, h2⟩ := hcond
      rw [isProbablyDuplicate_iff_even, htake] at h2
      simp [h1, h2]
    · rw [Bool.not_eq_true] at hcond
      rw [hcond]
      simp only [Bool.not_false, if_true]
      constructor
      · intro h; exact absurd h (by simp)
      · intro ⟨h1, h2⟩
        exfalso
        rw [← htake, ← isProbablyDuplicate_iff_even] at h2
        rw [h1, h2] at hcond
        simp at hcond
  · intro hz
    rw [emitTrunc, hz]
    simp
/-- Witness for C5: a pair whose merge keeps a nonzero prefix is emitted. -/
theorem truncated_round_filter_iff_witness :
    emitTrunc ⟨16, 1⟩ 2 1 [1, 2, 5] [1, 3, 7] =
      [mergeTrunc [1, 2, 5] [1, 3, 7] 2 1 1] := by
  apply (truncated_round_filter_iff ⟨16, 1⟩ 2 1 [1, 2, 5] [1, 3, 7]).2
  decide

/-! ### Claims C10 and C4: the verifier's pairwise walk -/

theorem validateLevel_length (p : Params) :
    ∀ (fuel hl li : Nat) (X Xc : List Row), X.length ≤ fuel →
      validateLevel p hl li X = some (some Xc) → X.length = 2 * Xc.length := by
  intro fuel
  induction fuel with
  | zero =>
      intro hl li X Xc hlen h
      have hnil : X = [] := List.length_eq_zero.mp (Nat.le_zero.mp hlen)
      subst hnil
      simp only [validateLevel, Option.some.injEq] at h
      subst h
      simp
  | succ fuel ih =>
      intro hl li X Xc hlen h
      match X, hlen, h with
      | [], _, h =>
          simp only [validateLevel, Option.some.injEq] at h
          subst h
          simp
      | [x], _, h => simp [validateLevel] at h
      | a :: b :: rest, hlen, h =>
          rw [validateLevel] at h
          by_cases h1 : ¬ HasCollision a b p.CollisionByteLength = true
          · rw [if_pos h1] at h; simp at h
          · rw [if_neg h1] at h
            by_cases h2 : IndicesBefore 4 b a hl = true
            · rw [if_pos h2] at h; simp at h
            · rw [if_neg h2] at h
              by_cases h3 : ¬ DistinctIndices a b hl li = true
              · rw [if_pos h3] at h; simp at h
              · rw [if_neg h3] at h
                cases hr : validateLevel p hl li rest with
                | none => rw [hr] at h; simp at h
                | some o =>
                    cases o with
                    | none => rw [hr] at h; simp at h
                    | some Xc' =>
                        rw [hr] at h
                        simp only [Option.some.injEq] at h
                        subst h
                        have := ih hl li rest Xc'
                          (by simp at hlen; omega) hr
                        simp [List.length_cons, this]
                        omega

theorem validateLevel_even_isSome (p : Params) :
    ∀ (fuel hl li : Nat) (X : List Row), X.length ≤ fuel → X.length % 2 = 0 →
      validateLevel p hl li X ≠ none := by
  intro fuel
  induction fuel with
  | zero =>
      intro hl li X hlen _
      have hnil : X = [] := List.length_eq_zero.mp (Nat.le_zero.mp hlen)
      subst hnil
      simp [validateLevel]
  | succ fuel ih =>
      intro hl li X hlen heven
      match X, hlen, heven with
      | [], _, _ => simp [validateLevel]
      | [x], _, heven => simp at heven
      | a :: b :: rest, hlen, heven =>
          rw [validateLevel]
          by_cases h1 : ¬ HasCollision a b p.CollisionByteLength = true
          · rw [if_pos h1]; simp
          · rw [if_neg h1]
            by_cases h2 : IndicesBefore 4 b a hl = true
            · rw [if_pos h2]; simp
            · rw [if_neg h2]
              by_cases h3 : ¬ DistinctIndices a b hl li = true
              · rw [if_pos h3]; simp
              · rw [if_neg h3]
                have hrest : validateLevel p hl li rest ≠ none := by
                  apply ih hl li rest (by simp at hlen; omega)
                  simp at heven ⊢
                  omega
                cases hr : validateLevel p hl li rest with
                | none => exact absurd hr hrest
                | some o => cases o with
                    | none => simp
                    | some Xc => simp

theorem validLoop_isSome (p : Params) :
    ∀ (m fuel hl li : Nat) (X : List Row), X.length = 2 ^ m → m < fuel →
      (validLoop p fuel hl li X).isSome := by
  intro m
  induction m with
  | zero =>
      intro fuel hl li X hlen hfuel
      obtain ⟨x, rfl⟩ : ∃ x, X = [x] := List.length_eq_one.mp (by simpa using hlen)
      cases fuel with
      | zero => omega
      | succ fuel =>
          rw [validLoop, if_neg (by simp)]
          simp
  | succ m ih =>
      intro fuel hl li X hlen hfuel
      cases fuel with
      | zero => omega
      | succ fuel =>
          rw [validLoop]
          rw [if_pos (by rw [hlen]; exact Nat.one_lt_two_pow (by omega))]
          cases hv : validateLevel p hl li X with
          | none =>
              exfalso
              refine validateLevel_even_isSome p X.length hl li X le_rfl ?_ hv
              rw [hlen]
              simp [Nat.pow_succ, Nat.mul_mod_left]
          | some o =>
              cases o with
              | none => simp
              | some Xc =>
                  apply ih fuel _ _ Xc _ (by omega)
                  have := validateLevel_length p X.length hl li X Xc le_rfl hv
                  rw [hlen] at this
                  rw [Nat.pow_succ] at this
                  omega

theorem runLevels_length (p : Params) :
    ∀ (ℓ hl li : Nat) (X X' : List Row),
      runLevels p ℓ hl li X = some (some X') → X.length = 2 ^ ℓ * X'.length := by
  intro ℓ
  induction ℓ with
  | zero =>
      intro hl li X X' h
      simp only [runLevels, Option.some.injEq] at h
      subst h
      simp
  | succ ℓ ih =>
      intro hl li X X' h
      rw [runLevels] at h
      cases hv : validateLevel p hl li X with
      | none => rw [hv] at h; simp at h
      | some o =>
          cases o with
          | none => rw [hv] at h; simp at h
          | some Xc =>
              rw [hv] at h
              have h1 := validateLevel_length p X.length hl li X Xc le_rfl hv
              have h2 := ih _ _ Xc X' h
              rw [h1, h2]
              ring

/-- C10: once the verifier's length check `|soln| = 2^K` has passed, the
pairwise walk is safe: the run returns an answer (the `none` marker for an
out-of-bounds `X[i+1]` access or a failing `assert(X.size() == 1)` is never
produced), and the working list's size at the start of level `ℓ` is exactly
`2^(K-ℓ)` (so each level is an exact halving, the loop ends after exactly `K`
halvings, and the final state has exactly one row). -/
theorem verifier_walk_safe (p : Params) (base : HashState) (soln : List Nat)
    (hlen : soln.length = p.solnSize) :
    (IsValidSolution p base soln).isSome ∧
    (∀ ℓ X', runLevels p ℓ p.ExpandedHashLength 4 (soln.map (fullStepRow p base)) =
        some (some X') → 2 ^ ℓ * X'.length = 2 ^ p.k) := by
  constructor
  · rw [IsValidSolution, if_neg (by simp [hlen])]
    apply validLoop_isSome p p.k
    · rw [List.length_map, hlen]; rfl
    · rw [hlen, Params.solnSize]
      exact Nat.lt_succ_of_lt (Nat.lt_two_pow p.k)
  · intro ℓ X' h
    have := runLevels_length p ℓ _ _ _ _ h
    rw [List.length_map, hlen, Params.solnSize] at this
    omega

/-- Witness for C10 at `(N,K) = (2,1)` with the zero digest and
`soln = [0,1]`. -/
theorem verifier_walk_safe_witness :
    (IsValidSolution ⟨2, 1⟩ (fun _ => [0, 0]) [0, 1]).isSome :=
  (verifier_walk_safe ⟨2, 1⟩ (fun _ => [0, 0]) [0, 1] (by decide)).1
theorem StepRowHash_length (p : Params) (base : HashState) (i : Nat) :
    (StepRowHash p base i).length = p.ExpandedHashLength := by
  simp [StepRowHash, hashOutput]

theorem fullStepRow_length (p : Params) (base : HashState) (i : Nat) :
    (fullStepRow p base i).length = p.ExpandedHashLength + 4 := by
  simp [fullStepRow, StepRowHash_length, EhIndexToArray]

theorem fullStepRow_drop (p : Params) (base : HashState) (i : Nat) :
    (fullStepRow p base i).drop p.ExpandedHashLength = EhIndexToArray i := by
  rw [fullStepRow, ← StepRowHash_length p base i, List.drop_left]

theorem ArrayToEhIndex_EhIndexToArray (i : Nat) :
    ArrayToEhIndex (EhIndexToArray i) = i % 2 ^ 32 := by
  simp only [ArrayToEhIndex, EhIndexToArray, List.getD_cons_zero, List.getD_cons_succ]
  omega

theorem beValue_eq_ArrayToEhIndex (l : List Nat) (h : l.length = 4) :
    beValue l = ArrayToEhIndex l := by
  match l, h with
  | [b0, b1, b2, b3], _ =>
      simp only [beValue, List.foldl, ArrayToEhIndex, List.getD_cons_zero, List.getD_cons_succ]
      ring

theorem getIndices_cons (r : Row) (len li : Nat) (h : 1 ≤ li) :
    GetIndices r len li =
      ArrayToEhIndex ((r.drop len).take 4) ::
        ((List.range ((li + 3) / 4 - 1)).map
          (fun t => ArrayToEhIndex ((r.drop (len + 4 * (t + 1))).take 4))) := by
  rw [GetIndices]
  rw [show (li + 3) / 4 = ((li + 3) / 4 - 1) + 1 by omega]
  rw [List.range_succ_eq_map]
  simp [List.map_map, Function.comp]

theorem getIndices_leaf (p : Params) (base : HashState) (i : Nat) :
    GetIndices (fullStepRow p base i) p.ExpandedHashLength 4 = [i % 2 ^ 32] := by
  rw [getIndices_cons _ _ _ (by omega)]
  rw [fullStepRow_drop]
  have h4 : (EhIndexToArray i).take 4 = EhIndexToArray i := by
    simp [EhIndexToArray]
  rw [h4, ArrayToEhIndex_EhIndexToArray]
  simp

theorem leftmostIndex_eq_head (r : Row) (len : Nat) (h : len + 4 ≤ r.length) :
    leftmostIndex 4 r len = ArrayToEhIndex ((r.drop len).take 4) := by
  rw [leftmostIndex]
  apply beValue_eq_ArrayToEhIndex
  simp [List.length_take, List.length_drop]
  omega

theorem leftmostIndex_leaf (p : Params) (base : HashState) (i : Nat) :
    leftmostIndex 4 (fullStepRow p base i) p.ExpandedHashLength = i % 2 ^ 32 := by
  rw [leftmostIndex_eq_head _ _ (by rw [fullStepRow_length])]
  rw [fullStepRow_drop]
  rw [show (EhIndexToArray i).take 4 = EhIndexToArray i by simp [EhIndexToArray]]
  exact ArrayToEhIndex_EhIndexToArray i

theorem HasCollision_symm (a b : Row) (l : Nat) (h : HasCollision a b l = true) :
    HasCollision b a l = true := by
  simp only [HasCollision, beq_iff_eq] at h ⊢
  exact h.symm

theorem mergeRow_length (s : Nat) (a b : Row) (len li t : Nat)
    (ha : a.length = len + li) (hb : b.length = len + li) :
    (mergeRow s a b len li t).length = (len - t) + 2 * li := by
  rw [mergeRow, List.length_append]
  have h1 : (XorSlice a b t len).length = len - t := by
    simp [XorSlice, List.length_zipWith, ha, hb]
    omega
  rw [h1]
  split <;> simp [List.length_append, List.length_take, List.length_drop, ha, hb] <;> omega

theorem validateLevel_shape (p : Params) :
    ∀ (fuel hl li : Nat) (X Xc : List Row), X.length ≤ fuel →
      (∀ r ∈ X, List.length r = hl + li) →
      validateLevel p hl li X = some (some Xc) →
      ∀ r ∈ Xc, List.length r = (hl - p.CollisionByteLength) + 2 * li := by
  intro fuel
  induction fuel with
  | zero =>
      intro hl li X Xc hlen _ h
      have hnil : X = [] := List.length_eq_zero.mp (Nat.le_zero.mp hlen)
      subst hnil
      simp only [validateLevel, Option.some.injEq] at h
      subst h
      simp
  | succ fuel ih =>
      intro hl li X Xc hlen hshape h
      match X, hlen, hshape, h with
      | [], _, _, h =>
          simp only [validateLevel, Option.some.injEq] at h
          subst h
          simp
      | [x], _, _, h => simp [validateLevel] at h
      | a :: b :: rest, hlen, hshape, h =>
          rw [validateLevel] at h
          by_cases h1 : ¬ HasCollision a b p.CollisionByteLength = true
          · rw [if_pos h1] at h; simp at h
          · rw [if_neg h1] at h
            by_cases h2 : IndicesBefore 4 b a hl = true
            · rw [if_pos h2] at h; simp at h
            · rw [if_neg h2] at h
              by_cases h3 : ¬ DistinctIndices a b hl li = true
              · rw [if_pos h3] at h; simp at h
              · rw [if_neg h3] at h
                cases hr : validateLevel p hl li rest with
                | none => rw [hr] at h; simp at h
                | some o =>
                    cases o with
                    | none => rw [hr] at h; simp at h
                    | some Xc' =>
                        rw [hr] at h
                        simp only [Option.some.injEq] at h
                        subst h
                        intro r hr2
                        rcases List.mem_cons.mp hr2 with hhead | htail
                        · subst hhead
                          exact mergeRow_length 4 a b hl li p.CollisionByteLength
                            (hshape a (by simp)) (hshape b (by simp))
                        · exact ih hl li rest Xc' (by simp at hlen; omega)
                            (fun r hr3 => hshape r (by simp [hr3])) hr r htail

theorem runLevels_shape (p : Params) :
    ∀ (ℓ hl li : Nat) (X X' : List Row),
      (∀ r ∈ X, List.length r = hl + li) →
      runLevels p ℓ hl li X = some (some X') →
      ∀ r ∈ X', List.length r = (hl - ℓ * p.CollisionByteLength) + 2 ^ ℓ * li := by
  intro ℓ
  induction ℓ with
  | zero =>
      intro hl li X X' hshape h
      simp only [runLevels, Option.some.injEq] at h
      subst h
      simpa using hshape
  | succ ℓ ih =>
      intro hl li X X' hshape h
      rw [runLevels] at h
      cases hv : validateLevel p hl li X with
      | none => rw [hv] at h; simp at h
      | some o =>
          cases o with
          | none => rw [hv] at h; simp at h
          | some Xc =>
              rw [hv] at h
              have hXc := validateLevel_shape p X.length hl li X Xc le_rfl hshape hv
              have := ih (hl - p.CollisionByteLength) (2 * li) Xc X' hXc h
              intro r hr
              have hthis := this r hr
              rw [Nat.sub_sub] at hthis
              rw [show p.CollisionByteLength + ℓ * p.CollisionByteLength =
                (ℓ + 1) * p.CollisionByteLength by ring] at hthis
              rw [show 2 ^ ℓ * (2 * li) = 2 ^ (ℓ + 1) * li by ring] at hthis
              exact hthis
theorem distinct_false_of_eq_leftmost (a b : Row) (hl li : Nat) (hli : 1 ≤ li)
    (ha : hl + 4 ≤ List.length a) (hb : hl + 4 ≤ List.length b)
    (heq : leftmostIndex 4 a hl = leftmostIndex 4 b hl) :
    DistinctIndices a b hl li = false := by
  rw [Bool.eq_false_iff]
  intro hd
  rw [DistinctIndices] at hd
  simp only [decide_eq_true_eq] at hd
  rw [List.nodup_append] at hd
  obtain ⟨_, _, hdisj⟩ := hd
  rw [leftmostIndex_eq_head a hl ha, leftmostIndex_eq_head b hl hb] at heq
  have hha : ArrayToEhIndex ((a.drop hl).take 4) ∈ GetIndices a hl li := by
    rw [getIndices_cons a hl li hli]
    simp
  have hhb : ArrayToEhIndex ((b.drop hl).take 4) ∈ GetIndices b hl li := by
    rw [getIndices_cons b hl li hli]
    simp
  apply hdisj hha
  rw [heq]
  exact hhb

theorem validateLevel_misordered (p : Params) :
    ∀ (fuel hl li : Nat) (X : List Row) (g : Nat), X.length ≤ fuel → 1 ≤ li →
      (∀ r ∈ X, hl + 4 ≤ List.length r) → X.length % 2 = 0 → 2 * g + 1 < X.length →
      ¬ (leftmostIndex 4 (X.getD (2 * g) []) hl <
          leftmostIndex 4 (X.getD (2 * g + 1) []) hl) →
      validateLevel p hl li X = some none := by
  intro fuel
  induction fuel with
  | zero =>
      intro hl li X g hlen _ _ _ hg _
      have hnil : X = [] := List.length_eq_zero.mp (Nat.le_zero.mp hlen)
      subst hnil
      simp at hg
  | succ fuel ih =>
      intro hl li X g hlen hli hshape heven hg hord
      match X, hlen, hshape, heven, hg, hord with
      | [], _, _, _, hg, _ => simp at hg
      | [x], _, _, heven, _, _ => simp at heven
      | a :: b :: rest, hlen, hshape, heven, hg, hord =>
          rw [validateLevel]
          by_cases h1 : ¬ HasCollision a b p.CollisionByteLength = true
          · rw [if_pos h1]
          · rw [if_neg h1]
            cases g with
            | zero =>
                simp only [Nat.mul_zero, List.getD_cons_zero, List.getD_cons_succ] at hord
                by_cases h2 : IndicesBefore 4 b a hl = true
                · rw [if_pos h2]
                · rw [if_neg h2]
                  have hba : ¬ leftmostIndex 4 b hl < leftmostIndex 4 a hl := by
                    simpa [IndicesBefore] using h2
                  have heq : leftmostIndex 4 a hl = leftmostIndex 4 b hl := by omega
                  have hdf := distinct_false_of_eq_leftmost a b hl li hli
                    (hshape a (by simp)) (hshape b (by simp)) heq
                  rw [if_pos (by simp [hdf])]
            | succ g =>
                by_cases h2 : IndicesBefore 4 b a hl = true
                · rw [if_pos h2]
                · rw [if_neg h2]
                  by_cases h3 : ¬ DistinctIndices a b hl li = true
                  · rw [if_pos h3]
                  · rw [if_neg h3]
                    have hrest : validateLevel p hl li rest = some none := by
                      apply ih hl li rest g (by simp at hlen; omega) hli
                        (fun r hr => hshape r (by simp [hr]))
                        (by simp at heven ⊢; omega)
                        (by simp at hg; omega)
                      have e1 : (a :: b :: rest).getD (2 * (g + 1)) [] = rest.getD (2 * g) [] := by
                        rw [show 2 * (g + 1) = 2 * g + 1 + 1 by ring]
                        simp [List.getD_cons_succ]
                      have e2 : (a :: b :: rest).getD (2 * (g + 1) + 1) [] =
                          rest.getD (2 * g + 1) [] := by
                        rw [show 2 * (g + 1) + 1 = 2 * g + 1 + 1 + 1 by ring]
                        simp [List.getD_cons_succ]
                      rw [e1, e2] at hord
                      exact hord
                    rw [hrest]

theorem validateLevel_cons_ok (p : Params) (hl li : Nat) (a b : Row) (rest Xc : List Row)
    (h : validateLevel p hl li (a :: b :: rest) = some (some Xc)) :
    HasCollision a b p.CollisionByteLength = true ∧ IndicesBefore 4 b a hl = false ∧
      DistinctIndices a b hl li = true := by
  rw [validateLevel] at h
  by_cases h1 : ¬ HasCollision a b p.CollisionByteLength = true
  · rw [if_pos h1] at h; simp at h
  · rw [if_neg h1] at h
    by_cases h2 : IndicesBefore 4 b a hl = true
    · rw [if_pos h2] at h; simp at h
    · rw [if_neg h2] at h
      by_cases h3 : ¬ DistinctIndices a b hl li = true
      · rw [if_pos h3] at h; simp at h
      · rw [if_neg h3] at h
        refine ⟨by simpa using h1, by simpa using h2, by simpa using h3⟩

theorem validLoop_runLevels (p : Params) :
    ∀ (ℓ fuel hl li : Nat) (X0 X : List Row),
      runLevels p ℓ hl li X0 = some (some X) → 2 ≤ X.length → ℓ < fuel →
      validLoop p fuel hl li X0 =
        validLoop p (fuel - ℓ) (hl - ℓ * p.CollisionByteLength) (2 ^ ℓ * li) X := by
  intro ℓ
  induction ℓ with
  | zero =>
      intro fuel hl li X0 X h _ _
      simp only [runLevels, Option.some.injEq] at h
      subst h
      simp
  | succ ℓ ih =>
      intro fuel hl li X0 X h hX hfuel
      rw [runLevels] at h
      cases hv : validateLevel p hl li X0 with
      | none => rw [hv] at h; simp at h
      | some o =>
          cases o with
          | none => rw [hv] at h; simp at h
          | some X1 =>
              rw [hv] at h
              have hlen0 := validateLevel_length p X0.length hl li X0 X1 le_rfl hv
              have hlen1 := runLevels_length p ℓ _ _ _ _ h
              cases fuel with
              | zero => omega
              | succ fuel =>
                  have h2ℓ : 1 ≤ 2 ^ ℓ := Nat.one_le_two_pow
                  have hX1 : 2 ≤ X1.length := by
                    rw [hlen1]
                    exact le_trans hX (Nat.le_mul_of_pos_left _ (by omega))
                  rw [validLoop, if_pos (by omega), hv]
                  have hstep : (match (some (some X1) : Option (Option (List Row))) with
                      | none => none
                      | some none => some false
                      | some (some Xc) =>
                          validLoop p fuel (hl - p.CollisionByteLength) (2 * li) Xc) =
                      validLoop p fuel (hl - p.CollisionByteLength) (2 * li) X1 := rfl
                  rw [hstep]
                  rw [ih fuel _ _ X1 X h hX (by omega)]
                  congr 1
                  · omega
                  · rw [Nat.sub_sub]
                    congr 1
                    ring
                  · ring

/-- C4: the verifier rejects any solution exhibiting a non-canonically ordered
adjacent pair.  First part: if the pairwise walk reaches level `ℓ` with list
`X` and some adjacent pair `(X[2g], X[2g+1])` fails the canonical ordering
(the leftmost index of `X[2g]`'s history is not strictly smaller than that of
`X[2g+1]`'s), then `IsValidSolution` returns `false`.  Second part: swapping
the first two indices of any accepted solution yields a rejected one. -/
theorem verifier_rejects_noncanonical :
    (∀ (p : Params) (base : HashState) (soln : List Nat) (ℓ g : Nat) (X : List Row),
      soln.length = p.solnSize →
      runLevels p ℓ p.ExpandedHashLength 4 (soln.map (fullStepRow p base)) = some (some X) →
      2 * g + 1 < X.length →
      ¬ (leftmostIndex 4 (X.getD (2 * g) []) (p.hashLenAt ℓ) <
          leftmostIndex 4 (X.getD (2 * g + 1) []) (p.hashLenAt ℓ)) →
      IsValidSolution p base soln = some false) ∧
    (∀ (p : Params) (base : HashState) (s0 s1 : Nat) (rest : List Nat),
      IsValidSolution p base (s0 :: s1 :: rest) = some true →
      IsValidSolution p base (s1 :: s0 :: rest) = some false) := by
  constructor
  · intro p base soln ℓ g X hlen hrun hg hord
    have hXlen0 : (soln.map (fullStepRow p base)).length = 2 ^ p.k := by
      simp [hlen, Params.solnSize]
    have hXX := runLevels_length p ℓ _ _ _ _ hrun
    rw [hXlen0] at hXX
    have h2ℓ : 1 ≤ 2 ^ ℓ := Nat.one_le_two_pow
    have hX2 : 2 ≤ X.length := by omega
    have hℓ1k : 2 ^ (ℓ + 1) ≤ 2 ^ p.k := by
      calc 2 ^ (ℓ + 1) = 2 ^ ℓ * 2 := by ring
      _ ≤ 2 ^ ℓ * X.length := Nat.mul_le_mul_left _ hX2
      _ = 2 ^ p.k := hXX.symm
    have hℓk : ℓ + 1 ≤ p.k := (Nat.pow_le_pow_iff_right (by norm_num)).mp hℓ1k
    obtain ⟨d, hd⟩ : ∃ d, p.k = ℓ + 1 + d := ⟨p.k - (ℓ + 1), by omega⟩
    have hXeq : X.length = 2 * 2 ^ d := by
      have : (2 : Nat) ^ p.k = 2 ^ ℓ * (2 * 2 ^ d) := by
        rw [hd]; ring
      rw [this] at hXX
      exact (Nat.eq_of_mul_eq_mul_left (by omega) hXX.symm)
    have heven : X.length % 2 = 0 := by omega
    have hshape0 : ∀ r ∈ soln.map (fullStepRow p base),
        List.length r = p.ExpandedHashLength + 4 := by
      intro r hr
      obtain ⟨i, _, rfl⟩ := List.mem_map.mp hr
      exact fullStepRow_length p base i
    have hshape := runLevels_shape p ℓ _ _ _ _ hshape0 hrun
    have hml := validateLevel_misordered p X.length (p.hashLenAt ℓ) (2 ^ ℓ * 4) X g
      le_rfl (by omega)
      (by
        intro r hr
        have := hshape r hr
        rw [Params.hashLenAt]
        omega)
      heven hg hord
    rw [IsValidSolution, if_neg (by simp [hlen])]
    rw [validLoop_runLevels p ℓ (soln.length + 1) _ _ _ _ hrun hX2
      (by
        have hk2 : p.k < 2 ^ p.k := Nat.lt_two_pow p.k
        have : soln.length = 2 ^ p.k := by rw [hlen]; rfl
        omega)]
    have hsub : soln.length + 1 - ℓ = (soln.length - ℓ) + 1 := by
      have hk2 : p.k < 2 ^ p.k := Nat.lt_two_pow p.k
      have : soln.length = 2 ^ p.k := by rw [hlen]; rfl
      omega
    rw [hsub, validLoop, if_pos (by omega)]
    rw [show p.ExpandedHashLength - ℓ * p.CollisionByteLength = p.hashLenAt ℓ from rfl]
    rw [hml]
  · intro p base s0 s1 rest hvalid
    rw [IsValidSolution] at hvalid
    by_cases hlen : (s0 :: s1 :: rest).length ≠ p.solnSize
    · rw [if_pos hlen] at hvalid; simp at hvalid
    · rw [if_neg hlen] at hvalid
      simp only [Decidable.not_not] at hlen
      simp only [List.map_cons] at hvalid
      have hlen2 : (s1 :: s0 :: rest).length = p.solnSize := by simpa using hlen
      rw [IsValidSolution, if_neg (by simp [hlen2])]
      simp only [List.map_cons]
      rw [validLoop, if_pos (by simp)] at hvalid
      rw [validLoop, if_pos (by simp)]
      cases hv : validateLevel p p.ExpandedHashLength 4
          (fullStepRow p base s0 :: fullStepRow p base s1 ::
            rest.map (fun i => fullStepRow p base i)) with
      | none => rw [hv] at hvalid; simp at hvalid
      | some o =>
          cases o with
          | none => rw [hv] at hvalid; simp at hvalid
          | some Xc =>
              obtain ⟨hcol, hord, hdis⟩ := validateLevel_cons_ok p _ _ _ _ _ _ hv
              have hlta : leftmostIndex 4 (fullStepRow p base s0) p.ExpandedHashLength =
                  s0 % 2 ^ 32 := leftmostIndex_leaf p base s0
              have hltb : leftmostIndex 4 (fullStepRow p base s1) p.ExpandedHashLength =
                  s1 % 2 ^ 32 := leftmostIndex_leaf p base s1
              have hne : s0 % 2 ^ 32 ≠ s1 % 2 ^ 32 := by
                intro heq
                have hdf := distinct_false_of_eq_leftmost (fullStepRow p base s0)
                  (fullStepRow p base s1) p.ExpandedHashLength 4 (by omega)
                  (by rw [fullStepRow_length]) (by rw [fullStepRow_length])
                  (by rw [hlta, hltb, heq])
                rw [hdis] at hdf
                exact Bool.noConfusion hdf
              have hlt : s0 % 2 ^ 32 < s1 % 2 ^ 32 := by
                simp only [IndicesBefore, hlta, hltb, decide_eq_false_iff_not] at hord
                omega
              have hv2 : validateLevel p p.ExpandedHashLength 4
                  (fullStepRow p base s1 :: fullStepRow p base s0 ::
                    rest.map (fun i => fullStepRow p base i)) = some none := by
                rw [validateLevel]
                rw [if_neg (by simp [HasCollision_symm _ _ _ hcol])]
                rw [if_pos (by simp only [IndicesBefore, hlta, hltb]; exact decide_eq_true hlt)]
              rw [hv2]

/-- Witness for C4: at `(N,K) = (2,1)` with the zero digest, `[0,1]` is
accepted and its swap `[1,0]` is rejected. -/
theorem verifier_rejects_noncanonical_witness :
    IsValidSolution ⟨2, 1⟩ (fun _ => [0, 0]) [1, 0] = some false :=
  verifier_rejects_noncanonical.2 ⟨2, 1⟩ (fun _ => [0, 0]) 0 1 [] (by decide)
/-! ### Claim C7: in-place compaction versus a fresh output list -/

theorem getD_mem {α : Type} (l : List α) (n : Nat) (d : α) (h : n < l.length) :
    l.getD n d ∈ l := by
  rw [List.getD_eq_getElem?_getD, List.getElem?_eq_getElem h]
  exact List.getElem_mem h

theorem take_succ_set {α : Type} :
    ∀ (X : List α) (pos : Nat) (v : α), pos < X.length →
      (X.set pos v).take (pos + 1) = X.take pos ++ [v] := by
  intro X
  induction X with
  | nil => intro pos v h; simp at h
  | cons x xs ih =>
      intro pos v h
      cases pos with
      | zero => simp
      | succ pos =>
          simp only [List.set_cons_succ, List.take_succ_cons, List.cons_append]
          rw [ih pos v (by simp at h; omega)]

theorem getD_of_drop_eq {α : Type} {X X' : List α} (m : Nat) (h : X'.drop m = X.drop m)
    (q : Nat) (hq : m ≤ q) (d : α) : X'.getD q d = X.getD q d := by
  rw [List.getD_eq_getElem?_getD, List.getD_eq_getElem?_getD]
  have he : X'[q]? = X[q]? := by
    have h1 := List.getElem?_drop X' m (q - m)
    have h2 := List.getElem?_drop X m (q - m)
    rw [h] at h1
    rw [show m + (q - m) = q by omega] at h1 h2
    rw [← h1, h2]
  rw [he]

theorem drop_eq_of_drop_eq {α : Type} {X X' : List α} {m n : Nat}
    (h : X'.drop m = X.drop m) (hmn : m ≤ n) : X'.drop n = X.drop n := by
  have h1 : (X'.drop m).drop (n - m) = (X.drop m).drop (n - m) := by rw [h]
  rw [List.drop_drop, List.drop_drop] at h1
  rw [show m + (n - m) = n by omega] at h1
  exact h1

theorem runLength_eq (X : List Row) (clen i j : Nat) :
    runLength X clen i j =
      if i + j < X.length ∧ HasCollision (X.getD i []) (X.getD (i + j) []) clen then
        runLength X clen i (j + 1)
      else j := by
  rw [runLength, runLength]
  by_cases hc : i + j < X.length ∧ HasCollision (X.getD i []) (X.getD (i + j) []) clen
  · rw [if_pos hc]
    have h1 : X.length - (i + j) = (X.length - (i + (j + 1))) + 1 := by omega
    rw [h1, runLengthGo, if_pos hc]
  · rw [if_neg hc]
    cases hf : X.length - (i + j) with
    | zero => rfl
    | succ m => rw [runLengthGo, if_neg hc]

theorem backfill_eq (X : List Row) (pos limit : Nat) (Xc : List Row) :
    backfill X pos limit Xc =
      if h : pos < limit ∧ Xc ≠ [] then
        backfill (X.set pos (Xc.getLast h.2)) (pos + 1) limit Xc.dropLast
      else (X, pos, Xc) := by
  rw [backfill]
  by_cases hg : pos < limit ∧ Xc ≠ []
  · rw [dif_pos hg, backfill]
    have h1 : Xc.length = Xc.dropLast.length + 1 := by
      rw [List.length_dropLast]
      have hpos2 : 0 < Xc.length := List.length_pos.mpr hg.2
      omega
    rw [h1, backfillGo, dif_pos hg]
  · rw [dif_neg hg]
    cases hf : Xc.length with
    | zero => rfl
    | succ m => rw [backfillGo, dif_neg hg]

theorem basicRoundsRec_eq (p : Params) (base : HashState) (r hashLen lenIndices : Nat)
    (X : List Row) :
    basicRoundsRec p base r hashLen lenIndices X =
      if h : r < p.k ∧ X ≠ [] then
        basicRoundsRec p base (r + 1) (hashLen - p.CollisionByteLength) (2 * lenIndices)
          (basicRound p hashLen lenIndices X)
      else (X, hashLen, lenIndices) := by
  rw [basicRoundsRec]
  by_cases hg : r < p.k ∧ X ≠ []
  · rw [dif_pos hg]
    have h1 : p.k - r = (p.k - (r + 1)) + 1 := by omega
    rw [h1, basicRoundsRecGo, if_pos hg]
    rfl
  · rw [dif_neg hg]
    cases hf : p.k - r with
    | zero => rfl
    | succ m => rw [basicRoundsRecGo, if_neg hg]

theorem truncRoundsRec_eq (p : Params) (base : HashState) (r hashLen lenIndices : Nat)
    (X : List Row) :
    truncRoundsRec p base r hashLen lenIndices X =
      if h : r < p.k ∧ X ≠ [] then
        truncRoundsRec p base (r + 1) (hashLen - p.CollisionByteLength) (2 * lenIndices)
          (truncRound p hashLen lenIndices X)
      else (X, hashLen, lenIndices) := by
  rw [truncRoundsRec]
  by_cases hg : r < p.k ∧ X ≠ []
  · rw [dif_pos hg]
    have h1 : p.k - r = (p.k - (r + 1)) + 1 := by omega
    rw [h1, truncRoundsRecGo, if_pos hg]
    rfl
  · rw [dif_neg hg]
    cases hf : p.k - r with
    | zero => rfl
    | succ m => rw [truncRoundsRecGo, if_neg hg]

theorem genLoopFull_eq (p : Params) (base : HashState) (c : EhSolverCancelCheck → Bool)
    (i : Nat) (acc : List Row) (log : Log) :
    genLoopFull p base c i acc log =
      if i < p.initSize then
        if c .ListGeneration then (.error (), log ++ [.ListGeneration])
        else genLoopFull p base c (i + 1) (acc ++ [fullStepRow p base i])
          (log ++ [.ListGeneration])
      else (.ok acc, log) := by
  rw [genLoopFull]
  by_cases hg : i < p.initSize
  · rw [if_pos hg]
    have h1 : p.initSize - i = (p.initSize - (i + 1)) + 1 := by omega
    rw [h1, genLoopFullGo, if_pos hg]
    rfl
  · rw [if_neg hg]
    cases hf : p.initSize - i with
    | zero => rfl
    | succ m => rw [genLoopFullGo, if_neg hg]

theorem genLoopTrunc_eq (p : Params) (base : HashState) (c : EhSolverCancelCheck → Bool)
    (i : Nat) (acc : List Row) (log : Log) :
    genLoopTrunc p base c i acc log =
      if i < p.initSize then
        if c .ListGeneration then (.error (), log ++ [.ListGeneration])
        else genLoopTrunc p base c (i + 1)
          (acc ++ [truncStepRow p base i (p.CollisionBitLength + 1)])
          (log ++ [.ListGeneration])
      else (.ok acc, log) := by
  rw [genLoopTrunc]
  by_cases hg : i < p.initSize
  · rw [if_pos hg]
    have h1 : p.initSize - i = (p.initSize - (i + 1)) + 1 := by omega
    rw [h1, genLoopTruncGo, if_pos hg]
    rfl
  · rw [if_neg hg]
    cases hf : p.initSize - i with
    | zero => rfl
    | succ m => rw [genLoopTruncGo, if_neg hg]

theorem roundsLoopP_eq (p : Params) (c : EhSolverCancelCheck → Bool)
    (emit : Nat → Nat → Row → Row → List Row)
    (r hashLen lenIndices : Nat) (X : List Row) (log : Log) :
    roundsLoopP p c emit r hashLen lenIndices X log =
      if h : r < p.k ∧ X ≠ [] then
        if c .ListSorting then (.error (), log ++ [.ListSorting])
        else
          match scanCollP c (emit hashLen lenIndices) p.CollisionByteLength
            ((sortRows p.CollisionByteLength X).length + 1)
            (sortRows p.CollisionByteLength X) 0 0 [] (log ++ [.ListSorting]) with
          | (.error e, lg) => (.error e, lg)
          | (.ok s, lg) =>
              if c .RoundEnd then (.error (), lg ++ [.RoundEnd])
              else
                roundsLoopP p c emit (r + 1) (hashLen - p.CollisionByteLength)
                  (2 * lenIndices) (roundTail s) (lg ++ [.RoundEnd])
      else (.ok (X, hashLen, lenIndices), log) := by
  rw [roundsLoopP]
  by_cases hg : r < p.k ∧ X ≠ []
  · rw [dif_pos hg]
    have h1 : p.k - r = (p.k - (r + 1)) + 1 := by omega
    rw [h1, roundsLoopPGo, if_pos hg]
    rfl
  · rw [dif_neg hg]
    cases hf : p.k - r with
    | zero => rfl
    | succ m => rw [roundsLoopPGo, if_neg hg]

theorem backfill_spec :
    ∀ (n : Nat) (X : List Row) (pos limit : Nat) (Xc : List Row),
      limit - pos ≤ n → pos ≤ limit → limit ≤ X.length →
      (backfill X pos limit Xc).1.length = X.length ∧
      pos ≤ (backfill X pos limit Xc).2.1 ∧
      (backfill X pos limit Xc).2.1 ≤ limit ∧
      ((backfill X pos limit Xc).2.1 = limit ∨ (backfill X pos limit Xc).2.2 = []) ∧
      (backfill X pos limit Xc).1.drop limit = X.drop limit ∧
      ((backfill X pos limit Xc).1.take (backfill X pos limit Xc).2.1 ++
        (backfill X pos limit Xc).2.2).Perm (X.take pos ++ Xc) := by
  intro n
  induction n with
  | zero =>
      intro X pos limit Xc hn hpl hlx
      have hpl2 : pos = limit := by omega
      rw [backfill_eq, dif_neg (by omega)]
      exact ⟨rfl, le_rfl, hpl, Or.inl hpl2, rfl, List.Perm.refl _⟩
  | succ n ih =>
      intro X pos limit Xc hn hpl hlx
      rw [backfill_eq]
      by_cases h : pos < limit ∧ Xc ≠ []
      · rw [dif_pos h]
        have hrec := ih (X.set pos (Xc.getLast h.2)) (pos + 1) limit Xc.dropLast
          (by omega) (by omega) (by rw [List.length_set]; omega)
        obtain ⟨l1, l2, l3, l4, l5, l6⟩ := hrec
        refine ⟨?_, by omega, l3, l4, ?_, ?_⟩
        · rw [l1, List.length_set]
        · rw [l5, List.drop_set_of_lt _ _ (by omega)]
        · refine l6.trans ?_
          rw [take_succ_set X pos _ (by omega), List.append_assoc]
          refine List.Perm.append_left _ ?_
          refine List.perm_append_comm.trans ?_
          rw [List.dropLast_append_getLast h.2]
      · rw [dif_neg h]
        refine ⟨rfl, le_rfl, hpl, ?_, rfl, List.Perm.refl _⟩
        dsimp only
        by_cases h2 : pos < limit
        · right
          by_contra h3
          exact h ⟨h2, h3⟩
        · left; omega

theorem runLength_ge (X : List Row) (clen : Nat) :
    ∀ (n i j : Nat), X.length - (i + j) ≤ n → j ≤ runLength X clen i j := by
  intro n
  induction n with
  | zero =>
      intro i j hn
      rw [runLength_eq, if_neg (by omega)]
  | succ n ih =>
      intro i j hn
      rw [runLength_eq]
      by_cases h : i + j < X.length ∧
          HasCollision (X.getD i []) (X.getD (i + j) []) clen = true
      · rw [if_pos h]
        have := ih i (j + 1) (by omega)
        omega
      · rw [if_neg h]

theorem runLength_le (X : List Row) (clen : Nat) :
    ∀ (n i j : Nat), X.length - (i + j) ≤ n → i + j ≤ X.length →
      i + runLength X clen i j ≤ X.length := by
  intro n
  induction n with
  | zero =>
      intro i j hn hj
      rw [runLength_eq, if_neg (by omega)]
      omega
  | succ n ih =>
      intro i j hn hj
      rw [runLength_eq]
      by_cases h : i + j < X.length ∧
          HasCollision (X.getD i []) (X.getD (i + j) []) clen = true
      · rw [if_pos h]
        exact ih i (j + 1) (by omega) (by omega)
      · rw [if_neg h]
        omega

theorem runLength_collides (X : List Row) (clen : Nat) :
    ∀ (n i j : Nat), X.length - (i + j) ≤ n →
      ∀ t, j ≤ t → t < runLength X clen i j →
        i + t < X.length ∧ HasCollision (X.getD i []) (X.getD (i + t) []) clen = true := by
  intro n
  induction n with
  | zero =>
      intro i j hn t htj htr
      rw [runLength_eq, if_neg (by omega)] at htr
      omega
  | succ n ih =>
      intro i j hn t htj htr
      rw [runLength_eq] at htr
      by_cases h : i + j < X.length ∧
          HasCollision (X.getD i []) (X.getD (i + j) []) clen = true
      · rw [if_pos h] at htr
        by_cases ht : t = j
        · subst ht
          exact ⟨h.1, h.2⟩
        · exact ih i (j + 1) (by omega) t (by omega) htr
      · rw [if_neg h] at htr
        omega

theorem runLength_congr {X X' : List Row} (clen : Nat)
    (hlen : X'.length = X.length) :
    ∀ (n i j : Nat), X.length - (i + j) ≤ n → X'.drop i = X.drop i →
      runLength X' clen i j = runLength X clen i j := by
  intro n
  induction n with
  | zero =>
      intro i j hn hdrop
      conv_lhs => rw [runLength_eq]
      conv_rhs => rw [runLength_eq]
      rw [if_neg (by rintro ⟨h1, -⟩; rw [hlen] at h1; omega), if_neg (by omega)]
  | succ n ih =>
      intro i j hn hdrop
      conv_lhs => rw [runLength_eq]
      conv_rhs => rw [runLength_eq]
      rw [getD_of_drop_eq i hdrop i le_rfl, getD_of_drop_eq i hdrop (i + j) (by omega), hlen]
      by_cases h : i + j < X.length ∧
          HasCollision (X.getD i []) (X.getD (i + j) []) clen = true
      · rw [if_pos h, if_pos h]
        exact ih i (j + 1) (by omega) hdrop
      · rw [if_neg h, if_neg h]

theorem runPairs_congr {α : Type} (emitPair : Row → Row → List α) {X X' : List Row}
    (i j : Nat) (hdrop : X'.drop i = X.drop i) :
    runPairs emitPair X' i j = runPairs emitPair X i j := by
  unfold runPairs
  congr 1
  funext l
  congr 1
  funext m
  rw [getD_of_drop_eq i hdrop (i + l) (by omega), getD_of_drop_eq i hdrop (i + m) (by omega)]

theorem scanEmits_congr {α : Type} (emitPair : Row → Row → List α) (clen : Nat) :
    ∀ (fuel : Nat) {X X' : List Row}, X'.length = X.length →
      ∀ (i : Nat), X'.drop i = X.drop i →
        scanEmits emitPair clen fuel X' i = scanEmits emitPair clen fuel X i := by
  intro fuel
  induction fuel with
  | zero => intro X X' _ i _; rfl
  | succ fuel ih =>
      intro X X' hlen i hdrop
      conv_lhs => rw [scanEmits]
      conv_rhs => rw [scanEmits]
      rw [hlen]
      by_cases h : i < X.length - 1
      · rw [if_pos h, if_pos h]
        rw [runLength_congr clen hlen (X.length - (i + 1)) i 1 le_rfl hdrop]
        rw [runPairs_congr emitPair i _ hdrop]
        rw [ih hlen (i + runLength X clen i 1)
          (drop_eq_of_drop_eq hdrop (by omega))]
      · rw [if_neg h, if_neg h]

theorem scanColl_perm (emitPair : Row → Row → List Row) (clen : Nat) :
    ∀ (fuel : Nat) (X : List Row) (i pos : Nat) (Xc : List Row),
      pos ≤ i → i ≤ X.length →
      (scanColl emitPair clen fuel X i pos Xc).1.length = X.length ∧
      (scanColl emitPair clen fuel X i pos Xc).2.1 ≤ X.length ∧
      ((scanColl emitPair clen fuel X i pos Xc).1.take
          (scanColl emitPair clen fuel X i pos Xc).2.1 ++
        (scanColl emitPair clen fuel X i pos Xc).2.2).Perm
        (X.take pos ++ Xc ++ scanEmits emitPair clen fuel X i) := by
  intro fuel
  induction fuel with
  | zero =>
      intro X i pos Xc hpi hix
      rw [scanColl, scanEmits]
      refine ⟨rfl, ?_, by simp⟩
      dsimp only
      omega
  | succ fuel ih =>
      intro X i pos Xc hpi hix
      rw [scanColl, scanEmits]
      by_cases h : i < X.length - 1
      · rw [if_pos h, if_pos h]
        have hj1 : 1 ≤ runLength X clen i 1 := runLength_ge X clen (X.length - (i + 1)) i 1 le_rfl
        have hjle : i + runLength X clen i 1 ≤ X.length :=
          runLength_le X clen (X.length - (i + 1)) i 1 le_rfl (by omega)
        obtain ⟨b1, _b2, b3, _b4, b5, b6⟩ := backfill_spec ((i + runLength X clen i 1) - pos) X pos
          (i + runLength X clen i 1) (Xc ++ runPairs emitPair X i (runLength X clen i 1)) le_rfl
          (by omega) hjle
        obtain ⟨s1, s2, s3⟩ := ih
          (backfill X pos (i + runLength X clen i 1)
            (Xc ++ runPairs emitPair X i (runLength X clen i 1))).1
          (i + runLength X clen i 1)
          (backfill X pos (i + runLength X clen i 1)
            (Xc ++ runPairs emitPair X i (runLength X clen i 1))).2.1
          (backfill X pos (i + runLength X clen i 1)
            (Xc ++ runPairs emitPair X i (runLength X clen i 1))).2.2
          b3 (by rw [b1]; exact hjle)
        refine ⟨by rw [s1, b1], by rw [b1] at s2; exact s2, ?_⟩
        refine s3.trans ?_
        rw [scanEmits_congr emitPair clen fuel b1 (i + runLength X clen i 1) b5]
        refine (b6.append_right
          (scanEmits emitPair clen fuel X (i + runLength X clen i 1))).trans ?_
        simp only [List.append_assoc]
        exact List.Perm.refl _
      · rw [if_neg h, if_neg h]
        refine ⟨rfl, ?_, by simp⟩
        dsimp only
        omega

theorem roundTail_perm (s : List Row × Nat × List Row) (h : s.2.1 ≤ s.1.length) :
    (roundTail s).Perm (s.1.take s.2.1 ++ s.2.2) := by
  rw [roundTail]
  obtain ⟨b1, _b2, _b3, b4, _b5, b6⟩ :=
    backfill_spec (s.1.length - s.2.1) s.1 s.2.1 s.1.length s.2.2 le_rfl h le_rfl
  by_cases hc : (backfill s.1 s.2.1 s.1.length s.2.2).2.2 ≠ []
  · rw [if_pos hc]
    rcases b4 with hb | hb
    · have htake : ((backfill s.1 s.2.1 s.1.length s.2.2).1).take
          (backfill s.1 s.2.1 s.1.length s.2.2).2.1 =
          (backfill s.1 s.2.1 s.1.length s.2.2).1 :=
        List.take_of_length_le (by rw [b1, hb])
      rw [← htake]
      exact b6
    · exact absurd hb hc
  · rw [if_neg hc]
    simp only [ne_eq, Decidable.not_not] at hc
    rw [hc, List.append_nil] at b6
    exact b6

theorem collideCompact_perm (emitPair : Row → Row → List Row) (clen : Nat) (X : List Row) :
    (collideCompact emitPair clen X).Perm (scanEmits emitPair clen (X.length + 1) X 0) := by
  rw [collideCompact]
  obtain ⟨s1, s2, s3⟩ := scanColl_perm emitPair clen (X.length + 1) X 0 0 [] le_rfl (by omega)
  refine (roundTail_perm _ (by rw [s1]; exact s2)).trans ?_
  simpa using s3

/-- C7: one collision-reduction round of `BasicSolve` (sort, run scan, pairwise
merging into the auxiliary buffer, in-place backfill via the `posFree` cursor,
then overflow-append or tail-truncation) produces, as a multiset, exactly the
admissible merges emitted during the scan: the in-place compaction is
observably equivalent to building a fresh output list containing exactly those
merges (helper form). -/
theorem basicRound_fresh_perm (p : Params) (hashLen lenIndices : Nat) (X : List Row) :
    (basicRound p hashLen lenIndices X).Perm (freshBasicRound p hashLen lenIndices X) := by
  rw [basicRound, freshBasicRound]
  exact collideCompact_perm (emitBasic p hashLen lenIndices) p.CollisionByteLength
    (sortRows p.CollisionByteLength X)

/-- C7: one collision-reduction round of `BasicSolve` (sort, run scan, pairwise
merging into the auxiliary buffer, in-place backfill via the `posFree` cursor,
then overflow-append or tail-truncation) produces, as a multiset, exactly the
admissible merges emitted during the scan: the in-place compaction is
observably equivalent to building a fresh output list containing exactly those
merges. -/
theorem basic_round_compaction_perm (p : Params) (hashLen lenIndices : Nat) (X : List Row) :
    (basicRound p hashLen lenIndices X).Perm (freshBasicRound p hashLen lenIndices X) :=
  basicRound_fresh_perm p hashLen lenIndices X

/-! ### Claim C8: cancellation -/

/-- C8: with a probe that always requests cancellation, both solvers raise the
`SolverCancelled` condition (the `Except.error`), the probe trace consists of
exactly one invocation labelled `ListGeneration` (so `ListGeneration` is asked
before any other label), and no solution list is surfaced. -/
theorem cancellation_short_circuits (p : Params) (base : HashState)
    (c : EhSolverCancelCheck → Bool) (hc : ∀ l, c l = true) :
    BasicSolve p base c [] = (.error (), [.ListGeneration]) ∧
    OptimisedSolve p base c [] = (.error (), [.ListGeneration]) := by
  have hpos : 0 < p.initSize := by
    rw [Params.initSize]
    positivity
  have hgen : genLoopFull p base c 0 [] [] = (.error (), [.ListGeneration]) := by
    rw [genLoopFull_eq, if_pos hpos, hc .ListGeneration]
    simp
  have hgent : genLoopTrunc p base c 0 [] [] = (.error (), [.ListGeneration]) := by
    rw [genLoopTrunc_eq, if_pos hpos, hc .ListGeneration]
    simp
  constructor
  · rw [BasicSolve, hgen]
  · rw [OptimisedSolve, hgent]

/-- Witness for C8 at concrete parameters with the constantly-true probe. -/
theorem cancellation_short_circuits_witness :
    BasicSolve ⟨2, 1⟩ (fun _ => [0, 0]) (fun _ => true) [] = (.error (), [.ListGeneration]) ∧
    OptimisedSolve ⟨2, 1⟩ (fun _ => [0, 0]) (fun _ => true) [] =
      (.error (), [.ListGeneration]) :=
  cancellation_short_circuits ⟨2, 1⟩ (fun _ => [0, 0]) (fun _ => true) (fun _ => rfl)

/-! ### Claim C1: every `BasicSolve` output validates -/

theorem genLoopFull_ok (p : Params) (base : HashState) (c : EhSolverCancelCheck → Bool)
    (hc : ∀ l, c l = false) :
    ∀ (n i : Nat) (acc : List Row) (log : Log), p.initSize - i ≤ n →
      (genLoopFull p base c i acc log).1 =
        .ok (acc ++ (List.range' i (p.initSize - i)).map (fun t => fullStepRow p base t)) := by
  intro n
  induction n with
  | zero =>
      intro i acc log hn
      rw [genLoopFull_eq]
      rw [if_neg (by omega)]
      simp [show p.initSize - i = 0 by omega]
  | succ n ih =>
      intro i acc log hn
      by_cases h : i < p.initSize
      · rw [genLoopFull_eq, if_pos h, hc .ListGeneration, if_neg (by simp)]
        rw [ih (i + 1) _ _ (by omega)]
        rw [show p.initSize - i = (p.initSize - (i + 1)) + 1 by omega]
        rw [List.range'_succ]
        simp
      · rw [genLoopFull_eq, if_neg h]
        simp [show p.initSize - i = 0 by omega]

theorem scanCollP_ok (c : EhSolverCancelCheck → Bool) (hc : ∀ l, c l = false)
    (emitPair : Row → Row → List Row) (clen : Nat) :
    ∀ (fuel : Nat) (X : List Row) (i pos : Nat) (Xc : List Row) (log : Log),
      (scanCollP c emitPair clen fuel X i pos Xc log).1 =
        .ok (scanColl emitPair clen fuel X i pos Xc) := by
  intro fuel
  induction fuel with
  | zero => intro X i pos Xc log; rfl
  | succ fuel ih =>
      intro X i pos Xc log
      rw [scanCollP, scanColl]
      by_cases h : i < X.length - 1
      · rw [if_pos h, if_pos h, hc .ListColliding, if_neg (by simp)]
        exact ih _ _ _ _ _
      · rw [if_neg h, if_neg h]

theorem finalScanP_ok {α : Type} (c : EhSolverCancelCheck → Bool) (hc : ∀ l, c l = false)
    (lab : EhSolverCancelCheck) (emitPair : Row → Row → List α) (clen : Nat) :
    ∀ (fuel : Nat) (X : List Row) (i : Nat) (acc : List α) (log : Log),
      (finalScanP c lab emitPair clen fuel X i acc log).1 =
        .ok (acc ++ scanEmits emitPair clen fuel X i) := by
  intro fuel
  induction fuel with
  | zero => intro X i acc log; rw [finalScanP, scanEmits]; simp
  | succ fuel ih =>
      intro X i acc log
      rw [finalScanP, scanEmits]
      by_cases h : i < X.length - 1
      · rw [if_pos h, if_pos h, hc lab, if_neg (by simp)]
        rw [ih]
        simp
      · rw [if_neg h, if_neg h]
        simp

theorem roundsLoopP_basic_ok (p : Params) (base : HashState) (c : EhSolverCancelCheck → Bool)
    (hc : ∀ l, c l = false) :
    ∀ (n r hl li : Nat) (X : List Row) (log : Log), p.k - r ≤ n →
      (roundsLoopP p c (fun hl2 li2 => emitBasic p hl2 li2) r hl li X log).1 =
        .ok (basicRoundsRec p base r hl li X) := by
  intro n
  induction n with
  | zero =>
      intro r hl li X log hn
      rw [roundsLoopP_eq, basicRoundsRec_eq, dif_neg (by omega), dif_neg (by omega)]
  | succ n ih =>
      intro r hl li X log hn
      by_cases h : r < p.k ∧ X ≠ []
      · rw [roundsLoopP_eq, basicRoundsRec_eq, dif_pos h, dif_pos h]
        rw [hc .ListSorting, if_neg (by simp)]
        have hscan := scanCollP_ok c hc (emitBasic p hl li) p.CollisionByteLength
          ((sortRows p.CollisionByteLength X).length + 1) (sortRows p.CollisionByteLength X)
          0 0 [] (log ++ [.ListSorting])
        cases hsc : scanCollP c (emitBasic p hl li) p.CollisionByteLength
          ((sortRows p.CollisionByteLength X).length + 1) (sortRows p.CollisionByteLength X)
          0 0 [] (log ++ [.ListSorting]) with
        | mk e lg =>
            rw [hsc] at hscan
            simp only at hscan
            subst hscan
            dsimp only
            rw [hc .RoundEnd, if_neg (by simp)]
            rw [ih (r + 1) _ _ _ _ (by omega)]
            rfl
      · rw [roundsLoopP_eq, basicRoundsRec_eq, dif_neg h, dif_neg h]

theorem BasicSolve_ok (p : Params) (base : HashState) (c : EhSolverCancelCheck → Bool)
    (hc : ∀ l, c l = false) (log : Log) :
    (BasicSolve p base c log).1 = .ok (basicSolvePure p base) := by
  rw [BasicSolve]
  have hgen := genLoopFull_ok p base c hc p.initSize 0 [] log (by omega)
  cases hg : genLoopFull p base c 0 [] log with
  | mk e lg =>
      rw [hg] at hgen
      simp only at hgen
      subst hgen
      dsimp only
      have hinit : ([] ++ List.map (fun t => fullStepRow p base t) (List.range' 0 (p.initSize - 0)))
          = initialListFull p base := by
        rw [initialListFull, List.range_eq_range']
        simp
      rw [hinit]
      have hrounds := roundsLoopP_basic_ok p base c hc p.k 1 p.ExpandedHashLength 4
        (initialListFull p base) lg (by omega)
      cases hr : roundsLoopP p c (fun hl2 li2 => emitBasic p hl2 li2) 1 p.ExpandedHashLength 4
        (initialListFull p base) lg with
      | mk e2 lg2 =>
          rw [hr] at hrounds
          simp only at hrounds
          subst hrounds
          dsimp only
          rw [basicSolvePure, basicSolveFinal]
          by_cases hlen : (basicRoundsRec p base 1 p.ExpandedHashLength 4
              (initialListFull p base)).1.length > 1
          · rw [if_pos hlen, if_pos hlen]
            rw [hc .FinalSorting, if_neg (by simp)]
            rw [finalScanP_ok c hc .FinalColliding _ _ _ _ _ _ _]
            simp
          · rw [if_neg hlen, if_neg hlen]

theorem basicSolutions_eq_pure (p : Params) (base : HashState) (c : EhSolverCancelCheck → Bool)
    (hc : ∀ l, c l = false) : basicSolutions p base c = basicSolvePure p base := by
  rw [basicSolutions]
  have := BasicSolve_ok p base c hc []
  cases hb : (BasicSolve p base c []) with
  | mk e lg =>
      rw [hb] at this
      simp only at this
      subst this
      rfl

theorem HasCollision_trans {a b d : Row} {l : Nat} (h1 : HasCollision a b l = true)
    (h2 : HasCollision a d l = true) : HasCollision b d l = true := by
  simp only [HasCollision, beq_iff_eq] at h1 h2 ⊢
  rw [← h1, h2]

theorem HasCollision_mono {a b : Row} {l m : Nat} (hm : m ≤ l)
    (h : HasCollision a b l = true) : HasCollision a b m = true := by
  simp only [HasCollision, beq_iff_eq] at h ⊢
  have := congrArg (List.take m) h
  rwa [List.take_take, List.take_take, Nat.min_eq_left hm] at this

theorem runPairs_mem {α : Type} (emitPair : Row → Row → List α) (X : List Row) (i j : Nat)
    (x : α) (hx : x ∈ runPairs emitPair X i j) :
    ∃ l m, l < m ∧ m < j ∧ x ∈ emitPair (X.getD (i + l) []) (X.getD (i + m) []) := by
  unfold runPairs at hx
  rw [List.mem_flatMap] at hx
  obtain ⟨l, hl, hx⟩ := hx
  rw [List.mem_flatMap] at hx
  obtain ⟨m, hm, hx⟩ := hx
  rw [List.mem_range] at hl
  rw [List.mem_range'] at hm
  obtain ⟨t, ht, rfl⟩ := hm
  exact ⟨l, l + 1 + 1 * t, by omega, by omega, hx⟩

theorem scanEmits_mem {α : Type} (emitPair : Row → Row → List α) (clen : Nat) :
    ∀ (fuel : Nat) (X : List Row) (i : Nat) (x : α), x ∈ scanEmits emitPair clen fuel X i →
      ∃ u v, i ≤ u ∧ u < v ∧ v < X.length ∧
        HasCollision (X.getD u []) (X.getD v []) clen = true ∧
        x ∈ emitPair (X.getD u []) (X.getD v []) := by
  intro fuel
  induction fuel with
  | zero => intro X i x hx; simp [scanEmits] at hx
  | succ fuel ih =>
      intro X i x hx
      rw [scanEmits] at hx
      by_cases h : i < X.length - 1
      · rw [if_pos h] at hx
        rcases List.mem_append.mp hx with hx1 | hx2
        · obtain ⟨l, m, hlm, hmj, hmem⟩ := runPairs_mem emitPair X i _ x hx1
          have hcm : i + m < X.length ∧
              HasCollision (X.getD i []) (X.getD (i + m) []) clen = true := by
            apply runLength_collides X clen (X.length - (i + 1)) i 1 le_rfl
            · omega
            · exact hmj
          by_cases hl0 : l = 0
          · subst hl0
            refine ⟨i, i + m, le_rfl, by omega, hcm.1, ?_, ?_⟩
            · simpa using hcm.2
            · simpa using hmem
          · have hcl : i + l < X.length ∧
                HasCollision (X.getD i []) (X.getD (i + l) []) clen = true := by
              apply runLength_collides X clen (X.length - (i + 1)) i 1 le_rfl
              · omega
              · omega
            exact ⟨i + l, i + m, by omega, by omega, hcm.1,
              HasCollision_trans hcl.2 hcm.2, hmem⟩
        · obtain ⟨u, v, hu, huv, hv, hcol, hmem⟩ := ih X _ x hx2
          have h1 : 1 ≤ runLength X clen i 1 :=
            runLength_ge X clen (X.length - (i + 1)) i 1 le_rfl
          exact ⟨u, v, by omega, huv, hv, hcol, hmem⟩
      · rw [if_neg h] at hx
        simp at hx

theorem emitBasic_mem {p : Params} {hl li : Nat} {a b row : Row}
    (h : row ∈ emitBasic p hl li a b) :
    DistinctIndices a b hl li = true ∧ row = mergeFull a b hl li p.CollisionByteLength := by
  rw [emitBasic] at h
  by_cases hd : DistinctIndices a b hl li = true
  · rw [if_pos hd] at h
    simp at h
    exact ⟨hd, h⟩
  · rw [if_neg hd] at h
    simp at h

theorem emitSolnBasic_mem {p : Params} {hl li : Nat} {a b : Row} {s : List Nat}
    (h : s ∈ emitSolnBasic p hl li a b) :
    DistinctIndices a b hl li = true ∧ s = GetIndices (mergeRow 4 a b hl li 0) hl (2 * li) := by
  rw [emitSolnBasic] at h
  by_cases hd : DistinctIndices a b hl li = true
  · rw [if_pos hd] at h
    simp at h
    exact ⟨hd, h⟩
  · rw [if_neg hd] at h
    simp at h

theorem insertRow_perm (len : Nat) (r : Row) :
    ∀ l : List Row, (insertRow len r l).Perm (r :: l) := by
  intro l
  induction l with
  | nil => rfl
  | cons x xs ih =>
      rw [insertRow]
      by_cases hx : CompareSR len x r = true
      · rw [if_pos hx]
        exact (List.Perm.cons x ih).trans (List.Perm.swap r x xs)
      · rw [if_neg hx]

theorem sortRows_perm (len : Nat) : ∀ X : List Row, (sortRows len X).Perm X := by
  intro X
  induction X with
  | nil => rfl
  | cons x xs ih =>
      rw [sortRows, List.foldr_cons]
      exact (insertRow_perm len x _).trans (List.Perm.cons x ih)

theorem mem_sortRows {len : Nat} {X : List Row} {r : Row} (h : r ∈ sortRows len X) :
    r ∈ X := (sortRows_perm len X).mem_iff.mp h

theorem basicRound_sound (p : Params) (hl li : Nat) (X : List Row) (row : Row)
    (h : row ∈ basicRound p hl li X) :
    ∃ a b, a ∈ X ∧ b ∈ X ∧ HasCollision a b p.CollisionByteLength = true ∧
      DistinctIndices a b hl li = true ∧ row = mergeFull a b hl li p.CollisionByteLength := by
  rw [(basicRound_fresh_perm p hl li X).mem_iff, freshBasicRound] at h
  obtain ⟨u, v, _hu, huv, hv, hcol, hmem⟩ := scanEmits_mem _ _ _ _ _ _ h
  obtain ⟨hdis, hrow⟩ := emitBasic_mem hmem
  exact ⟨_, _, mem_sortRows (getD_mem _ u [] (by omega)), mem_sortRows (getD_mem _ v [] hv),
    hcol, hdis, hrow⟩

theorem hashLenAt_succ (p : Params) (ℓ : Nat) :
    p.hashLenAt ℓ - p.CollisionByteLength = p.hashLenAt (ℓ + 1) := by
  rw [Params.hashLenAt, Params.hashLenAt, Nat.sub_sub]
  congr 1
  ring

theorem basicRoundsRec_valid (p : Params) (base : HashState) :
    ∀ (n r : Nat) (X : List Row), p.k - r ≤ n → 1 ≤ r → r ≤ p.k →
      (∀ row ∈ X, ValidRow p base (r - 1) row) →
      ∃ r2 Y, r ≤ r2 ∧ r2 ≤ p.k ∧ (r2 = p.k ∨ Y = []) ∧
        basicRoundsRec p base r (p.hashLenAt (r - 1)) (4 * 2 ^ (r - 1)) X =
          (Y, p.hashLenAt (r2 - 1), 4 * 2 ^ (r2 - 1)) ∧
        ∀ row ∈ Y, ValidRow p base (r2 - 1) row := by
  intro n
  induction n with
  | zero =>
      intro r X hn h1 hk hX
      rw [basicRoundsRec_eq, dif_neg (by omega)]
      exact ⟨r, X, le_rfl, hk, Or.inl (by omega), rfl, hX⟩
  | succ n ih =>
      intro r X hn h1 hk hX
      by_cases h : r < p.k ∧ X ≠ []
      · rw [basicRoundsRec_eq, dif_pos h]
        have hnew : ∀ row ∈ basicRound p (p.hashLenAt (r - 1)) (4 * 2 ^ (r - 1)) X,
            ValidRow p base ((r + 1) - 1) row := by
          intro row hrow
          obtain ⟨a, b, hain, hbin, hcol, hdis, hrw⟩ :=
            basicRound_sound p _ _ X row hrow
          subst hrw
          have hnode := ValidRow.node (r - 1) a b (hX a hain) (hX b hbin) hcol hdis
          rw [show r - 1 + 1 = (r + 1) - 1 by omega] at hnode
          exact hnode
        have harith1 : p.hashLenAt (r - 1) - p.CollisionByteLength =
            p.hashLenAt ((r + 1) - 1) := by
          rw [hashLenAt_succ]
          congr 1
          omega
        have harith2 : 2 * (4 * 2 ^ (r - 1)) = 4 * 2 ^ ((r + 1) - 1) := by
          rw [show (r + 1) - 1 = (r - 1) + 1 by omega, pow_succ]
          ring
        rw [harith1, harith2]
        obtain ⟨r2, Y, hr2a, hr2b, hr2c, heq, hval⟩ := ih (r + 1)
          (basicRound p (p.hashLenAt (r - 1)) (4 * 2 ^ (r - 1)) X)
          (by omega) (by omega) (by omega) hnew
        exact ⟨r2, Y, by omega, hr2b, hr2c, heq, hval⟩
      · rw [basicRoundsRec_eq, dif_neg h]
        refine ⟨r, X, le_rfl, hk, ?_, rfl, hX⟩
        by_cases h2 : r < p.k
        · right
          by_contra h3
          exact h ⟨h2, h3⟩
        · left; omega

theorem hashLenAt_zero (p : Params) : p.hashLenAt 0 = p.ExpandedHashLength := by
  simp [Params.hashLenAt]

theorem validRow_length (p : Params) (base : HashState) {ℓ : Nat} {row : Row}
    (h : ValidRow p base ℓ row) : row.length = p.hashLenAt ℓ + 4 * 2 ^ ℓ := by
  induction h with
  | leaf i hi =>
      rw [fullStepRow_length, hashLenAt_zero]
      norm_num
  | node ℓ a b ha hb hcol hdis iha ihb =>
      rw [mergeFull, mergeRow_length 4 a b _ _ _ iha ihb, hashLenAt_succ]
      rw [show (4 : Nat) * 2 ^ (ℓ + 1) = 2 * (4 * 2 ^ ℓ) by rw [pow_succ]; ring]

theorem merge_swap (a b : Row) (len li t : Nat)
    (hne : leftmostIndex 4 a len ≠ leftmostIndex 4 b len) :
    mergeRow 4 a b len li t = mergeRow 4 b a len li t := by
  rw [mergeRow, mergeRow]
  have hxor : XorSlice a b t len = XorSlice b a t len := by
    rw [XorSlice, XorSlice]
    exact List.zipWith_comm_of_comm _ Nat.xor_comm _ _
  rw [hxor]
  by_cases hab : leftmostIndex 4 a len < leftmostIndex 4 b len
  · rw [if_pos (by simpa [IndicesBefore] using hab),
      if_neg (by simp [IndicesBefore]; omega)]
  · rw [if_neg (by simpa [IndicesBefore] using hab),
      if_pos (by simp [IndicesBefore]; omega)]

theorem leftmost_ne_of_distinct (a b : Row) (hl li : Nat) (hli : 1 ≤ li)
    (ha : hl + 4 ≤ List.length a) (hb : hl + 4 ≤ List.length b)
    (hdis : DistinctIndices a b hl li = true) :
    leftmostIndex 4 a hl ≠ leftmostIndex 4 b hl := by
  intro heq
  have hfalse := distinct_false_of_eq_leftmost a b hl li hli ha hb heq
  rw [hdis] at hfalse
  exact Bool.noConfusion hfalse

theorem distinct_symm {a b : Row} {hl li : Nat} (h : DistinctIndices a b hl li = true) :
    DistinctIndices b a hl li = true := by
  rw [DistinctIndices] at h ⊢
  simp only [decide_eq_true_eq] at h ⊢
  exact List.nodup_append_comm.mp h

theorem validRow_node_canonical (p : Params) (base : HashState) (ℓ : Nat) (row : Row)
    (h : ValidRow p base (ℓ + 1) row) :
    ∃ u v, ValidRow p base ℓ u ∧ ValidRow p base ℓ v ∧
      HasCollision u v p.CollisionByteLength = true ∧
      DistinctIndices u v (p.hashLenAt ℓ) (4 * 2 ^ ℓ) = true ∧
      leftmostIndex 4 u (p.hashLenAt ℓ) < leftmostIndex 4 v (p.hashLenAt ℓ) ∧
      row = mergeFull u v (p.hashLenAt ℓ) (4 * 2 ^ ℓ) p.CollisionByteLength := by
  cases h with
  | node ℓ a b ha hb hcol hdis =>
      have hla := validRow_length p base ha
      have hlb := validRow_length p base hb
      have h2ℓ : 4 ≤ 4 * 2 ^ ℓ := by
        have : 1 ≤ 2 ^ ℓ := Nat.one_le_two_pow
        omega
      have hne := leftmost_ne_of_distinct a b (p.hashLenAt ℓ) (4 * 2 ^ ℓ)
        (by omega) (by omega) (by omega) hdis
      by_cases hab : leftmostIndex 4 a (p.hashLenAt ℓ) < leftmostIndex 4 b (p.hashLenAt ℓ)
      · exact ⟨a, b, ha, hb, hcol, hdis, hab, rfl⟩
      · refine ⟨b, a, hb, ha, HasCollision_symm _ _ _ hcol, distinct_symm hdis, by omega, ?_⟩
        rw [mergeFull, mergeFull]
        exact merge_swap a b _ _ _ hne

theorem getIndices_length (r : Row) (len li : Nat) :
    (GetIndices r len li).length = (li + 3) / 4 := by
  simp [GetIndices]

theorem getIndices_region (r : Row) (len li : Nat) (s : List Nat) (h4 : li % 4 = 0)
    (hs : (r.drop len).take li = s) : GetIndices r len li = GetIndices s 0 li := by
  rw [GetIndices, GetIndices]
  apply List.map_congr_left
  intro t ht
  rw [List.mem_range] at ht
  have h4t : 4 * t + 4 ≤ li := by omega
  congr 1
  rw [← hs, Nat.zero_add, List.drop_take, List.take_take,
    Nat.min_eq_left (by omega), List.drop_drop]

theorem getIndices_split (r : Row) (len li1 li2 : Nat) (h4 : li1 % 4 = 0) :
    GetIndices r len (li1 + li2) = GetIndices r len li1 ++ GetIndices r (len + li1) li2 := by
  rw [GetIndices, GetIndices, GetIndices]
  have hcount : (li1 + li2 + 3) / 4 = (li1 + 3) / 4 + (li2 + 3) / 4 := by omega
  rw [hcount, List.range_add, List.map_append, List.map_map]
  refine congrArg (fun l => List.map
    (fun t => ArrayToEhIndex ((r.drop (len + 4 * t)).take 4))
    (List.range ((li1 + 3) / 4)) ++ l) ?_
  apply List.map_congr_left
  intro t _
  simp only [Function.comp_apply]
  rw [show len + 4 * ((li1 + 3) / 4 + t) = len + li1 + 4 * t by omega]

theorem getIndices_merge (a b : Row) (len li t : Nat)
    (hcan : leftmostIndex 4 a len < leftmostIndex 4 b len)
    (ht : t ≤ len) (ha : List.length a = len + li) (hb : List.length b = len + li)
    (h4 : li % 4 = 0) :
    GetIndices (mergeRow 4 a b len li t) (len - t) (2 * li) =
      GetIndices a len li ++ GetIndices b len li := by
  have hdrop : (mergeRow 4 a b len li t).drop (len - t) =
      (a.drop len).take li ++ (b.drop len).take li := by
    have h2 := (mergeRow_spec 4 a b len li t ht (by omega) (by omega)).2
    rw [h2, if_pos hcan]
  have hlenA : ((a.drop len).take li).length = li := by
    simp [List.length_take, List.length_drop, ha]
  have hlenB : ((b.drop len).take li).length = li := by
    simp [List.length_take, List.length_drop, hb]
  have hregA : (((mergeRow 4 a b len li t).drop (len - t)).take li) = (a.drop len).take li := by
    rw [hdrop, List.take_append_of_le_length (by omega)]
    exact List.take_of_length_le (by omega)
  have hregB : (((mergeRow 4 a b len li t).drop (len - t + li)).take li) = (b.drop len).take li := by
    rw [← List.drop_drop, hdrop]
    rw [List.drop_left' hlenA]
    exact List.take_of_length_le (le_of_eq hlenB)
  have e1 : GetIndices (mergeRow 4 a b len li t) (len - t) li =
      GetIndices ((a.drop len).take li) 0 li :=
    getIndices_region _ _ _ _ h4 hregA
  have e2 : GetIndices (mergeRow 4 a b len li t) (len - t + li) li =
      GetIndices ((b.drop len).take li) 0 li :=
    getIndices_region _ _ _ _ h4 hregB
  have e3 : GetIndices a len li = GetIndices ((a.drop len).take li) 0 li :=
    getIndices_region _ _ _ _ h4 rfl
  have e4 : GetIndices b len li = GetIndices ((b.drop len).take li) 0 li :=
    getIndices_region _ _ _ _ h4 rfl
  rw [show (2 : Nat) * li = li + li by ring, getIndices_split _ _ li li h4]
  rw [e1, e2, e3, e4]


theorem hashLenAt_ge (p : Params) (ℓ : Nat) (h : ℓ ≤ p.k) :
    p.CollisionByteLength ≤ p.hashLenAt ℓ := by
  rw [Params.hashLenAt, Params.ExpandedHashLength]
  have h1 : (ℓ + 1) * p.CollisionByteLength ≤ (p.k + 1) * p.CollisionByteLength :=
    Nat.mul_le_mul_right _ (by omega)
  rw [Nat.succ_mul] at h1
  exact Nat.le_sub_of_add_le (by rw [Nat.add_comm]; exact h1)

theorem hashLenAt_last (p : Params) (hk : 1 ≤ p.k) :
    p.hashLenAt (p.k - 1) = 2 * p.CollisionByteLength := by
  rw [Params.hashLenAt, Params.ExpandedHashLength, ← Nat.sub_mul]
  rw [show p.k + 1 - (p.k - 1) = 2 by omega]

theorem zipWith_xor_self_all_zero :
    ∀ l : List Nat, (List.zipWith (fun x y => x ^^^ y) l l).all (fun x => x == 0) = true := by
  intro l
  induction l with
  | nil => rfl
  | cons x xs ih => simp [Nat.xor_self, ih]

theorem isZero_merge_final (u v : Row) (hl li cb : Nat)
    (h2 : 2 * cb ≤ hl) (hlu : u.length = hl + li) (hlv : v.length = hl + li)
    (hcol : HasCollision u v (2 * cb) = true) :
    IsZero (mergeRow 4 u v hl li cb) cb = true := by
  have hcv : u.take (2 * cb) = v.take (2 * cb) := by
    simpa only [HasCollision, beq_iff_eq] using hcol
  have hkey : (u.drop cb).take cb = (v.drop cb).take cb := by
    have h := congrArg (List.drop cb) hcv
    rw [List.drop_take, List.drop_take] at h
    rw [show 2 * cb - cb = cb by omega] at h
    exact h
  rw [IsZero, mergeRow]
  have hxlen : (XorSlice u v cb hl).length = hl - cb := by
    rw [XorSlice, List.length_zipWith]
    simp [List.length_take, List.length_drop, hlu, hlv]
    omega
  rw [List.take_append_of_le_length (by omega)]
  rw [XorSlice, List.take_zipWith, List.take_take, List.take_take,
    Nat.min_eq_left (by omega), hkey]
  exact zipWith_xor_self_all_zero _

theorem initialListFull_valid (p : Params) (base : HashState) :
    ∀ row ∈ initialListFull p base, ValidRow p base 0 row := by
  intro row hrow
  rw [initialListFull, List.mem_map] at hrow
  obtain ⟨i, hi, rfl⟩ := hrow
  exact ValidRow.leaf i (List.mem_range.mp hi)

theorem validRow_node_getIndices (p : Params) (base : HashState) (ℓ : Nat) (u v : Row)
    (hℓ : ℓ ≤ p.k) (hu : ValidRow p base ℓ u) (hv : ValidRow p base ℓ v)
    (hcan : leftmostIndex 4 u (p.hashLenAt ℓ) < leftmostIndex 4 v (p.hashLenAt ℓ)) :
    GetIndices (mergeFull u v (p.hashLenAt ℓ) (4 * 2 ^ ℓ) p.CollisionByteLength)
        (p.hashLenAt (ℓ + 1)) (4 * 2 ^ (ℓ + 1)) =
      GetIndices u (p.hashLenAt ℓ) (4 * 2 ^ ℓ) ++ GetIndices v (p.hashLenAt ℓ) (4 * 2 ^ ℓ) := by
  have hlu := validRow_length p base hu
  have hlv := validRow_length p base hv
  have hGI := getIndices_merge u v (p.hashLenAt ℓ) (4 * 2 ^ ℓ) p.CollisionByteLength hcan
    (hashLenAt_ge p ℓ hℓ) hlu hlv (Nat.mul_mod_right 4 _)
  rw [mergeFull]
  rw [show p.hashLenAt (ℓ + 1) = p.hashLenAt ℓ - p.CollisionByteLength from
    (hashLenAt_succ p ℓ).symm]
  rw [show (4 : Nat) * 2 ^ (ℓ + 1) = 2 * (4 * 2 ^ ℓ) by rw [pow_succ]; ring]
  exact hGI


theorem validateLevel_pairs (p : Params) (base : HashState) (ℓ : Nat) (hℓ : ℓ < p.k) :
    ∀ R : List Row, (∀ row ∈ R, ValidRow p base (ℓ + 1) row) →
      ∃ R' : List Row, (∀ row ∈ R', ValidRow p base ℓ row) ∧
        R.flatMap (fun row =>
            (GetIndices row (p.hashLenAt (ℓ + 1)) (4 * 2 ^ (ℓ + 1))).map
              (fun i => fullStepRow p base i)) =
          R'.flatMap (fun row =>
            (GetIndices row (p.hashLenAt ℓ) (4 * 2 ^ ℓ)).map (fun i => fullStepRow p base i)) ∧
        validateLevel p (p.hashLenAt ℓ) (4 * 2 ^ ℓ) R' = some (some R) := by
  intro R
  induction R with
  | nil =>
      intro _
      exact ⟨[], by simp, by simp, rfl⟩
  | cons row rest ih =>
      intro hall
      obtain ⟨R2, hvalR2, hleaves2, hlevel2⟩ :=
        ih (fun r hr => hall r (List.mem_cons_of_mem _ hr))
      obtain ⟨u, v, hu, hv, hcol, hdis, hcan, heq⟩ :=
        validRow_node_canonical p base ℓ row (hall row (List.mem_cons_self _ _))
      refine ⟨u :: v :: R2, ?_, ?_, ?_⟩
      · intro r hr
        rcases List.mem_cons.mp hr with rfl | hr
        · exact hu
        rcases List.mem_cons.mp hr with rfl | hr
        · exact hv
        · exact hvalR2 r hr
      · simp only [List.flatMap_cons]
        rw [hleaves2, heq]
        rw [show mergeFull u v (p.hashLenAt ℓ) (4 * 2 ^ ℓ) p.CollisionByteLength =
          mergeFull u v (p.hashLenAt ℓ) (4 * 2 ^ ℓ) p.CollisionByteLength from rfl]
        rw [validRow_node_getIndices p base ℓ u v (by omega) hu hv hcan]
        rw [List.map_append, List.append_assoc]
      · rw [validateLevel]
        rw [if_neg (by simp [hcol])]
        rw [if_neg (by simp only [IndicesBefore, decide_eq_true_eq]; omega)]
        rw [if_neg (by simp [hdis])]
        rw [hlevel2, heq]

theorem runLevels_snoc (p : Params) :
    ∀ (ℓ hl li : Nat) (X : List Row),
      runLevels p (ℓ + 1) hl li X =
        match runLevels p ℓ hl li X with
        | none => none
        | some none => some none
        | some (some Xc) =>
            match validateLevel p (hl - ℓ * p.CollisionByteLength) (2 ^ ℓ * li) Xc with
            | none => none
            | some none => some none
            | some (some Xd) => some (some Xd) := by
  intro ℓ
  induction ℓ with
  | zero =>
      intro hl li X
      rw [show hl - 0 * p.CollisionByteLength = hl by omega,
        show (2 : Nat) ^ 0 * li = li by ring]
      rw [runLevels]
      cases hv : validateLevel p hl li X with
      | none => rfl
      | some o => cases o with
          | none => rfl
          | some Xc => rfl
  | succ ℓ ih =>
      intro hl li X
      rw [runLevels]
      conv_rhs => rw [runLevels]
      cases hv : validateLevel p hl li X with
      | none => rfl
      | some o => cases o with
          | none => rfl
          | some Xc =>
              dsimp only
              rw [ih (hl - p.CollisionByteLength) (2 * li) Xc]
              rw [show hl - p.CollisionByteLength - ℓ * p.CollisionByteLength =
                  hl - (ℓ + 1) * p.CollisionByteLength by
                rw [Nat.sub_sub, Nat.succ_mul,
                  Nat.add_comm p.CollisionByteLength (ℓ * p.CollisionByteLength)]]
              rw [show (2 : Nat) ^ ℓ * (2 * li) = 2 ^ (ℓ + 1) * li by rw [pow_succ]; ring]

theorem flatMap_leaves_id (p : Params) (base : HashState)
    (hbit : p.CollisionBitLength + 1 ≤ 32) :
    ∀ R : List Row, (∀ row ∈ R, ValidRow p base 0 row) →
      R.flatMap (fun row =>
        (GetIndices row (p.hashLenAt 0) (4 * 2 ^ 0)).map (fun i => fullStepRow p base i)) = R := by
  intro R
  induction R with
  | nil => intro _; rfl
  | cons row rest ihR =>
      intro hall
      simp only [List.flatMap_cons]
      rw [ihR (fun r hr => hall r (List.mem_cons_of_mem _ hr))]
      have hrow := hall row (List.mem_cons_self _ _)
      cases hrow with
      | leaf i hi =>
          rw [hashLenAt_zero, show (4 : Nat) * 2 ^ 0 = 4 by norm_num, getIndices_leaf]
          have hlt : i < 2 ^ 32 := lt_of_lt_of_le hi
            (by rw [Params.initSize]; exact Nat.pow_le_pow_right (by norm_num) hbit)
          rw [List.map_cons, List.map_nil, Nat.mod_eq_of_lt hlt, List.singleton_append]

theorem runLevels_reconstruct (p : Params) (base : HashState)
    (hbit : p.CollisionBitLength + 1 ≤ 32) :
    ∀ ℓ, ℓ ≤ p.k → ∀ R : List Row, (∀ row ∈ R, ValidRow p base ℓ row) →
      runLevels p ℓ p.ExpandedHashLength 4
        (R.flatMap (fun row =>
          (GetIndices row (p.hashLenAt ℓ) (4 * 2 ^ ℓ)).map (fun i => fullStepRow p base i))) =
      some (some R) := by
  intro ℓ
  induction ℓ with
  | zero =>
      intro _ R hall
      rw [flatMap_leaves_id p base hbit R hall]
      rfl
  | succ ℓ ih =>
      intro hk R hall
      obtain ⟨R2, hvalR2, hleaves, hlevel⟩ := validateLevel_pairs p base ℓ (by omega) R hall
      rw [hleaves]
      rw [runLevels_snoc]
      rw [ih (by omega) R2 hvalR2]
      dsimp only
      rw [show p.ExpandedHashLength - ℓ * p.CollisionByteLength = p.hashLenAt ℓ from rfl]
      rw [show (2 : Nat) ^ ℓ * 4 = 4 * 2 ^ ℓ by ring]
      rw [hlevel]

theorem validLoop_runLevels_last (p : Params) :
    ∀ (ℓ fuel hl li : Nat) (X0 : List Row) (R : Row),
      runLevels p ℓ hl li X0 = some (some [R]) → ℓ < fuel →
      validLoop p fuel hl li X0 = some (IsZero R (hl - ℓ * p.CollisionByteLength)) := by
  intro ℓ
  induction ℓ with
  | zero =>
      intro fuel hl li X0 R h hfuel
      simp only [runLevels, Option.some.injEq] at h
      subst h
      cases fuel with
      | zero => omega
      | succ fuel =>
          rw [validLoop, if_neg (by simp), if_pos (by simp)]
          simp
  | succ ℓ ih =>
      intro fuel hl li X0 R h hfuel
      rw [runLevels] at h
      cases hv : validateLevel p hl li X0 with
      | none => rw [hv] at h; simp at h
      | some o =>
          cases o with
          | none => rw [hv] at h; simp at h
          | some X1 =>
              rw [hv] at h
              have hlen0 := validateLevel_length p X0.length hl li X0 X1 le_rfl hv
              have hlen1 := runLevels_length p ℓ _ _ _ _ h
              cases fuel with
              | zero => omega
              | succ fuel =>
                  have h2ℓ : 1 ≤ 2 ^ ℓ := Nat.one_le_two_pow
                  rw [validLoop, if_pos (by simp at hlen1; omega), hv]
                  have hstep : (match (some (some X1) : Option (Option (List Row))) with
                      | none => none
                      | some none => some false
                      | some (some Xc) =>
                          validLoop p fuel (hl - p.CollisionByteLength) (2 * li) Xc) =
                      validLoop p fuel (hl - p.CollisionByteLength) (2 * li) X1 := rfl
                  rw [hstep]
                  rw [ih fuel _ _ X1 R h (by omega)]
                  rw [show hl - p.CollisionByteLength - ℓ * p.CollisionByteLength =
                      hl - (ℓ + 1) * p.CollisionByteLength by
                    rw [Nat.sub_sub, Nat.succ_mul,
                      Nat.add_comm p.CollisionByteLength (ℓ * p.CollisionByteLength)]]


theorem basicSolve_sound (p : Params) (base : HashState)
    (c : EhSolverCancelCheck → Bool) (hc : ∀ l, c l = false)
    (hk : 1 ≤ p.k) (hbit : p.CollisionBitLength + 1 ≤ 32)
    (s : List Nat) (hs : s ∈ basicSolutions p base c) :
    IsValidSolution p base s = some true := by
  rw [basicSolutions_eq_pure p base c hc, basicSolvePure] at hs
  rw [show p.ExpandedHashLength = p.hashLenAt 0 from (hashLenAt_zero p).symm,
    show (4 : Nat) = 4 * 2 ^ 0 by norm_num] at hs
  obtain ⟨r2, Y, hr2a, hr2b, hr2c, heqrec, hvalY⟩ :=
    basicRoundsRec_valid p base (p.k - 1) 1 (initialListFull p base)
      (by omega) le_rfl hk (initialListFull_valid p base)
  rw [heqrec, basicSolveFinal] at hs
  dsimp only at hs
  by_cases hY : Y.length > 1
  case neg => rw [if_neg hY] at hs; simp at hs
  rw [if_pos hY] at hs
  have hr2k : r2 = p.k := by
    rcases hr2c with h | h
    · exact h
    · subst h; simp at hY
  subst hr2k
  obtain ⟨u0, v0, hu0, huv0, hv0len, hcolAB, hsmem⟩ := scanEmits_mem _ _ _ _ _ _ hs
  obtain ⟨hdisAB, hseq⟩ := emitSolnBasic_mem hsmem
  have hAY : (sortRows (p.hashLenAt (p.k - 1)) Y).getD u0 [] ∈ Y :=
    mem_sortRows (getD_mem _ u0 [] (by omega))
  have hBY : (sortRows (p.hashLenAt (p.k - 1)) Y).getD v0 [] ∈ Y :=
    mem_sortRows (getD_mem _ v0 [] hv0len)
  have hAval := hvalY _ hAY
  have hBval := hvalY _ hBY
  have h2cb : p.hashLenAt (p.k - 1) = 2 * p.CollisionByteLength := hashLenAt_last p hk
  have hcol2 : HasCollision ((sortRows (p.hashLenAt (p.k - 1)) Y).getD u0 [])
      ((sortRows (p.hashLenAt (p.k - 1)) Y).getD v0 []) (2 * p.CollisionByteLength) = true := by
    rw [← h2cb]; exact hcolAB
  have h2pow : 1 ≤ 2 ^ (p.k - 1) := Nat.one_le_two_pow
  have hlenA := validRow_length p base hAval
  have hlenB := validRow_length p base hBval
  have hne := leftmost_ne_of_distinct _ _ (p.hashLenAt (p.k - 1)) (4 * 2 ^ (p.k - 1))
    (by omega) (by rw [hlenA]; omega) (by rw [hlenB]; omega) hdisAB
  have hmain : ∀ u v : Row, ValidRow p base (p.k - 1) u → ValidRow p base (p.k - 1) v →
      HasCollision u v (2 * p.CollisionByteLength) = true →
      DistinctIndices u v (p.hashLenAt (p.k - 1)) (4 * 2 ^ (p.k - 1)) = true →
      leftmostIndex 4 u (p.hashLenAt (p.k - 1)) < leftmostIndex 4 v (p.hashLenAt (p.k - 1)) →
      s = GetIndices (mergeRow 4 u v (p.hashLenAt (p.k - 1)) (4 * 2 ^ (p.k - 1)) 0)
        (p.hashLenAt (p.k - 1)) (2 * (4 * 2 ^ (p.k - 1))) →
      IsValidSolution p base s = some true := by
    intro u v huval hvval hcol2uv hdisuv hcanuv hsuv
    have hlenu := validRow_length p base huval
    have hlenv := validRow_length p base hvval
    have hGI0 := getIndices_merge u v (p.hashLenAt (p.k - 1)) (4 * 2 ^ (p.k - 1)) 0 hcanuv
      (Nat.zero_le _) hlenu hlenv (Nat.mul_mod_right 4 _)
    rw [Nat.sub_zero] at hGI0
    have hsplit : s = GetIndices u (p.hashLenAt (p.k - 1)) (4 * 2 ^ (p.k - 1)) ++
        GetIndices v (p.hashLenAt (p.k - 1)) (4 * 2 ^ (p.k - 1)) := by
      rw [hsuv, hGI0]
    have hroot : ValidRow p base p.k
        (mergeFull u v (p.hashLenAt (p.k - 1)) (4 * 2 ^ (p.k - 1)) p.CollisionByteLength) := by
      have hn := ValidRow.node (p.k - 1) u v huval hvval
        (HasCollision_mono (by omega) hcol2uv) hdisuv
      rwa [show p.k - 1 + 1 = p.k by omega] at hn
    have hGIcb := getIndices_merge u v (p.hashLenAt (p.k - 1)) (4 * 2 ^ (p.k - 1))
      p.CollisionByteLength hcanuv (by omega) hlenu hlenv (Nat.mul_mod_right 4 _)
    have e1 : p.hashLenAt (p.k - 1) - p.CollisionByteLength = p.hashLenAt p.k := by
      rw [hashLenAt_succ]
      congr 1
      omega
    have e2 : 2 * (4 * 2 ^ (p.k - 1)) = 4 * 2 ^ p.k := by
      conv_rhs => rw [show p.k = p.k - 1 + 1 by omega]
      rw [pow_succ]
      ring
    have hrun := runLevels_reconstruct p base hbit p.k le_rfl
      [mergeFull u v (p.hashLenAt (p.k - 1)) (4 * 2 ^ (p.k - 1)) p.CollisionByteLength]
      (by intro r hr; rw [List.mem_singleton] at hr; subst hr; exact hroot)
    simp only [List.flatMap_cons, List.flatMap_nil, List.append_nil] at hrun
    rw [show (mergeFull u v (p.hashLenAt (p.k - 1)) (4 * 2 ^ (p.k - 1))
        p.CollisionByteLength : Row) =
      mergeRow 4 u v (p.hashLenAt (p.k - 1)) (4 * 2 ^ (p.k - 1)) p.CollisionByteLength
      from rfl] at hrun
    rw [← e1, ← e2, hGIcb, ← hsplit] at hrun
    have hslen : s.length = 2 ^ p.k := by
      rw [hsplit, List.length_append, getIndices_length, getIndices_length]
      conv_rhs => rw [show p.k = p.k - 1 + 1 by omega]
      rw [pow_succ]
      omega
    rw [IsValidSolution, if_neg (by simp [hslen, Params.solnSize])]
    rw [validLoop_runLevels_last p p.k (s.length + 1) p.ExpandedHashLength 4
      (s.map fun i => fullStepRow p base i)
      (mergeRow 4 u v (p.hashLenAt (p.k - 1)) (4 * 2 ^ (p.k - 1)) p.CollisionByteLength)
      hrun (by rw [hslen]; exact Nat.lt_succ_of_lt (Nat.lt_two_pow _))]
    have e3 : p.ExpandedHashLength - p.k * p.CollisionByteLength = p.CollisionByteLength := by
      rw [show p.ExpandedHashLength - p.k * p.CollisionByteLength = p.hashLenAt p.k from rfl]
      rw [Params.hashLenAt, Params.ExpandedHashLength, ← Nat.sub_mul,
        show p.k + 1 - p.k = 1 by omega, one_mul]
    rw [e3]
    rw [isZero_merge_final u v (p.hashLenAt (p.k - 1)) (4 * 2 ^ (p.k - 1))
      p.CollisionByteLength (by omega) hlenu hlenv hcol2uv]
  by_cases hab : leftmostIndex 4 ((sortRows (p.hashLenAt (p.k - 1)) Y).getD u0 [])
      (p.hashLenAt (p.k - 1)) <
      leftmostIndex 4 ((sortRows (p.hashLenAt (p.k - 1)) Y).getD v0 [])
      (p.hashLenAt (p.k - 1))
  · exact hmain _ _ hAval hBval hcol2 hdisAB hab hseq
  · refine hmain _ _ hBval hAval (HasCollision_symm _ _ _ hcol2) (distinct_symm hdisAB)
      (by omega) ?_
    rw [hseq, merge_swap _ _ _ _ _ hne]

/-- C1: every solution returned by `Equihash<N,K>::BasicSolve` satisfies
`IsValidSolution`.  Stated for any never-cancelling probe, any `K ≥ 1`, and
any width with `CollisionBitLength + 1 ≤ 32` (so that a seed index round-trips
through its 4-byte big-endian encoding): if `s` is in the solution list that
`BasicSolve` hands to `validBlock`, the verifier accepts `s`. -/
theorem basic_solve_outputs_valid (p : Params) (base : HashState)
    (c : EhSolverCancelCheck → Bool) (hc : ∀ l, c l = false)
    (hk : 1 ≤ p.k) (hbit : p.CollisionBitLength + 1 ≤ 32)
    (s : List Nat) (hs : s ∈ basicSolutions p base c) :
    IsValidSolution p base s = some true :=
  basicSolve_sound p base c hc hk hbit s hs

/-- Witness for C1 at `(N, K) = (2, 1)` with the constant zero digest:
`[0, 1]` is among `BasicSolve`'s outputs and the verifier accepts it. -/
theorem basic_solve_outputs_valid_witness :
    IsValidSolution ⟨2, 1⟩ (fun _ => [0, 0]) [0, 1] = some true :=
  basic_solve_outputs_valid ⟨2, 1⟩ (fun _ => [0, 0]) (fun _ => false) (fun _ => rfl)
    (by decide) (by decide) [0, 1] (by decide)


/-! ### Deprobing `OptimisedSolve` -/

theorem icGenP_eq (p : Params) (base : HashState) (c : EhSolverCancelCheck → Bool)
    (pSoln : List Nat) (i j : Nat) (acc : List Row) (log : Log) :
    icGenP p base c pSoln i j acc log =
      if j < p.recreateSize then
        if c .PartialGeneration then (.error (), log ++ [.PartialGeneration])
        else icGenP p base c pSoln i (j + 1)
          (acc ++
            [fullStepRow p base (UntruncateIndex (pSoln.getD i 0) j (p.CollisionBitLength + 1))])
          (log ++ [.PartialGeneration])
      else (.ok acc, log) := by
  rw [icGenP]
  by_cases hg : j < p.recreateSize
  · rw [if_pos hg]
    have h1 : p.recreateSize - j = (p.recreateSize - (j + 1)) + 1 := by omega
    rw [h1, icGenPGo, if_pos hg]
    rfl
  · rw [if_neg hg]
    cases hf : p.recreateSize - j with
    | zero => rfl
    | succ m => rw [icGenPGo, if_neg hg]

theorem genLoopTrunc_ok (p : Params) (base : HashState) (c : EhSolverCancelCheck → Bool)
    (hc : ∀ l, c l = false) :
    ∀ (n i : Nat) (acc : List Row) (log : Log), p.initSize - i ≤ n →
      (genLoopTrunc p base c i acc log).1 =
        .ok (acc ++ (List.range' i (p.initSize - i)).map
          (fun t => truncStepRow p base t (p.CollisionBitLength + 1))) := by
  intro n
  induction n with
  | zero =>
      intro i acc log hn
      rw [genLoopTrunc_eq]
      rw [if_neg (by omega)]
      simp [show p.initSize - i = 0 by omega]
  | succ n ih =>
      intro i acc log hn
      by_cases h : i < p.initSize
      · rw [genLoopTrunc_eq, if_pos h, hc .ListGeneration, if_neg (by simp)]
        rw [ih (i + 1) _ _ (by omega)]
        rw [show p.initSize - i = (p.initSize - (i + 1)) + 1 by omega]
        rw [List.range'_succ]
        simp
      · rw [genLoopTrunc_eq, if_neg h]
        simp [show p.initSize - i = 0 by omega]

theorem roundsLoopP_trunc_ok (p : Params) (base : HashState) (c : EhSolverCancelCheck → Bool)
    (hc : ∀ l, c l = false) :
    ∀ (n r hl li : Nat) (X : List Row) (log : Log), p.k - r ≤ n →
      (roundsLoopP p c (fun hl2 li2 => emitTrunc p hl2 li2) r hl li X log).1 =
        .ok (truncRoundsRec p base r hl li X) := by
  intro n
  induction n with
  | zero =>
      intro r hl li X log hn
      rw [roundsLoopP_eq, truncRoundsRec_eq, dif_neg (by omega), dif_neg (by omega)]
  | succ n ih =>
      intro r hl li X log hn
      by_cases h : r < p.k ∧ X ≠ []
      · rw [roundsLoopP_eq, truncRoundsRec_eq, dif_pos h, dif_pos h]
        rw [hc .ListSorting, if_neg (by simp)]
        have hscan := scanCollP_ok c hc (emitTrunc p hl li) p.CollisionByteLength
          ((sortRows p.CollisionByteLength X).length + 1) (sortRows p.CollisionByteLength X)
          0 0 [] (log ++ [.ListSorting])
        cases hsc : scanCollP c (emitTrunc p hl li) p.CollisionByteLength
          ((sortRows p.CollisionByteLength X).length + 1) (sortRows p.CollisionByteLength X)
          0 0 [] (log ++ [.ListSorting]) with
        | mk e lg =>
            rw [hsc] at hscan
            simp only at hscan
            subst hscan
            dsimp only
            rw [hc .RoundEnd, if_neg (by simp)]
            rw [ih (r + 1) _ _ _ _ (by omega)]
            rfl
      · rw [roundsLoopP_eq, truncRoundsRec_eq, dif_neg h, dif_neg h]

theorem icGenP_ok (p : Params) (base : HashState) (c : EhSolverCancelCheck → Bool)
    (hc : ∀ l, c l = false) (pSoln : List Nat) (i : Nat) :
    ∀ (n j : Nat) (acc : List Row) (log : Log), p.recreateSize - j ≤ n →
      (icGenP p base c pSoln i j acc log).1 =
        .ok (acc ++ (List.range' j (p.recreateSize - j)).map
          (fun t => fullStepRow p base
            (UntruncateIndex (pSoln.getD i 0) t (p.CollisionBitLength + 1)))) := by
  intro n
  induction n with
  | zero =>
      intro j acc log hn
      rw [icGenP_eq]
      rw [if_neg (by omega)]
      simp [show p.recreateSize - j = 0 by omega]
  | succ n ih =>
      intro j acc log hn
      by_cases h : j < p.recreateSize
      · rw [icGenP_eq, if_pos h, hc .PartialGeneration, if_neg (by simp)]
        rw [ih (j + 1) _ _ (by omega)]
        rw [show p.recreateSize - j = (p.recreateSize - (j + 1)) + 1 by omega]
        rw [List.range'_succ]
        simp
      · rw [icGenP_eq, if_neg h]
        simp [show p.recreateSize - j = 0 by omega]

theorem cascadePGo_ok (p : Params) (c : EhSolverCancelCheck → Bool)
    (hc : ∀ l, c l = false) (pSoln : List Nat) :
    ∀ (fuel r rti hl li : Nat) (ic : List Row) (X : List (Option (List Row))) (log : Log),
      (cascadePGo p c pSoln fuel r rti hl li ic X log).1 =
        .ok (cascadeRecGo p pSoln fuel r rti hl li ic X) := by
  intro fuel
  induction fuel with
  | zero => intro r rti hl li ic X log; rfl
  | succ fuel ih =>
      intro r rti hl li ic X log
      rw [cascadePGo, cascadeRecGo]
      by_cases hr : r ≤ p.k
      · rw [if_pos hr, if_pos hr]
        by_cases hx : r < X.length
        · rw [if_pos hx, if_pos hx]
          cases hget : X.getD r none with
          | none => rfl
          | some xr =>
              dsimp only
              rw [hc .PartialSorting, if_neg (by simp)]
              by_cases hcb : (CollideBranches p hl li p.CollisionByteLength
                  (p.CollisionBitLength + 1) (pSoln.getD (rti - 2 ^ r) 0) (pSoln.getD rti 0)
                  (sortRows hl (ic ++ xr))).length = 0
              · rw [if_pos hcb, if_pos hcb]
              · rw [if_neg hcb, if_neg hcb]
                rw [hc .PartialSubtreeEnd, if_neg (by simp)]
                exact ih _ _ _ _ _ _ _
        · rw [if_neg hx, if_neg hx]
      · rw [if_neg hr, if_neg hr]

theorem cascadeP_ok (p : Params) (c : EhSolverCancelCheck → Bool)
    (hc : ∀ l, c l = false) (pSoln : List Nat) (r rti hl li : Nat) (ic : List Row)
    (X : List (Option (List Row))) (log : Log) :
    (cascadeP p c pSoln r rti hl li ic X log).1 = .ok (cascadeRec p pSoln r rti hl li ic X) := by
  rw [cascadeP, cascadeRec]
  exact cascadePGo_ok p c hc pSoln _ _ _ _ _ _ _ _

theorem recreateLoopPGo_ok (p : Params) (base : HashState) (c : EhSolverCancelCheck → Bool)
    (hc : ∀ l, c l = false) (pSoln : List Nat) :
    ∀ (fuel i : Nat) (st : List (Option (List Row)) × Nat × Nat) (log : Log),
      (recreateLoopPGo p base c pSoln fuel i st log).1 =
        (match recreateLoopGo p base pSoln fuel i st with
          | none => .ok none
          | some st2 => .ok (some st2)) := by
  intro fuel
  induction fuel with
  | zero => intro i st log; rfl
  | succ fuel ih =>
      intro i st log
      rw [recreateLoopPGo, recreateLoopGo]
      by_cases hi : i < p.solnSize
      · rw [if_pos hi, if_pos hi]
        have hicgen := icGenP_ok p base c hc pSoln i p.recreateSize 0 [] log (by omega)
        cases hig : icGenP p base c pSoln i 0 [] log with
        | mk e lg =>
            rw [hig] at hicgen
            simp only at hicgen
            subst hicgen
            dsimp only
            have hicl : ([] ++ (List.range' 0 (p.recreateSize - 0)).map
                (fun t => fullStepRow p base
                  (UntruncateIndex (pSoln.getD i 0) t (p.CollisionBitLength + 1)))) =
                icList p base pSoln i := by
              rw [icList, List.range_eq_range']
              simp
            rw [hicl]
            have hcas := cascadeP_ok p c hc pSoln 0 i p.ExpandedHashLength 4
              (icList p base pSoln i) st.1 lg
            cases hca : cascadeP p c pSoln 0 i p.ExpandedHashLength 4
              (icList p base pSoln i) st.1 lg with
            | mk e2 lg2 =>
                rw [hca] at hcas
                simp only at hcas
                subst hcas
                cases hcr : cascadeRec p pSoln 0 i p.ExpandedHashLength 4
                    (icList p base pSoln i) st.1 with
                | none => rfl
                | some st2 =>
                    dsimp only
                    rw [hc .PartialIndexEnd, if_neg (by simp)]
                    exact ih _ _ _
      · rw [if_neg hi, if_neg hi]

theorem recreateOneP_ok (p : Params) (base : HashState) (c : EhSolverCancelCheck → Bool)
    (hc : ∀ l, c l = false) (pSoln : List Nat) (log : Log) :
    (recreateOneP p base c pSoln log).1 =
      (match recreateOne p base pSoln with
        | none => .ok none
        | some s => .ok (some s)) := by
  rw [recreateOneP, recreateOne]
  have hloop := recreateLoopPGo_ok p base c hc pSoln (p.solnSize - 0) 0
    ([], p.ExpandedHashLength, 4) log
  rw [show recreateLoopP p base c pSoln 0 ([], p.ExpandedHashLength, 4) log =
    recreateLoopPGo p base c pSoln (p.solnSize - 0) 0 ([], p.ExpandedHashLength, 4) log
    from rfl]
  rw [show recreateLoop p base pSoln 0 ([], p.ExpandedHashLength, 4) =
    recreateLoopGo p base pSoln (p.solnSize - 0) 0 ([], p.ExpandedHashLength, 4) from rfl]
  cases hlp : recreateLoopPGo p base c pSoln (p.solnSize - 0) 0
      ([], p.ExpandedHashLength, 4) log with
  | mk e lg =>
      rw [hlp] at hloop
      simp only at hloop
      subst hloop
      cases hlg : recreateLoopGo p base pSoln (p.solnSize - 0) 0
          ([], p.ExpandedHashLength, 4) with
      | none => rfl
      | some st =>
          dsimp only
          rw [hc .PartialEnd, if_neg (by simp)]

theorem pSolnsLoopP_ok (p : Params) (base : HashState) (c : EhSolverCancelCheck → Bool)
    (hc : ∀ l, c l = false) :
    ∀ (ps : List (List Nat)) (acc : List (List Nat)) (log : Log),
      (pSolnsLoopP p base c ps acc log).1 =
        .ok (ps.foldl (fun a q =>
          match recreateOne p base q with
          | none => a
          | some s => a ++ s) acc) := by
  intro ps
  induction ps with
  | nil => intro acc log; rfl
  | cons q rest ih =>
      intro acc log
      rw [pSolnsLoopP]
      have hone := recreateOneP_ok p base c hc q log
      cases hro : recreateOneP p base c q log with
      | mk e lg =>
          rw [hro] at hone
          simp only at hone
          subst hone
          rw [List.foldl_cons]
          cases hr1 : recreateOne p base q with
          | none => dsimp only; exact ih _ _
          | some s => dsimp only; exact ih _ _

theorem OptimisedSolve_ok (p : Params) (base : HashState) (c : EhSolverCancelCheck → Bool)
    (hc : ∀ l, c l = false) (log : Log) :
    (OptimisedSolve p base c log).1 = .ok (optimisedSolvePure p base) := by
  rw [OptimisedSolve]
  have hgen := genLoopTrunc_ok p base c hc p.initSize 0 [] log (by omega)
  cases hg : genLoopTrunc p base c 0 [] log with
  | mk e lg =>
      rw [hg] at hgen
      simp only at hgen
      subst hgen
      dsimp only
      have hinit : ([] ++ (List.range' 0 (p.initSize - 0)).map
          (fun t => truncStepRow p base t (p.CollisionBitLength + 1)))
          = initialListTrunc p base := by
        rw [initialListTrunc, List.range_eq_range']
        simp
      rw [hinit]
      have hrounds := roundsLoopP_trunc_ok p base c hc p.k 1 p.ExpandedHashLength 1
        (initialListTrunc p base) lg (by omega)
      cases hr : roundsLoopP p c (fun hl2 li2 => emitTrunc p hl2 li2) 1 p.ExpandedHashLength 1
        (initialListTrunc p base) lg with
      | mk e2 lg2 =>
          rw [hr] at hrounds
          simp only at hrounds
          subst hrounds
          dsimp only
          rw [optimisedSolvePure, truncSolvePure, truncSolveFinal]
          by_cases hlen : (truncRoundsRec p base 1 p.ExpandedHashLength 1
              (initialListTrunc p base)).1.length > 1
          · rw [if_pos hlen, if_pos hlen]
            rw [hc .FinalSorting, if_neg (by simp)]
            have hfin := finalScanP_ok c hc .FinalColliding
              (emitPSoln p
                (truncRoundsRec p base 1 p.ExpandedHashLength 1 (initialListTrunc p base)).2.1
                (truncRoundsRec p base 1 p.ExpandedHashLength 1 (initialListTrunc p base)).2.2)
              (truncRoundsRec p base 1 p.ExpandedHashLength 1 (initialListTrunc p base)).2.1
              ((sortRows
                  (truncRoundsRec p base 1 p.ExpandedHashLength 1 (initialListTrunc p base)).2.1
                  (truncRoundsRec p base 1 p.ExpandedHashLength 1
                    (initialListTrunc p base)).1).length + 1)
              (sortRows
                (truncRoundsRec p base 1 p.ExpandedHashLength 1 (initialListTrunc p base)).2.1
                (truncRoundsRec p base 1 p.ExpandedHashLength 1 (initialListTrunc p base)).1)
              0 [] (lg2 ++ [.FinalSorting])
            cases hfs : finalScanP c .FinalColliding
                (emitPSoln p
                  (truncRoundsRec p base 1 p.ExpandedHashLength 1 (initialListTrunc p base)).2.1
                  (truncRoundsRec p base 1 p.ExpandedHashLength 1 (initialListTrunc p base)).2.2)
                (truncRoundsRec p base 1 p.ExpandedHashLength 1 (initialListTrunc p base)).2.1
                ((sortRows
                    (truncRoundsRec p base 1 p.ExpandedHashLength 1
                      (initialListTrunc p base)).2.1
                    (truncRoundsRec p base 1 p.ExpandedHashLength 1
                      (initialListTrunc p base)).1).length + 1)
                (sortRows
                  (truncRoundsRec p base 1 p.ExpandedHashLength 1 (initialListTrunc p base)).2.1
                  (truncRoundsRec p base 1 p.ExpandedHashLength 1 (initialListTrunc p base)).1)
                0 [] (lg2 ++ [.FinalSorting]) with
            | mk e3 lg3 =>
                rw [hfs] at hfin
                simp only at hfin
                subst hfin
                dsimp only
                rw [pSolnsLoopP_ok p base c hc]
                simp
          · rw [if_neg hlen, if_neg hlen]
            dsimp only
            rw [pSolnsLoopP_ok p base c hc]

theorem optimisedSolutions_eq_pure (p : Params) (base : HashState)
    (c : EhSolverCancelCheck → Bool) (hc : ∀ l, c l = false) :
    optimisedSolutions p base c = optimisedSolvePure p base := by
  rw [optimisedSolutions]
  have := OptimisedSolve_ok p base c hc []
  cases hb : (OptimisedSolve p base c []) with
  | mk e lg =>
      rw [hb] at this
      simp only at this
      subst this
      rfl


/-! ### Phase B soundness: slots, carries and leaf bounds -/

theorem getD_eq_default {α : Type} (l : List α) (n : Nat) (d : α) (h : l.length ≤ n) :
    l.getD n d = d := by
  simp [List.getD, List.getElem?_eq_none h]

theorem getD_set_self {α : Type} (l : List α) (r : Nat) (v d : α) (h : r < l.length) :
    (l.set r v).getD r d = v := by
  simp [List.getD, List.getElem?_set_self h]

theorem getD_set_ne {α : Type} (l : List α) (r q : Nat) (v d : α) (h : q ≠ r) :
    (l.set r v).getD q d = l.getD q d := by
  simp [List.getD, List.getElem?_set_ne (fun he => h he.symm)]

theorem getD_concat_length {α : Type} (l : List α) (a d : α) :
    (l ++ [a]).getD l.length d = a := by
  simp [List.getD, List.getElem?_concat_length]

theorem getD_append_left {α : Type} (l1 l2 : List α) (n : Nat) (d : α) (h : n < l1.length) :
    (l1 ++ l2).getD n d = l1.getD n d := by
  simp [List.getD, List.getElem?_append_left h]

theorem ones_le (i m : Nat) (h : ∀ j, j < m → Nat.testBit i j = true) : 2 ^ m - 1 ≤ i := by
  have hmod : i % 2 ^ m = 2 ^ m - 1 := by
    apply Nat.eq_of_testBit_eq
    intro j
    rw [Nat.testBit_mod_two_pow, Nat.testBit_two_pow_sub_one]
    by_cases hj : j < m
    · simp [h j hj, hj]
    · simp [hj]
  calc 2 ^ m - 1 = i % 2 ^ m := hmod.symm
    _ ≤ i := Nat.mod_le i _

theorem testBit_succ_ones (i r : Nat) (hones : ∀ j, j < r → Nat.testBit i j = true)
    (hr : Nat.testBit i r = false) :
    (∀ j, j < r → Nat.testBit (i + 1) j = false) ∧ Nat.testBit (i + 1) r = true ∧
      (∀ j, r < j → Nat.testBit (i + 1) j = Nat.testBit i j) := by
  have hmod : i % 2 ^ (r + 1) = 2 ^ r - 1 := by
    apply Nat.eq_of_testBit_eq
    intro j
    rw [Nat.testBit_mod_two_pow, Nat.testBit_two_pow_sub_one]
    rcases Nat.lt_trichotomy j r with hj | hj | hj
    · simp [hones j hj, hj, show j < r + 1 by omega]
    · subst hj
      simp [hr, show j < j + 1 by omega]
    · simp [show ¬ j < r + 1 by omega, show ¬ j < r by omega]
  have hq := Nat.div_add_mod i (2 ^ (r + 1))
  have h2r : (1 : Nat) ≤ 2 ^ r := Nat.one_le_two_pow
  have hi1 : i + 1 = 2 ^ (r + 1) * (i / 2 ^ (r + 1)) + 2 ^ r := by
    rw [hmod] at hq
    omega
  have hlt : (2 : Nat) ^ r < 2 ^ (r + 1) := Nat.pow_lt_pow_right (by omega) (by omega)
  have hmod1 : (i + 1) % 2 ^ (r + 1) = 2 ^ r := by
    rw [hi1, Nat.mul_add_mod, Nat.mod_eq_of_lt hlt]
  have hdiv : (i + 1) / 2 ^ (r + 1) = i / 2 ^ (r + 1) := by
    rw [hi1, Nat.mul_add_div (Nat.two_pow_pos _), Nat.div_eq_of_lt hlt, Nat.add_zero]
  refine ⟨?_, ?_, ?_⟩
  · intro j hj
    have hb := Nat.testBit_mod_two_pow (i + 1) (r + 1) j
    rw [hmod1, Nat.testBit_two_pow_of_ne (by omega)] at hb
    have hb2 := hb.symm
    rw [show (decide (j < r + 1)) = true by simp; omega] at hb2
    simpa using hb2
  · have hb := Nat.testBit_mod_two_pow (i + 1) (r + 1) r
    rw [hmod1, Nat.testBit_two_pow_self] at hb
    have hb2 := hb.symm
    rw [show (decide (r < r + 1)) = true by simp] at hb2
    simpa using hb2
  · intro j hj
    rw [Nat.testBit_to_div_mod, Nat.testBit_to_div_mod]
    have hj2 : (2 : Nat) ^ j = 2 ^ (r + 1) * 2 ^ (j - (r + 1)) := by
      rw [← pow_add]
      congr 1
      omega
    rw [hj2, ← Nat.div_div_eq_div_mul, ← Nat.div_div_eq_div_mul, hdiv]

theorem untruncate_lt (t j ilen : Nat) (ht : t < 2 ^ min ilen 8)
    (hj : j < UntruncateIndex 1 0 ilen) :
    UntruncateIndex t j ilen < 2 ^ ilen := by
  rw [UntruncateIndex, Nat.shiftLeft_eq] at hj ⊢
  have hj2 : j < 2 ^ (ilen - 8) := by
    simpa using hj
  apply Nat.or_lt_two_pow
  · by_cases h8 : 8 ≤ ilen
    · have hmin : min ilen 8 = 8 := by omega
      rw [hmin] at ht
      calc t * 2 ^ (ilen - 8) < 2 ^ 8 * 2 ^ (ilen - 8) :=
            (Nat.mul_lt_mul_right (Nat.two_pow_pos _)).mpr ht
        _ = 2 ^ ilen := by rw [← pow_add]; congr 1; omega
    · have hz : ilen - 8 = 0 := by omega
      have hmin : min ilen 8 = ilen := by omega
      rw [hmin] at ht
      rw [hz, pow_zero, Nat.mul_one]
      exact ht
  · calc j < 2 ^ (ilen - 8) := hj2
      _ ≤ 2 ^ ilen := Nat.pow_le_pow_right (by omega) (by omega)

theorem icList_valid (p : Params) (base : HashState) (pSoln : List Nat)
    (hpS : ∀ b ∈ pSoln, b < 2 ^ min (p.CollisionBitLength + 1) 8) (i : Nat) :
    ∀ row ∈ icList p base pSoln i, ValidRow p base 0 row := by
  intro row hrow
  rw [icList, List.mem_map] at hrow
  obtain ⟨j, hj, rfl⟩ := hrow
  rw [List.mem_range] at hj
  have hb : pSoln.getD i 0 < 2 ^ min (p.CollisionBitLength + 1) 8 := by
    by_cases hi : i < pSoln.length
    · exact hpS _ (getD_mem pSoln i 0 hi)
    · rw [getD_eq_default pSoln i 0 (by omega)]
      exact Nat.two_pow_pos _
  refine ValidRow.leaf _ ?_
  rw [Params.initSize]
  exact untruncate_lt _ _ _ hb (by rw [Params.recreateSize] at hj; exact hj)


theorem emitCB_mem {p : Params} {hl li ilen lt rt : Nat} {a b row : Row}
    (h : row ∈ emitCB p hl li ilen lt rt a b) :
    (DistinctIndices a b hl li = true ∧
        row = mergeFull a b hl li p.CollisionByteLength) ∨
      (DistinctIndices b a hl li = true ∧
        row = mergeFull b a hl li p.CollisionByteLength) := by
  rw [emitCB] at h
  by_cases hd : DistinctIndices a b hl li = true
  · rw [if_pos hd] at h
    by_cases h1 : IsValidBranch a hl ilen lt && IsValidBranch b hl ilen rt
    · rw [if_pos h1] at h
      rw [List.mem_singleton] at h
      exact Or.inl ⟨hd, h⟩
    · rw [if_neg h1] at h
      by_cases h2 : IsValidBranch b hl ilen lt && IsValidBranch a hl ilen rt
      · rw [if_pos h2] at h
        rw [List.mem_singleton] at h
        exact Or.inr ⟨distinct_symm hd, h⟩
      · rw [if_neg h2] at h
        simp at h
  · rw [if_neg hd] at h
    simp at h

theorem collideBranches_sound (p : Params) (base : HashState)
    (ℓ ilen lt rt : Nat) (Y : List Row)
    (hY : ∀ r0 ∈ Y, ValidRow p base ℓ r0) :
    ∀ row ∈ CollideBranches p (p.hashLenAt ℓ) (4 * 2 ^ ℓ) p.CollisionByteLength ilen lt rt Y,
      ValidRow p base (ℓ + 1) row := by
  intro row hrow
  rw [CollideBranches] at hrow
  rw [(collideCompact_perm _ _ _).mem_iff] at hrow
  obtain ⟨u, v, _hu, huv, hv, hcol, hmem⟩ := scanEmits_mem _ _ _ _ _ _ hrow
  have hus : Y.getD u [] ∈ Y := getD_mem _ u [] (by omega)
  have hvs : Y.getD v [] ∈ Y := getD_mem _ v [] hv
  rcases emitCB_mem hmem with ⟨hd, hrw⟩ | ⟨hd, hrw⟩
  · subst hrw
    exact ValidRow.node ℓ _ _ (hY _ hus) (hY _ hvs) hcol hd
  · subst hrw
    exact ValidRow.node ℓ _ _ (hY _ hvs) (hY _ hus) (HasCollision_symm _ _ _ hcol) hd


theorem cascadeRecGo_sound (p : Params) (base : HashState) (pSoln : List Nat) :
    ∀ (fuel r rti i : Nat) (ic : List Row) (X : List (Option (List Row)))
      (st2 : List (Option (List Row)) × Nat × Nat),
      p.k + 1 - r ≤ fuel →
      r ≤ X.length →
      (∀ row ∈ ic, ValidRow p base r row) →
      (∀ q rows, X.getD q none = some rows → ∀ row ∈ rows, ValidRow p base q row) →
      (∀ j, j < r → Nat.testBit i j = true) →
      (∀ j, (X.getD j none ≠ none) ↔ (r ≤ j ∧ Nat.testBit i j = true)) →
      i < 2 ^ p.k →
      cascadeRecGo p pSoln fuel r rti (p.hashLenAt r) (4 * 2 ^ r) ic X = some st2 →
      (∀ q rows, st2.1.getD q none = some rows → ∀ row ∈ rows, ValidRow p base q row) ∧
      (∀ j, (st2.1.getD j none ≠ none) ↔ Nat.testBit (i + 1) j = true) ∧
      ∃ r2, r ≤ r2 ∧ r2 ≤ p.k ∧ st2.2.1 = p.hashLenAt r2 ∧ st2.2.2 = 4 * 2 ^ r2 ∧
        Nat.testBit (i + 1) r2 = true ∧ (∀ j, j < r2 → Nat.testBit (i + 1) j = false) := by
  intro fuel
  induction fuel with
  | zero =>
      intro r rti i ic X st2 hn hrlen hic hslot hones hpat hik heq
      exfalso
      have hge := ones_le i (p.k + 1) (fun j hj => hones j (by omega))
      have h2 : (2 : Nat) ^ (p.k + 1) = 2 * 2 ^ p.k := by rw [pow_succ]; ring
      have h3 : (1 : Nat) ≤ 2 ^ p.k := Nat.one_le_two_pow
      omega
  | succ fuel ih =>
      intro r rti i ic X st2 hn hrlen hic hslot hones hpat hik heq
      rw [cascadeRecGo] at heq
      by_cases hrk : r ≤ p.k
      case neg =>
        exfalso
        have hge := ones_le i (p.k + 1) (fun j hj => hones j (by omega))
        have h2 : (2 : Nat) ^ (p.k + 1) = 2 * 2 ^ p.k := by rw [pow_succ]; ring
        have h3 : (1 : Nat) ≤ 2 ^ p.k := Nat.one_le_two_pow
        omega
      rw [if_pos hrk] at heq
      by_cases hrx : r < X.length
      · rw [if_pos hrx] at heq
        cases hget : X.getD r none with
        | some xr =>
            rw [hget] at heq
            dsimp only at heq
            have hbitr : Nat.testBit i r = true :=
              ((hpat r).mp (by rw [hget]; simp)).2
            by_cases hcb0 : (CollideBranches p (p.hashLenAt r) (4 * 2 ^ r)
                p.CollisionByteLength (p.CollisionBitLength + 1)
                (pSoln.getD (rti - 2 ^ r) 0) (pSoln.getD rti 0)
                (sortRows (p.hashLenAt r) (ic ++ xr))).length = 0
            · rw [if_pos hcb0] at heq
              exact absurd heq (by simp)
            · rw [if_neg hcb0] at heq
              rw [hashLenAt_succ] at heq
              rw [show 2 * (4 * 2 ^ r) = 4 * 2 ^ (r + 1) by rw [pow_succ]; ring] at heq
              have hCBval : ∀ row ∈ CollideBranches p (p.hashLenAt r) (4 * 2 ^ r)
                  p.CollisionByteLength (p.CollisionBitLength + 1)
                  (pSoln.getD (rti - 2 ^ r) 0) (pSoln.getD rti 0)
                  (sortRows (p.hashLenAt r) (ic ++ xr)), ValidRow p base (r + 1) row := by
                apply collideBranches_sound
                intro r0 hr0
                rcases List.mem_append.mp (mem_sortRows hr0) with h1 | h1
                · exact hic r0 h1
                · exact hslot r xr hget r0 h1
              have hslot2 : ∀ q rows, (X.set r none).getD q none = some rows →
                  ∀ row ∈ rows, ValidRow p base q row := by
                intro q rows hq
                by_cases hqr : q = r
                · subst hqr
                  rw [getD_set_self _ _ _ _ hrx] at hq
                  exact absurd hq (by simp)
                · rw [getD_set_ne _ _ _ _ _ hqr] at hq
                  exact hslot q rows hq
              have hones2 : ∀ j, j < r + 1 → Nat.testBit i j = true := by
                intro j hj
                by_cases hjr : j = r
                · subst hjr; exact hbitr
                · exact hones j (by omega)
              have hpat2 : ∀ j, ((X.set r none).getD j none ≠ none) ↔
                  (r + 1 ≤ j ∧ Nat.testBit i j = true) := by
                intro j
                by_cases hjr : j = r
                · subst hjr
                  rw [getD_set_self _ _ _ _ hrx]
                  simp
                · rw [getD_set_ne _ _ _ _ _ hjr]
                  rw [hpat j]
                  constructor
                  · rintro ⟨h1, h2⟩; exact ⟨by omega, h2⟩
                  · rintro ⟨h1, h2⟩; exact ⟨by omega, h2⟩
              obtain ⟨c1, c2, r2, h1, h2, h3, h4, h5, h6⟩ :=
                ih (r + 1) (rti - 2 ^ r) i _ (X.set r none) st2 (by omega)
                  (by rw [List.length_set]; omega) hCBval hslot2 hones2 hpat2 hik heq
              exact ⟨c1, c2, r2, by omega, h2, h3, h4, h5, h6⟩
        | none =>
            rw [hget] at heq
            dsimp only at heq
            have hst2 : (X.set r (some ic), p.hashLenAt r, 4 * 2 ^ r) = st2 :=
              Option.some.inj heq
            subst hst2
            have hbitr : Nat.testBit i r = false := by
              cases hbv : Nat.testBit i r with
              | false => rfl
              | true =>
                  exfalso
                  have hne := (hpat r).mpr ⟨le_rfl, hbv⟩
                  rw [hget] at hne
                  exact hne rfl
            obtain ⟨hc1, hc2, hc3⟩ := testBit_succ_ones i r hones hbitr
            refine ⟨?_, ?_, r, le_rfl, hrk, rfl, rfl, hc2, hc1⟩
            · intro q rows hq
              by_cases hqr : q = r
              · subst hqr
                rw [getD_set_self _ _ _ _ hrx] at hq
                have : ic = rows := Option.some.inj hq
                subst this
                exact hic
              · rw [getD_set_ne _ _ _ _ _ hqr] at hq
                exact hslot q rows hq
            · intro j
              by_cases hjr : j = r
              · subst hjr
                rw [getD_set_self _ _ _ _ hrx]
                simp [hc2]
              · rw [getD_set_ne _ _ _ _ _ hjr]
                rw [hpat j]
                by_cases hjlt : j < r
                · rw [hc1 j hjlt]
                  constructor
                  · rintro ⟨h1, _⟩; omega
                  · intro h; exact absurd h (by simp)
                · rw [hc3 j (by omega)]
                  constructor
                  · rintro ⟨_, h2⟩; exact h2
                  · intro h; exact ⟨by omega, h⟩
      · rw [if_neg hrx] at heq
        have hreq : r = X.length := by omega
        have hst2 : ((X ++ [some ic] : List (Option (List Row))), p.hashLenAt r, 4 * 2 ^ r)
            = st2 := Option.some.inj heq
        subst hst2
        have hgetr : X.getD r none = none := getD_eq_default _ _ _ (by omega)
        have hbitr : Nat.testBit i r = false := by
          cases hbv : Nat.testBit i r with
          | false => rfl
          | true =>
              exfalso
              have hne := (hpat r).mpr ⟨le_rfl, hbv⟩
              rw [hgetr] at hne
              exact hne rfl
        obtain ⟨hc1, hc2, hc3⟩ := testBit_succ_ones i r hones hbitr
        refine ⟨?_, ?_, r, le_rfl, hrk, rfl, rfl, hc2, hc1⟩
        · intro q rows hq
          by_cases hql : q < X.length
          · rw [getD_append_left _ _ _ _ hql] at hq
            exact hslot q rows hq
          · by_cases hqe : q = X.length
            · subst hqe
              rw [getD_concat_length] at hq
              have : some ic = some rows := hq
              have hicr : ic = rows := Option.some.inj this
              subst hicr
              rw [← hreq]
              exact hic
            · rw [getD_eq_default _ _ _ (by simp; omega)] at hq
              exact absurd hq (by simp)
        · intro j
          by_cases hjl : j < X.length
          · rw [getD_append_left _ _ _ _ hjl]
            rw [hpat j]
            have hjlt : j < r := by omega
            rw [hc1 j hjlt]
            constructor
            · rintro ⟨h1, _⟩; omega
            · intro h; exact absurd h (by simp)
          · by_cases hje : j = X.length
            · subst hje
              rw [getD_concat_length]
              rw [← hreq, hc2]
              simp
            · rw [getD_eq_default _ _ _ (by simp; omega)]
              rw [hc3 j (by omega)]
              constructor
              · intro h; exact absurd rfl h
              · intro h
                have hne := (hpat j).mpr ⟨by omega, h⟩
                rw [getD_eq_default _ _ _ (by omega)] at hne
                exact absurd rfl hne


theorem recreateLoopGo_sound (p : Params) (base : HashState) (pSoln : List Nat)
    (hpS : ∀ b ∈ pSoln, b < 2 ^ min (p.CollisionBitLength + 1) 8) :
    ∀ (fuel i : Nat) (st st2 : List (Option (List Row)) × Nat × Nat),
      p.solnSize - i ≤ fuel →
      i ≤ p.solnSize →
      (∀ q rows, st.1.getD q none = some rows → ∀ row ∈ rows, ValidRow p base q row) →
      (∀ j, (st.1.getD j none ≠ none) ↔ Nat.testBit i j = true) →
      recreateLoopGo p base pSoln fuel i st = some st2 →
      (∀ q rows, st2.1.getD q none = some rows → ∀ row ∈ rows, ValidRow p base q row) ∧
      (∀ j, (st2.1.getD j none ≠ none) ↔ Nat.testBit p.solnSize j = true) ∧
      (i < p.solnSize → st2.2.1 = p.hashLenAt p.k ∧ st2.2.2 = 4 * 2 ^ p.k) := by
  intro fuel
  induction fuel with
  | zero =>
      intro i st st2 hfuel hile hslot hpat heq
      have hieq : i = p.solnSize := by omega
      subst hieq
      rw [recreateLoopGo] at heq
      have hst : st = st2 := Option.some.inj heq
      subst hst
      exact ⟨hslot, hpat, fun h => absurd h (lt_irrefl _)⟩
  | succ fuel ih =>
      intro i st st2 hfuel hile hslot hpat heq
      by_cases hi : i < p.solnSize
      · rw [recreateLoopGo, if_pos hi] at heq
        cases hcas : cascadeRec p pSoln 0 i p.ExpandedHashLength 4
            (icList p base pSoln i) st.1 with
        | none =>
            rw [hcas] at heq
            exact absurd heq (by simp)
        | some st1 =>
            rw [hcas] at heq
            dsimp only at heq
            rw [cascadeRec] at hcas
            rw [show p.ExpandedHashLength = p.hashLenAt 0 from (hashLenAt_zero p).symm,
              show (4 : Nat) = 4 * 2 ^ 0 by norm_num] at hcas
            have hik : i < 2 ^ p.k := by
              rw [Params.solnSize] at hi
              exact hi
            obtain ⟨d1, d2, r2, e1, e2, e3, e4, e5, e6⟩ :=
              cascadeRecGo_sound p base pSoln (p.k + 1 - 0) 0 i i (icList p base pSoln i)
                st.1 st1 le_rfl (Nat.zero_le _) (icList_valid p base pSoln hpS i) hslot
                (fun j hj => absurd hj (by omega))
                (fun j => (hpat j).trans
                  ⟨fun h => ⟨Nat.zero_le _, h⟩, fun h => h.2⟩)
                hik hcas
            obtain ⟨f1, f2, f3⟩ := ih (i + 1) st1 st2 (by omega) (by omega) d1 d2 heq
            refine ⟨f1, f2, fun _ => ?_⟩
            by_cases hi1 : i + 1 < p.solnSize
            · exact f3 hi1
            · have hieq : i + 1 = p.solnSize := by omega
              have hdone : recreateLoopGo p base pSoln fuel (i + 1) st1 = some st1 := by
                cases fuel with
                | zero => rfl
                | succ fuel2 => rw [recreateLoopGo, if_neg (by omega)]
              rw [hdone] at heq
              have hst : st1 = st2 := Option.some.inj heq
              subst hst
              have hr2k : r2 = p.k := by
                have hb := e5
                rw [hieq, Params.solnSize, Nat.testBit_two_pow] at hb
                exact (of_decide_eq_true hb).symm
              rw [e3, e4, hr2k]
              exact ⟨rfl, rfl⟩
      · rw [recreateLoopGo, if_neg hi] at heq
        have hieq : i = p.solnSize := by omega
        subst hieq
        have hst : st = st2 := Option.some.inj heq
        subst hst
        exact ⟨hslot, hpat, fun h => absurd h (lt_irrefl _)⟩

theorem recreateOne_sound (p : Params) (base : HashState) (pSoln : List Nat)
    (hpS : ∀ b ∈ pSoln, b < 2 ^ min (p.CollisionBitLength + 1) 8)
    (solns : List (List Nat)) (s : List Nat)
    (hro : recreateOne p base pSoln = some solns) (hs : s ∈ solns) :
    ∃ R, ValidRow p base p.k R ∧ s = GetIndices R (p.hashLenAt p.k) (4 * 2 ^ p.k) := by
  rw [recreateOne] at hro
  cases hloop : recreateLoop p base pSoln 0 ([], p.ExpandedHashLength, 4) with
  | none =>
      rw [hloop] at hro
      exact absurd hro (by simp)
  | some st =>
      rw [hloop] at hro
      dsimp only at hro
      have hsolns : solns = (match st.1.getD p.k none with
          | some rows => rows | none => []).map (fun row => GetIndices row st.2.1 st.2.2) :=
        (Option.some.inj hro).symm
      rw [recreateLoop] at hloop
      obtain ⟨g1, g2, g3⟩ := recreateLoopGo_sound p base pSoln hpS (p.solnSize - 0) 0
        ([], p.ExpandedHashLength, 4) st le_rfl (Nat.zero_le _)
        (by intro q rows h; simp [List.getD] at h)
        (by intro j; simp [List.getD, Nat.zero_testBit])
        hloop
      have hs0 : 0 < p.solnSize := by
        rw [Params.solnSize]
        exact Nat.two_pow_pos _
      obtain ⟨hst1, hst2⟩ := g3 hs0
      have hbk : Nat.testBit p.solnSize p.k = true := by
        rw [Params.solnSize]
        exact Nat.testBit_two_pow_self
      have hne := (g2 p.k).mpr hbk
      cases hgk : st.1.getD p.k none with
      | none => exact absurd hgk hne
      | some rows =>
          rw [hgk] at hsolns
          dsimp only at hsolns
          subst hsolns
          rw [List.mem_map] at hs
          obtain ⟨row, hrow, rfl⟩ := hs
          exact ⟨row, g1 p.k rows hgk row hrow, by rw [hst1, hst2]⟩


/-! ### Truncated-phase byte bounds -/

theorem truncateIndex_lt (i ilen : Nat) (hi : i < 2 ^ ilen) :
    TruncateIndex i ilen < 2 ^ min ilen 8 := by
  rw [TruncateIndex]
  by_cases h8 : 8 ≤ ilen
  · have hmin : min ilen 8 = 8 := by omega
    rw [hmin]
    have h := Nat.and_le_right (n := i >>> (ilen - 8)) (m := 0xff)
    omega
  · have hmin : min ilen 8 = ilen := by omega
    have hz : ilen - 8 = 0 := by omega
    rw [hmin, hz, Nat.shiftRight_zero]
    have h := Nat.and_le_left (n := i) (m := 0xff)
    omega

theorem initialListTrunc_inv (p : Params) (base : HashState) :
    ∀ row ∈ initialListTrunc p base,
      row.length = p.hashLenAt 0 + 2 ^ 0 ∧
      ∀ x ∈ row.drop (p.hashLenAt 0), x < 2 ^ min (p.CollisionBitLength + 1) 8 := by
  intro row hrow
  rw [initialListTrunc, List.mem_map] at hrow
  obtain ⟨i, hi, rfl⟩ := hrow
  rw [List.mem_range] at hi
  rw [truncStepRow, hashLenAt_zero]
  constructor
  · rw [List.length_append, StepRowHash_length]
    simp
  · intro x hx
    rw [List.drop_left' (StepRowHash_length p base i), List.mem_singleton] at hx
    subst hx
    apply truncateIndex_lt
    rw [Params.initSize] at hi
    exact hi

theorem mergeRow_drop_bound (stride : Nat) (a b : Row) (hl li t B : Nat)
    (ht : t ≤ hl) (ha : a.length = hl + li) (hb : b.length = hl + li)
    (hba : ∀ x ∈ a.drop hl, x < B) (hbb : ∀ x ∈ b.drop hl, x < B) :
    ∀ x ∈ (mergeRow stride a b hl li t).drop (hl - t), x < B := by
  intro x hx
  have h2 := (mergeRow_spec stride a b hl li t ht (by omega) (by omega)).2
  rw [h2] at hx
  by_cases hlm : leftmostIndex stride a hl < leftmostIndex stride b hl
  · rw [if_pos hlm] at hx
    rcases List.mem_append.mp hx with h | h
    · exact hba x (List.mem_of_mem_take h)
    · exact hbb x (List.mem_of_mem_take h)
  · rw [if_neg hlm] at hx
    rcases List.mem_append.mp hx with h | h
    · exact hbb x (List.mem_of_mem_take h)
    · exact hba x (List.mem_of_mem_take h)

theorem emitTrunc_mem {p : Params} {hl li : Nat} {a b row : Row}
    (h : row ∈ emitTrunc p hl li a b) :
    row = mergeTrunc a b hl li p.CollisionByteLength := by
  simp only [emitTrunc] at h
  split at h
  · rw [List.mem_singleton] at h
    exact h
  · simp at h

theorem truncRound_sound (p : Params) (hl li : Nat) (X : List Row) (row : Row)
    (h : row ∈ truncRound p hl li X) :
    ∃ a b, a ∈ X ∧ b ∈ X ∧ row = mergeTrunc a b hl li p.CollisionByteLength := by
  rw [truncRound] at h
  rw [(collideCompact_perm _ _ _).mem_iff] at h
  obtain ⟨u, v, _, huv, hv, _, hmem⟩ := scanEmits_mem _ _ _ _ _ _ h
  exact ⟨_, _, mem_sortRows (getD_mem _ u [] (by omega)), mem_sortRows (getD_mem _ v [] hv),
    emitTrunc_mem hmem⟩

theorem truncRound_inv (p : Params) (ℓ : Nat) (X : List Row)
    (hcb : p.CollisionByteLength ≤ p.hashLenAt ℓ)
    (hX : ∀ row ∈ X, row.length = p.hashLenAt ℓ + 2 ^ ℓ ∧
      ∀ x ∈ row.drop (p.hashLenAt ℓ), x < 2 ^ min (p.CollisionBitLength + 1) 8) :
    ∀ row ∈ truncRound p (p.hashLenAt ℓ) (2 ^ ℓ) X,
      row.length = p.hashLenAt (ℓ + 1) + 2 ^ (ℓ + 1) ∧
      ∀ x ∈ row.drop (p.hashLenAt (ℓ + 1)), x < 2 ^ min (p.CollisionBitLength + 1) 8 := by
  intro row hrow
  obtain ⟨a, b, hax, hbx, rfl⟩ := truncRound_sound p _ _ X row hrow
  obtain ⟨hal, hab⟩ := hX a hax
  obtain ⟨hbl, hbb⟩ := hX b hbx
  rw [mergeTrunc]
  have hlen := mergeRow_length 1 a b (p.hashLenAt ℓ) (2 ^ ℓ) p.CollisionByteLength hal hbl
  have hbound := mergeRow_drop_bound 1 a b (p.hashLenAt ℓ) (2 ^ ℓ) p.CollisionByteLength
    _ hcb hal hbl hab hbb
  rw [hashLenAt_succ] at hlen hbound
  constructor
  · rw [hlen, show 2 * 2 ^ ℓ = 2 ^ (ℓ + 1) by rw [pow_succ]; ring]
  · exact hbound

theorem truncRoundsRec_inv (p : Params) (base : HashState) :
    ∀ (n r : Nat) (X : List Row), p.k - r ≤ n → 1 ≤ r → r ≤ p.k →
      (∀ row ∈ X, row.length = p.hashLenAt (r - 1) + 2 ^ (r - 1) ∧
        ∀ x ∈ row.drop (p.hashLenAt (r - 1)), x < 2 ^ min (p.CollisionBitLength + 1) 8) →
      ∃ r2 Y, r ≤ r2 ∧ r2 ≤ p.k ∧
        truncRoundsRec p base r (p.hashLenAt (r - 1)) (2 ^ (r - 1)) X =
          (Y, p.hashLenAt (r2 - 1), 2 ^ (r2 - 1)) ∧
        ∀ row ∈ Y, row.length = p.hashLenAt (r2 - 1) + 2 ^ (r2 - 1) ∧
          ∀ x ∈ row.drop (p.hashLenAt (r2 - 1)), x < 2 ^ min (p.CollisionBitLength + 1) 8 := by
  intro n
  induction n with
  | zero =>
      intro r X hn h1 hk hX
      rw [truncRoundsRec_eq, dif_neg (by omega)]
      exact ⟨r, X, le_rfl, hk, rfl, hX⟩
  | succ n ih =>
      intro r X hn h1 hk hX
      by_cases h : r < p.k ∧ X ≠ []
      · rw [truncRoundsRec_eq, dif_pos h]
        have hnew := truncRound_inv p (r - 1) X (hashLenAt_ge p (r - 1) (by omega)) hX
        have harith1 : p.hashLenAt (r - 1) - p.CollisionByteLength =
            p.hashLenAt ((r + 1) - 1) := by
          rw [hashLenAt_succ]
          congr 1
          omega
        have harith2 : 2 * 2 ^ (r - 1) = 2 ^ ((r + 1) - 1) := by
          rw [show (r + 1) - 1 = (r - 1) + 1 by omega, pow_succ]
          ring
        rw [harith1, harith2]
        have hnew2 : ∀ row ∈ truncRound p (p.hashLenAt (r - 1)) (2 ^ (r - 1)) X,
            row.length = p.hashLenAt ((r + 1) - 1) + 2 ^ ((r + 1) - 1) ∧
            ∀ x ∈ row.drop (p.hashLenAt ((r + 1) - 1)),
              x < 2 ^ min (p.CollisionBitLength + 1) 8 := by
          intro row hrow
          have := hnew row hrow
          rw [show (r - 1) + 1 = (r + 1) - 1 by omega] at this
          exact this
        obtain ⟨r2, Y, hr2a, hr2b, heq, hval⟩ := ih (r + 1)
          (truncRound p (p.hashLenAt (r - 1)) (2 ^ (r - 1)) X)
          (by omega) (by omega) (by omega) hnew2
        exact ⟨r2, Y, by omega, hr2b, heq, hval⟩
      · rw [truncRoundsRec_eq, dif_neg h]
        exact ⟨r, X, le_rfl, hk, rfl, hX⟩

theorem emitPSoln_mem {p : Params} {hl li : Nat} {a b : Row} {s : List Nat}
    (h : s ∈ emitPSoln p hl li a b) :
    s = GetTruncatedIndices (mergeRow 1 a b hl li 0) hl (2 * li) := by
  simp only [emitPSoln, mergeTrunc, List.mem_singleton] at h
  exact h

theorem truncSolvePure_bytes (p : Params) (base : HashState) (hk : 1 ≤ p.k) :
    ∀ ps ∈ truncSolvePure p base, ∀ x ∈ ps, x < 2 ^ min (p.CollisionBitLength + 1) 8 := by
  intro ps hps x hx
  rw [truncSolvePure] at hps
  obtain ⟨r2, Y, hr2a, hr2b, heq, hinv⟩ := truncRoundsRec_inv p base (p.k - 1) 1
    (initialListTrunc p base) (by omega) le_rfl hk
    (by
      intro row hrow
      exact initialListTrunc_inv p base row hrow)
  have e10 : (1 : Nat) - 1 = 0 := rfl
  rw [e10, hashLenAt_zero, pow_zero] at heq
  rw [heq, truncSolveFinal] at hps
  dsimp only at hps
  by_cases hY : Y.length > 1
  case neg =>
    rw [if_neg hY] at hps
    simp at hps
  rw [if_pos hY] at hps
  obtain ⟨u, v, _, huv, hv, _, hmem⟩ := scanEmits_mem _ _ _ _ _ _ hps
  have hA := hinv _ (mem_sortRows
    (getD_mem (sortRows (p.hashLenAt (r2 - 1)) Y) u [] (by omega)))
  have hB := hinv _ (mem_sortRows
    (getD_mem (sortRows (p.hashLenAt (r2 - 1)) Y) v [] hv))
  have hps2 := emitPSoln_mem hmem
  subst hps2
  rw [GetTruncatedIndices] at hx
  have hdrop := (mergeRow_spec 1
    ((sortRows (p.hashLenAt (r2 - 1)) Y).getD u [])
    ((sortRows (p.hashLenAt (r2 - 1)) Y).getD v [])
    (p.hashLenAt (r2 - 1)) (2 ^ (r2 - 1)) 0 (Nat.zero_le _)
    (by rw [hA.1]) (by rw [hB.1])).2
  rw [Nat.sub_zero] at hdrop
  rw [hdrop] at hx
  have hx2 := List.mem_of_mem_take hx
  by_cases hlm : leftmostIndex 1 ((sortRows (p.hashLenAt (r2 - 1)) Y).getD u [])
      (p.hashLenAt (r2 - 1)) <
      leftmostIndex 1 ((sortRows (p.hashLenAt (r2 - 1)) Y).getD v []) (p.hashLenAt (r2 - 1))
  · rw [if_pos hlm] at hx2
    rcases List.mem_append.mp hx2 with h | h
    · exact hA.2 x (List.mem_of_mem_take h)
    · exact hB.2 x (List.mem_of_mem_take h)
  · rw [if_neg hlm] at hx2
    rcases List.mem_append.mp hx2 with h | h
    · exact hB.2 x (List.mem_of_mem_take h)
    · exact hA.2 x (List.mem_of_mem_take h)

theorem foldl_recreate_mem (p : Params) (base : HashState) :
    ∀ (l : List (List Nat)) (acc : List (List Nat)) (s : List Nat),
      s ∈ l.foldl (fun a q =>
        match recreateOne p base q with
        | none => a
        | some r2 => a ++ r2) acc →
      s ∈ acc ∨ ∃ q ∈ l, ∃ r2, recreateOne p base q = some r2 ∧ s ∈ r2 := by
  intro l
  induction l with
  | nil =>
      intro acc s h
      exact Or.inl (by simpa using h)
  | cons q rest ih =>
      intro acc s h
      rw [List.foldl_cons] at h
      cases hro : recreateOne p base q with
      | none =>
          rw [hro] at h
          rcases ih _ _ h with h1 | ⟨q2, hq2, r2, hr2, hs2⟩
          · exact Or.inl h1
          · exact Or.inr ⟨q2, List.mem_cons_of_mem _ hq2, r2, hr2, hs2⟩
      | some r2 =>
          rw [hro] at h
          rcases ih _ _ h with h1 | ⟨q2, hq2, r3, hr3, hs3⟩
          · rcases List.mem_append.mp h1 with h2 | h2
            · exact Or.inl h2
            · exact Or.inr ⟨q, List.mem_cons_self _ _, r2, hro, h2⟩
          · exact Or.inr ⟨q2, List.mem_cons_of_mem _ hq2, r3, hr3, hs3⟩


theorem EHL_sub_k_cb (p : Params) :
    p.ExpandedHashLength - p.k * p.CollisionByteLength = p.CollisionByteLength := by
  rw [show p.ExpandedHashLength - p.k * p.CollisionByteLength = p.hashLenAt p.k from rfl]
  rw [Params.hashLenAt, Params.ExpandedHashLength, ← Nat.sub_mul,
    show p.k + 1 - p.k = 1 by omega, one_mul]

/-- C2 (amended): every solution emitted by `OptimisedSolve` is the index list
of a root assembled from `2^K` in-range leaves by `K` levels of collision
merges that pass every structural check of the verifier (collision bytes,
canonical ordering, distinct indices); the verifier's verdict on it therefore
reduces to the single final all-zero test on that root's remaining
`CollisionByteLength` bytes — the one check Phase B of `OptimisedSolve` never
performs.  (The original claim — that the verdict is always `true` — is false;
see the counterexample.) -/
theorem optimised_solve_outputs_reduce (p : Params) (base : HashState)
    (c : EhSolverCancelCheck → Bool) (hc : ∀ l, c l = false)
    (hk : 1 ≤ p.k) (hbit : p.CollisionBitLength + 1 ≤ 32)
    (s : List Nat) (hs : s ∈ optimisedSolutions p base c) :
    ∃ R, ValidRow p base p.k R ∧
      s = GetIndices R (p.hashLenAt p.k) (4 * 2 ^ p.k) ∧
      IsValidSolution p base s = some (IsZero R p.CollisionByteLength) := by
  rw [optimisedSolutions_eq_pure p base c hc, optimisedSolvePure] at hs
  rcases foldl_recreate_mem p base _ _ _ hs with h1 | ⟨ps, hps, solns, hro, hsin⟩
  · simp at h1
  obtain ⟨R, hR, hsR⟩ := recreateOne_sound p base ps
    (truncSolvePure_bytes p base hk ps hps) solns s hro hsin
  refine ⟨R, hR, hsR, ?_⟩
  subst hsR
  have hcount : ∀ m : Nat, (4 * m + 3) / 4 = m := fun m => by omega
  have hlen : (GetIndices R (p.hashLenAt p.k) (4 * 2 ^ p.k)).length = 2 ^ p.k := by
    rw [getIndices_length]
    exact hcount _
  have hrun := runLevels_reconstruct p base hbit p.k le_rfl [R]
    (by
      intro r hr
      rw [List.mem_singleton] at hr
      subst hr
      exact hR)
  simp only [List.flatMap_cons, List.flatMap_nil, List.append_nil] at hrun
  rw [IsValidSolution, if_neg (by simp [hlen, Params.solnSize])]
  rw [validLoop_runLevels_last p p.k _ _ _ _ R hrun
    (by rw [hlen]; exact Nat.lt_succ_of_lt (Nat.lt_two_pow _))]
  rw [EHL_sub_k_cb]

/-- Witness for the amended C2 at `(N, K) = (2, 1)` with the zero digest and
output `[0, 1]`. -/
theorem optimised_solve_outputs_reduce_witness :
    ∃ R, ValidRow ⟨2, 1⟩ (fun _ => [0, 0]) 1 R ∧
      [0, 1] = GetIndices R ((⟨2, 1⟩ : Params).hashLenAt 1) (4 * 2 ^ 1) ∧
      IsValidSolution ⟨2, 1⟩ (fun _ => [0, 0]) [0, 1] =
        some (IsZero R (⟨2, 1⟩ : Params).CollisionByteLength) :=
  optimised_solve_outputs_reduce ⟨2, 1⟩ (fun _ => [0, 0]) (fun _ => false) (fun _ => rfl)
    (by decide) (by decide) [0, 1] (by decide)

set_option maxRecDepth 200000 in
theorem optSolvePure_ce :
    optimisedSolvePure ⟨16, 1⟩ ceBase = [[11, 20], [10, 20], [11, 21], [10, 21]] := by
  decide

set_option maxRecDepth 10000 in
/-- C2 counterexample: at `(N, K) = (16, 1)` with the adversarial base state
`ceBase`, `OptimisedSolve` (with a never-cancelling probe) emits the index
pair `[10, 20]`, and the verifier rejects it: the rows of seeds 10 and 20
collide on the first hash byte (enough for every structural check Phase B
performs) but not on the second, and Phase B never re-checks the final
`IsZero`. -/
theorem optimised_solve_invalid_output :
    [10, 20] ∈ optimisedSolutions ⟨16, 1⟩ ceBase (fun _ => false) ∧
    IsValidSolution ⟨16, 1⟩ ceBase [10, 20] = some false := by
  constructor
  · rw [optimisedSolutions_eq_pure ⟨16, 1⟩ ceBase (fun _ => false) (fun _ => rfl),
      optSolvePure_ce]
    decide
  · decide


/-! ### The comparator is a strict weak order; the insertion sort sorts -/

theorem lexLt_asymm : ∀ a b : List Nat, lexLt a b = true → lexLt b a = false := by
  intro a
  induction a with
  | nil =>
      intro b h
      cases b with
      | nil => exact absurd h (by rw [lexLt]; simp)
      | cons y ys => rfl
  | cons x xs ih =>
      intro b h
      cases b with
      | nil => exact absurd h (by rw [lexLt]; simp)
      | cons y ys =>
          rw [lexLt] at h
          rw [lexLt]
          by_cases hxy : x < y
          · rw [if_neg (by omega), if_pos hxy]
          · rw [if_neg hxy] at h
            by_cases hyx : y < x
            · rw [if_pos hyx] at h
              exact absurd h (by simp)
            · rw [if_neg hyx] at h
              rw [if_neg hyx, if_neg hxy]
              exact ih ys h

theorem lexLt_neg_trans : ∀ a b c : List Nat,
    lexLt a b = false → lexLt b c = false → lexLt a c = false := by
  intro a
  induction a with
  | nil =>
      intro b c h1 h2
      cases b with
      | nil =>
          cases c with
          | nil => rfl
          | cons z zs => exact absurd h2 (by rw [lexLt]; simp)
      | cons y ys => exact absurd h1 (by rw [lexLt]; simp)
  | cons x xs ih =>
      intro b c h1 h2
      cases c with
      | nil => rfl
      | cons z zs =>
          cases b with
          | nil => exact absurd h2 (by rw [lexLt]; simp)
          | cons y ys =>
              rw [lexLt] at h1 h2 ⊢
              by_cases hxy : x < y
              · rw [if_pos hxy] at h1
                exact absurd h1 (by simp)
              · rw [if_neg hxy] at h1
                by_cases hyz : y < z
                · rw [if_pos hyz] at h2
                  exact absurd h2 (by simp)
                · rw [if_neg hyz] at h2
                  by_cases hxz : x < z
                  · omega
                  · rw [if_neg hxz]
                    by_cases hzx : z < x
                    · rw [if_pos hzx]
                    · rw [if_neg hzx]
                      have hyx : ¬ y < x := by omega
                      have hzy : ¬ z < y := by omega
                      rw [if_neg (by omega)] at h1
                      rw [if_neg (by omega)] at h2
                      exact ih ys zs h1 h2

theorem lexLt_connex : ∀ a b : List Nat,
    lexLt a b = false → lexLt b a = false → a = b := by
  intro a
  induction a with
  | nil =>
      intro b h1 _
      cases b with
      | nil => rfl
      | cons y ys => exact absurd h1 (by rw [lexLt]; simp)
  | cons x xs ih =>
      intro b h1 h2
      cases b with
      | nil => exact absurd h2 (by rw [lexLt]; simp)
      | cons y ys =>
          rw [lexLt] at h1 h2
          by_cases hxy : x < y
          · rw [if_pos hxy] at h1
            exact absurd h1 (by simp)
          · rw [if_neg hxy] at h1
            by_cases hyx : y < x
            · rw [if_pos hyx] at h2
              exact absurd h2 (by simp)
            · rw [if_neg hyx] at h1
              rw [if_neg hyx, if_neg hxy] at h2
              rw [show x = y by omega, ih ys h1 h2]


theorem compareSR_asymm {len : Nat} {a b : Row} (h : CompareSR len a b = true) :
    CompareSR len b a = false := lexLt_asymm _ _ h

theorem compareSR_neg_trans {len : Nat} {a b c : Row}
    (h1 : CompareSR len a b = false) (h2 : CompareSR len b c = false) :
    CompareSR len a c = false := lexLt_neg_trans _ _ _ h1 h2

theorem compareSR_connex {len : Nat} {a b : Row}
    (h1 : CompareSR len a b = false) (h2 : CompareSR len b a = false) :
    a.take len = b.take len := lexLt_connex _ _ h1 h2

theorem insertRow_pairwise (len : Nat) (r : Row) :
    ∀ l : List Row, l.Pairwise (fun a b => CompareSR len b a = false) →
      (insertRow len r l).Pairwise (fun a b => CompareSR len b a = false) := by
  intro l
  induction l with
  | nil =>
      intro _
      exact List.pairwise_singleton _ r
  | cons x xs ih =>
      intro hp
      rw [List.pairwise_cons] at hp
      obtain ⟨hx, hxs⟩ := hp
      rw [insertRow]
      by_cases hxr : CompareSR len x r = true
      · rw [if_pos hxr]
        rw [List.pairwise_cons]
        refine ⟨?_, ih hxs⟩
        intro y hy
        rcases List.mem_cons.mp ((insertRow_perm len r xs).mem_iff.mp hy) with rfl | hyxs
        · exact compareSR_asymm hxr
        · exact hx y hyxs
      · rw [if_neg hxr]
        rw [List.pairwise_cons]
        refine ⟨?_, List.pairwise_cons.mpr ⟨hx, hxs⟩⟩
        intro y hy
        rcases List.mem_cons.mp hy with rfl | hyxs
        · exact Bool.eq_false_iff.mpr hxr
        · have hyx : CompareSR len y x = false := hx y hyxs
          have hxr2 : CompareSR len x r = false := Bool.eq_false_iff.mpr hxr
          exact compareSR_neg_trans hyx hxr2

theorem sortRows_pairwise (len : Nat) :
    ∀ X : List Row, (sortRows len X).Pairwise (fun a b => CompareSR len b a = false) := by
  intro X
  induction X with
  | nil => exact List.Pairwise.nil
  | cons x xs ih =>
      rw [sortRows, List.foldr_cons]
      exact insertRow_pairwise len x _ ih


theorem pairwise_getD {len : Nat} {X : List Row}
    (h : X.Pairwise (fun a b => CompareSR len b a = false)) (i j : Nat)
    (hij : i < j) (hj : j < X.length) :
    CompareSR len (X.getD j []) (X.getD i []) = false := by
  simp only [List.getD_eq_getElem?_getD, List.getElem?_eq_getElem hj,
    List.getElem?_eq_getElem (show i < X.length by omega), Option.getD_some]
  exact List.pairwise_iff_getElem.mp h i j (by omega) hj hij

theorem runLength_stop (X : List Row) (clen : Nat) :
    ∀ (n i j : Nat), X.length - (i + j) ≤ n →
      i + runLength X clen i j < X.length →
      HasCollision (X.getD i []) (X.getD (i + runLength X clen i j) []) clen = false := by
  intro n
  induction n with
  | zero =>
      intro i j hn hlt
      rw [runLength_eq, if_neg (fun hc => absurd hc.1 (by omega))] at hlt
      omega
  | succ n ih =>
      intro i j hn hlt
      by_cases hc : i + j < X.length ∧ HasCollision (X.getD i []) (X.getD (i + j) []) clen
      · rw [runLength_eq, if_pos hc] at hlt ⊢
        exact ih i (j + 1) (by omega) hlt
      · rw [runLength_eq, if_neg hc] at hlt ⊢
        cases hcol : HasCollision (X.getD i []) (X.getD (i + j) []) clen
        · rfl
        · exact absurd ⟨hlt, hcol⟩ hc

theorem sorted_between_collision {clen : Nat} {X : List Row}
    (hsort : X.Pairwise (fun a b => CompareSR clen b a = false))
    {u v w : Nat} (huw : u ≤ w) (hwv : w ≤ v) (hv : v < X.length)
    (hcol : HasCollision (X.getD u []) (X.getD v []) clen = true) :
    HasCollision (X.getD u []) (X.getD w []) clen = true := by
  rcases eq_or_lt_of_le huw with rfl | huw2
  · simp [HasCollision]
  rcases eq_or_lt_of_le hwv with rfl | hwv2
  · exact hcol
  have h1 := pairwise_getD hsort u w huw2 (by omega)
  have h2 := pairwise_getD hsort w v hwv2 hv
  simp only [HasCollision, beq_iff_eq] at hcol
  rw [CompareSR] at h1 h2
  rw [← hcol] at h2
  have hwu := lexLt_connex _ _ h1 h2
  simp only [HasCollision, beq_iff_eq]
  exact hwu.symm

theorem scanEmits_complete {α : Type} (emitPair : Row → Row → List α) (clen : Nat)
    (X : List Row) (hsort : X.Pairwise (fun a b => CompareSR clen b a = false)) :
    ∀ (fuel i u v : Nat) (x : α), X.length - i ≤ fuel → i ≤ u → u < v → v < X.length →
      HasCollision (X.getD u []) (X.getD v []) clen = true →
      x ∈ emitPair (X.getD u []) (X.getD v []) →
      x ∈ scanEmits emitPair clen fuel X i := by
  intro fuel
  induction fuel with
  | zero =>
      intro i u v x hn hiu huv hv hcol hx
      omega
  | succ fuel ih =>
      intro i u v x hn hiu huv hv hcol hx
      rw [scanEmits, if_pos (by omega)]
      have hrge : 1 ≤ runLength X clen i 1 := runLength_ge X clen (X.length - (i + 1)) i 1 le_rfl
      by_cases hu : u < i + runLength X clen i 1
      · have hrv : v < i + runLength X clen i 1 := by
          by_contra hvge
          push_neg at hvge
          have hcolu : HasCollision (X.getD i []) (X.getD u []) clen = true := by
            rcases eq_or_lt_of_le hiu with rfl | hiu2
            · simp [HasCollision]
            · have h2 := (runLength_collides X clen (X.length - (i + 1)) i 1 le_rfl
                (u - i) (by omega) (by omega)).2
              rwa [show i + (u - i) = u by omega] at h2
          have hcoliv : HasCollision (X.getD i []) (X.getD v []) clen = true :=
            HasCollision_trans (HasCollision_symm _ _ _ hcolu) hcol
          have hstop := runLength_stop X clen (X.length - (i + 1)) i 1 le_rfl (by omega)
          have hbet := sorted_between_collision hsort
            (show i ≤ i + runLength X clen i 1 by omega) hvge hv hcoliv
          rw [hstop] at hbet
          exact Bool.noConfusion hbet
        refine List.mem_append.mpr (Or.inl ?_)
        rw [runPairs, List.mem_flatMap]
        refine ⟨u - i, by rw [List.mem_range]; omega, ?_⟩
        rw [List.mem_flatMap]
        refine ⟨v - i, by rw [List.mem_range'_1]; omega, ?_⟩
        rw [show i + (u - i) = u by omega, show i + (v - i) = v by omega]
        exact hx
      · push_neg at hu
        refine List.mem_append.mpr (Or.inr ?_)
        exact ih (i + runLength X clen i 1) u v x (by omega) hu huv hv hcol hx


theorem basicRound_complete (p : Params) (hl li : Nat) (X : List Row) (a b : Row)
    (ha : a ∈ X) (hb : b ∈ X) (hli : 1 ≤ li)
    (hla : hl + 4 ≤ a.length) (hlb : hl + 4 ≤ b.length)
    (hcol : HasCollision a b p.CollisionByteLength = true)
    (hdis : DistinctIndices a b hl li = true) :
    mergeFull a b hl li p.CollisionByteLength ∈ basicRound p hl li X := by
  have hlm := leftmost_ne_of_distinct a b hl li hli hla hlb hdis
  have hne : a ≠ b := fun he => hlm (by rw [he])
  rw [(basicRound_fresh_perm p hl li X).mem_iff, freshBasicRound]
  have ha2 : a ∈ sortRows p.CollisionByteLength X := (sortRows_perm _ X).mem_iff.mpr ha
  have hb2 : b ∈ sortRows p.CollisionByteLength X := (sortRows_perm _ X).mem_iff.mpr hb
  obtain ⟨ia, hia, hga⟩ := List.mem_iff_getElem.mp ha2
  obtain ⟨ib, hib, hgb⟩ := List.mem_iff_getElem.mp hb2
  have hga2 : (sortRows p.CollisionByteLength X).getD ia [] = a := by
    simp only [List.getD_eq_getElem?_getD, List.getElem?_eq_getElem hia, Option.getD_some]
    exact hga
  have hgb2 : (sortRows p.CollisionByteLength X).getD ib [] = b := by
    simp only [List.getD_eq_getElem?_getD, List.getElem?_eq_getElem hib, Option.getD_some]
    exact hgb
  have hineq : ia ≠ ib := fun he => hne (by rw [← hga2, he, hgb2])
  rcases Nat.lt_or_ge ia ib with hlt | hge
  · apply scanEmits_complete (emitBasic p hl li) p.CollisionByteLength _
      (sortRows_pairwise _ X) _ 0 ia ib _ (by omega) (Nat.zero_le _) hlt hib
    · rw [hga2, hgb2]
      exact hcol
    · rw [hga2, hgb2, emitBasic, if_pos hdis]
      exact List.mem_singleton.mpr rfl
  · have hgt : ib < ia := by omega
    apply scanEmits_complete (emitBasic p hl li) p.CollisionByteLength _
      (sortRows_pairwise _ X) _ 0 ib ia _ (by omega) (Nat.zero_le _) hgt hia
    · rw [hga2, hgb2]
      exact HasCollision_symm _ _ _ hcol
    · rw [hga2, hgb2, emitBasic, if_pos (distinct_symm hdis)]
      rw [List.mem_singleton, mergeFull, mergeFull]
      exact merge_swap a b hl li p.CollisionByteLength hlm

theorem validRow_descend (p : Params) (base : HashState) :
    ∀ {ℓ : Nat} {t : Row}, ValidRow p base ℓ t → ∀ m, m ≤ ℓ →
      ∃ t2, ValidRow p base m t2 := by
  intro ℓ t h
  induction h with
  | leaf i hi =>
      intro m hm
      have hm0 : m = 0 := by omega
      subst hm0
      exact ⟨_, ValidRow.leaf i hi⟩
  | node ℓ a b ha hb hcol hdis iha _ =>
      intro m hm
      by_cases hme : m = ℓ + 1
      · subst hme
        exact ⟨_, ValidRow.node ℓ a b ha hb hcol hdis⟩
      · exact iha m (by omega)

theorem basicRoundsRec_complete (p : Params) (base : HashState)
    (hex : ∃ tt, ValidRow p base (p.k - 1) tt) (hk : 1 ≤ p.k) :
    ∀ (n r : Nat) (X : List Row), p.k - r ≤ n → 1 ≤ r → r ≤ p.k →
      (∀ t, ValidRow p base (r - 1) t → t ∈ X) →
      ∃ Y, basicRoundsRec p base r (p.hashLenAt (r - 1)) (4 * 2 ^ (r - 1)) X =
          (Y, p.hashLenAt (p.k - 1), 4 * 2 ^ (p.k - 1)) ∧
        ∀ t, ValidRow p base (p.k - 1) t → t ∈ Y := by
  intro n
  induction n with
  | zero =>
      intro r X hn h1 hkr hX
      have hr : r = p.k := by omega
      subst hr
      rw [basicRoundsRec_eq, dif_neg (by omega)]
      exact ⟨X, rfl, hX⟩
  | succ n ih =>
      intro r X hn h1 hkr hX
      by_cases hr : r < p.k
      · obtain ⟨tt, htt⟩ := hex
        obtain ⟨t0, ht0⟩ := validRow_descend p base htt (r - 1) (by omega)
        have hXne : X ≠ [] := fun he => by
          rw [he] at hX
          exact absurd (hX t0 ht0) (List.not_mem_nil t0)
        rw [basicRoundsRec_eq, dif_pos ⟨hr, hXne⟩]
        have harith1 : p.hashLenAt (r - 1) - p.CollisionByteLength =
            p.hashLenAt ((r + 1) - 1) := by
          rw [hashLenAt_succ]
          congr 1
          omega
        have harith2 : 2 * (4 * 2 ^ (r - 1)) = 4 * 2 ^ ((r + 1) - 1) := by
          rw [show (r + 1) - 1 = (r - 1) + 1 by omega, pow_succ]
          ring
        rw [harith1, harith2]
        apply ih (r + 1) _ (by omega) (by omega) (by omega)
        intro t ht
        rw [show (r + 1) - 1 = (r - 1) + 1 by omega] at ht
        obtain ⟨u, v, hu, hv, hcol, hdis, hcan, rfl⟩ :=
          validRow_node_canonical p base (r - 1) t ht
        have h2pow : (1 : Nat) ≤ 2 ^ (r - 1) := Nat.one_le_two_pow
        have hlu := validRow_length p base hu
        have hlv := validRow_length p base hv
        exact basicRound_complete p _ _ X u v (hX u hu) (hX v hv) (by omega)
          (by omega) (by omega) (HasCollision_mono (le_refl _) hcol) hdis
      · have hre : r = p.k := by omega
        subst hre
        rw [basicRoundsRec_eq, dif_neg (by omega)]
        exact ⟨X, rfl, hX⟩


theorem zipWith_xor_all_zero_eq : ∀ a b : List Nat, a.length = b.length →
    (List.zipWith (fun x y => x ^^^ y) a b).all (fun x => x == 0) = true → a = b := by
  intro a
  induction a with
  | nil =>
      intro b hl _
      cases b with
      | nil => rfl
      | cons y ys => simp at hl
  | cons x xs ih =>
      intro b hl hz
      cases b with
      | nil => simp at hl
      | cons y ys =>
          rw [List.zipWith_cons_cons, List.all_cons, Bool.and_eq_true] at hz
          obtain ⟨h1, h2⟩ := hz
          have hxy : x = y := Nat.xor_eq_zero.mp (beq_iff_eq.mp h1)
          rw [hxy, ih ys (by simpa using hl) h2]

theorem collision_of_isZero_merge (u v : Row) (hl li cb : Nat)
    (h2 : 2 * cb ≤ hl) (hlu : u.length = hl + li) (hlv : v.length = hl + li)
    (hcol1 : HasCollision u v cb = true)
    (hz : IsZero (mergeRow 4 u v hl li cb) cb = true) :
    HasCollision u v (2 * cb) = true := by
  simp only [HasCollision, beq_iff_eq] at hcol1 ⊢
  rw [IsZero, mergeRow] at hz
  have hxlen : (XorSlice u v cb hl).length = hl - cb := by
    rw [XorSlice, List.length_zipWith]
    simp [List.length_take, List.length_drop, hlu, hlv]
    omega
  rw [List.take_append_of_le_length (by omega)] at hz
  rw [XorSlice, List.take_zipWith, List.take_take, List.take_take,
    Nat.min_eq_left (by omega)] at hz
  have hmid : (u.drop cb).take cb = (v.drop cb).take cb := by
    apply zipWith_xor_all_zero_eq _ _ ?_ hz
    simp [List.length_take, List.length_drop, hlu, hlv]
  rw [two_mul, List.take_add, List.take_add, hcol1, hmid]


theorem final_emit_mem (p : Params) (base : HashState) (Y : List Row) (u v : Row)
    (hu2 : u ∈ Y) (hv2 : v ∈ Y) (hk : 1 ≤ p.k)
    (huval : ValidRow p base (p.k - 1) u) (hvval : ValidRow p base (p.k - 1) v)
    (hcol2 : HasCollision u v (2 * p.CollisionByteLength) = true)
    (hdis : DistinctIndices u v (p.hashLenAt (p.k - 1)) (4 * 2 ^ (p.k - 1)) = true)
    (hcan : leftmostIndex 4 u (p.hashLenAt (p.k - 1)) <
      leftmostIndex 4 v (p.hashLenAt (p.k - 1)))
    (hYlen : 1 < Y.length) :
    GetIndices (mergeFull u v (p.hashLenAt (p.k - 1)) (4 * 2 ^ (p.k - 1))
        p.CollisionByteLength) (p.hashLenAt p.k) (4 * 2 ^ p.k) ∈
      basicSolveFinal p base (Y, p.hashLenAt (p.k - 1), 4 * 2 ^ (p.k - 1)) := by
  have h2pow : (1 : Nat) ≤ 2 ^ (p.k - 1) := Nat.one_le_two_pow
  have hlu := validRow_length p base huval
  have hlv := validRow_length p base hvval
  have h2cb := hashLenAt_last p hk
  have e1 : p.hashLenAt (p.k - 1) - p.CollisionByteLength = p.hashLenAt p.k := by
    rw [hashLenAt_succ]
    congr 1
    omega
  have e2 : 2 * (4 * 2 ^ (p.k - 1)) = 4 * 2 ^ p.k := by
    conv_rhs => rw [show p.k = p.k - 1 + 1 by omega]
    rw [pow_succ]
    ring
  have hGIcb := getIndices_merge u v (p.hashLenAt (p.k - 1)) (4 * 2 ^ (p.k - 1))
    p.CollisionByteLength hcan (by omega) hlu hlv (Nat.mul_mod_right 4 _)
  have hGI0 := getIndices_merge u v (p.hashLenAt (p.k - 1)) (4 * 2 ^ (p.k - 1)) 0 hcan
    (Nat.zero_le _) hlu hlv (Nat.mul_mod_right 4 _)
  rw [Nat.sub_zero] at hGI0
  have hseq : GetIndices (mergeFull u v (p.hashLenAt (p.k - 1)) (4 * 2 ^ (p.k - 1))
      p.CollisionByteLength) (p.hashLenAt p.k) (4 * 2 ^ p.k) =
      GetIndices (mergeRow 4 u v (p.hashLenAt (p.k - 1)) (4 * 2 ^ (p.k - 1)) 0)
        (p.hashLenAt (p.k - 1)) (2 * (4 * 2 ^ (p.k - 1))) := by
    rw [mergeFull, ← e1, ← e2, hGIcb, hGI0]
  rw [hseq, basicSolveFinal]
  dsimp only
  rw [if_pos hYlen]
  have hlm : leftmostIndex 4 u (p.hashLenAt (p.k - 1)) ≠
      leftmostIndex 4 v (p.hashLenAt (p.k - 1)) := Nat.ne_of_lt hcan
  have hne : u ≠ v := fun he => hlm (by rw [he])
  have hu3 : u ∈ sortRows (p.hashLenAt (p.k - 1)) Y := (sortRows_perm _ Y).mem_iff.mpr hu2
  have hv3 : v ∈ sortRows (p.hashLenAt (p.k - 1)) Y := (sortRows_perm _ Y).mem_iff.mpr hv2
  obtain ⟨ia, hia, hga⟩ := List.mem_iff_getElem.mp hu3
  obtain ⟨ib, hib, hgb⟩ := List.mem_iff_getElem.mp hv3
  have hga2 : (sortRows (p.hashLenAt (p.k - 1)) Y).getD ia [] = u := by
    simp only [List.getD_eq_getElem?_getD, List.getElem?_eq_getElem hia, Option.getD_some]
    exact hga
  have hgb2 : (sortRows (p.hashLenAt (p.k - 1)) Y).getD ib [] = v := by
    simp only [List.getD_eq_getElem?_getD, List.getElem?_eq_getElem hib, Option.getD_some]
    exact hgb
  have hineq : ia ≠ ib := fun he => hne (by rw [← hga2, he, hgb2])
  rcases Nat.lt_or_ge ia ib with hlt | hge
  · apply scanEmits_complete (emitSolnBasic p (p.hashLenAt (p.k - 1)) (4 * 2 ^ (p.k - 1)))
      (p.hashLenAt (p.k - 1)) _ (sortRows_pairwise _ Y) _ 0 ia ib _
      (by omega) (Nat.zero_le _) hlt hib
    · rw [hga2, hgb2, h2cb]
      exact hcol2
    · rw [hga2, hgb2, emitSolnBasic]
      rw [if_pos hdis]
      exact List.mem_singleton.mpr rfl
  · have hgt : ib < ia := by omega
    apply scanEmits_complete (emitSolnBasic p (p.hashLenAt (p.k - 1)) (4 * 2 ^ (p.k - 1)))
      (p.hashLenAt (p.k - 1)) _ (sortRows_pairwise _ Y) _ 0 ib ia _
      (by omega) (Nat.zero_le _) hgt hia
    · rw [hga2, hgb2, h2cb]
      exact HasCollision_symm _ _ _ hcol2
    · rw [hga2, hgb2, emitSolnBasic]
      rw [if_pos (distinct_symm hdis)]
      rw [List.mem_singleton]
      rw [merge_swap v u (p.hashLenAt (p.k - 1)) (4 * 2 ^ (p.k - 1)) 0 (fun h => hlm h.symm)]

/-- C3 (amended): every solution emitted by `OptimisedSolve` that the verifier
accepts is also emitted by `BasicSolve` on the same base state; the optimised
variant never invents a *valid* solution.  (The unconditional inclusion
claimed by the spec is false: the invalid extras produced by Phase B's missing
final zero check are not in `BasicSolve`'s output — see the counterexample.) -/
theorem optimised_outputs_in_basic (p : Params) (base : HashState)
    (c : EhSolverCancelCheck → Bool) (hc : ∀ l, c l = false)
    (hk : 1 ≤ p.k) (hbit : p.CollisionBitLength + 1 ≤ 32)
    (s : List Nat) (hs : s ∈ optimisedSolutions p base c)
    (hvalid : IsValidSolution p base s = some true) :
    s ∈ basicSolutions p base c := by
  rw [optimisedSolutions_eq_pure p base c hc, optimisedSolvePure] at hs
  rcases foldl_recreate_mem p base _ _ _ hs with h1 | ⟨ps, hps, solns, hro, hsin⟩
  · simp at h1
  obtain ⟨R, hR, hsR⟩ := recreateOne_sound p base ps
    (truncSolvePure_bytes p base hk ps hps) solns s hro hsin
  subst hsR
  have hcount : ∀ m : Nat, (4 * m + 3) / 4 = m := fun m => by omega
  have hlen : (GetIndices R (p.hashLenAt p.k) (4 * 2 ^ p.k)).length = 2 ^ p.k := by
    rw [getIndices_length]
    exact hcount _
  have hrun := runLevels_reconstruct p base hbit p.k le_rfl [R]
    (by
      intro r hr
      rw [List.mem_singleton] at hr
      subst hr
      exact hR)
  simp only [List.flatMap_cons, List.flatMap_nil, List.append_nil] at hrun
  have hval2 : IsValidSolution p base (GetIndices R (p.hashLenAt p.k) (4 * 2 ^ p.k)) =
      some (IsZero R p.CollisionByteLength) := by
    rw [IsValidSolution, if_neg (by simp [hlen, Params.solnSize])]
    rw [validLoop_runLevels_last p p.k _ _ _ _ R hrun
      (by rw [hlen]; exact Nat.lt_succ_of_lt (Nat.lt_two_pow _))]
    rw [EHL_sub_k_cb]
  rw [hval2] at hvalid
  have hIsZ : IsZero R p.CollisionByteLength = true := (Option.some.inj hvalid).symm ▸ rfl
  have hR2 : ValidRow p base (p.k - 1 + 1) R := by
    rwa [show p.k - 1 + 1 = p.k by omega]
  obtain ⟨u, v, hu, hv, hcol, hdis, hcan, hReq⟩ := validRow_node_canonical p base (p.k - 1) R hR2
  have h2pow : (1 : Nat) ≤ 2 ^ (p.k - 1) := Nat.one_le_two_pow
  have hlu := validRow_length p base hu
  have hlv := validRow_length p base hv
  have h2cb := hashLenAt_last p hk
  have hcol2 : HasCollision u v (2 * p.CollisionByteLength) = true := by
    apply collision_of_isZero_merge u v (p.hashLenAt (p.k - 1)) (4 * 2 ^ (p.k - 1))
      p.CollisionByteLength (by omega) hlu hlv hcol
    rw [hReq, mergeFull] at hIsZ
    exact hIsZ
  obtain ⟨Y, hYeq, hYcomp⟩ := basicRoundsRec_complete p base ⟨u, hu⟩ hk p.k 1
    (initialListFull p base) (by omega) le_rfl hk
    (by
      intro t ht
      cases ht with
      | leaf i hi =>
          rw [initialListFull, List.mem_map]
          exact ⟨i, List.mem_range.mpr hi, rfl⟩)
  have e10 : (1 : Nat) - 1 = 0 := rfl
  rw [e10, hashLenAt_zero, pow_zero, Nat.mul_one] at hYeq
  have hu2 := hYcomp u hu
  have hv2 := hYcomp v hv
  have hne : u ≠ v := fun he => (Nat.ne_of_lt hcan) (by rw [he])
  have hYlen : 1 < Y.length := by
    cases Y with
    | nil => exact absurd hu2 (List.not_mem_nil u)
    | cons w ws =>
        cases ws with
        | nil =>
            rw [List.mem_singleton] at hu2 hv2
            exact absurd (hu2.trans hv2.symm) hne
        | cons w2 rest =>
            simp [List.length_cons]
  rw [basicSolutions_eq_pure p base c hc, basicSolvePure, hYeq]
  rw [hReq]
  exact final_emit_mem p base Y u v hu2 hv2 hk hu hv hcol2 hdis hcan hYlen

/-- Witness for the amended C3 at `(N, K) = (2, 1)` with the zero digest:
`[0, 1]` is an accepted `OptimisedSolve` output and is also produced by
`BasicSolve`. -/
theorem optimised_outputs_in_basic_witness :
    [0, 1] ∈ basicSolutions ⟨2, 1⟩ (fun _ => [0, 0]) (fun _ => false) :=
  optimised_outputs_in_basic ⟨2, 1⟩ (fun _ => [0, 0]) (fun _ => false) (fun _ => rfl)
    (by decide) (by decide) [0, 1] (by decide) (by decide)

set_option maxRecDepth 10000 in
/-- C3 counterexample: at `(N, K) = (16, 1)` with the adversarial base state
`ceBase`, `OptimisedSolve` emits `[10, 20]` but `BasicSolve` does not: the
optimised variant invents a (necessarily invalid) solution, so the claimed
unconditional inclusion fails. -/
theorem optimised_output_not_in_basic :
    [10, 20] ∈ optimisedSolutions ⟨16, 1⟩ ceBase (fun _ => false) ∧
    [10, 20] ∉ basicSolutions ⟨16, 1⟩ ceBase (fun _ => false) := by
  constructor
  · rw [optimisedSolutions_eq_pure ⟨16, 1⟩ ceBase (fun _ => false) (fun _ => rfl),
      optSolvePure_ce]
    decide
  · intro hmem
    have hval := basicSolve_sound ⟨16, 1⟩ ceBase (fun _ => false) (fun _ => rfl)
      (by decide) (by decide) [10, 20] hmem
    have hinv : IsValidSolution ⟨16, 1⟩ ceBase [10, 20] = some false := by decide
    rw [hval] at hinv
    exact absurd hinv (by decide)

end Equihash
